import Mathlib

/-!
A verification development for the DPLL solver in `src/dpll.cpp`

The C++ class `CNF` keeps a list of clauses, each a list of literals; every
clause and every literal carries an existence window `[lifetime_start,
lifetime_end)` measured against the global counter `step`.  Soft deletion
stamps `lifetime_end := step`; `restore` undoes exactly the deletions stamped
with the current step.

The embedding below is a shallow one: every member function becomes a pure
function on an explicit state record.

* `unsigned int` values (`step`, windows, clause ids) are natural numbers.
  `step` is only ever incremented once per recursion level, so inside a run
  of `solve_impl` with fuel `n` it never exceeds its initial value plus `n`;
  theorems that depend on the counter not wrapping say so in a hypothesis.
* `variable_cnt` (a `std::vector<int>`) is a `List Int`; reads outside the
  vector give `0` and writes outside are dropped (in C++ both are undefined;
  the theorems assume or derive that ids are inside the table).
* `std::list` iteration with in-place mutation becomes list recursion that
  rebuilds the element under the cursor.
* `assert(false)` is the outcome `Run.fatal`; dereferencing an end iterator is
  `Run.undefined`; running out of the recursion and loop budget of the model is
  `Run.outOfFuel`.
-/

namespace CNF

/-- The constant `MAX_STEP = (unsigned int) -1`. -/
def MAX_STEP : Nat := 4294967295

/-- Outcome of a run of a possibly failing, possibly diverging member function. -/
inductive Run (α : Type) where
  | ok : α → Run α
  | fatal : Run α
  | undefined : Run α
  | outOfFuel : Run α
  deriving DecidableEq, Repr

/-- The enum `state_t`. -/
inductive state_t where
  | UNKNOWN
  | UNSAT
  | SAT
  deriving DecidableEq, Repr

/-- The class `CNF::Literal`: `val` is only ever built from `std::abs(n)` with
`n ≠ 0` or from the result of `select_variable`, hence a natural number. -/
structure Literal where
  val : Nat
  negated : Bool
  lifetime_start : Nat
  lifetime_end : Nat
  deriving DecidableEq, Repr

/-- The class `CNF::Clause`. -/
structure Clause where
  literals : List Literal
  lifetime_start : Nat
  lifetime_end : Nat
  id : Nat
  deriving DecidableEq, Repr

/-- `Literal::remove`: `lifetime_end = step`. -/
def Literal.remove (step : Nat) (l : Literal) : Literal :=
  { l with lifetime_end := step }

/-- `Literal::restore`: `if (step == lifetime_end) lifetime_end = MAX_STEP`. -/
def Literal.restore (step : Nat) (l : Literal) : Literal :=
  if step = l.lifetime_end then { l with lifetime_end := MAX_STEP } else l

/-- `Literal::negate`. -/
def Literal.negate (l : Literal) : Literal :=
  { l with negated := !l.negated }

/-- `Literal::exists`: `step >= lifetime_start && step < lifetime_end`. -/
def Literal.exists_ (step : Nat) (l : Literal) : Bool :=
  decide (l.lifetime_start ≤ step) && decide (step < l.lifetime_end)

/-- `Literal::operator!`: a copy with the polarity flipped. -/
def Literal.not (l : Literal) : Literal :=
  { l with negated := !l.negated }

/-- `Literal::operator==`: same variable and same polarity, windows ignored. -/
def Literal.eq (a b : Literal) : Bool :=
  a.val == b.val && a.negated == b.negated

/-- `Literal::value`: the signed integer written to the report. -/
def Literal.value (l : Literal) : Int :=
  if l.negated then -(l.val : Int) else (l.val : Int)

/-- `Clause::remove`: `lifetime_end = step`. -/
def Clause.remove (step : Nat) (c : Clause) : Clause :=
  { c with lifetime_end := step }

/-- `Clause::restore`: undo the clause's own removal when it was stamped with
the current step, then restore every contained literal. -/
def Clause.restore (step : Nat) (c : Clause) : Clause :=
  { c with
    lifetime_end := if c.lifetime_end = step then MAX_STEP else c.lifetime_end
    literals := c.literals.map (Literal.restore step) }

/-- `Clause::exists`. -/
def Clause.exists_ (step : Nat) (c : Clause) : Bool :=
  decide (c.lifetime_start ≤ step) && decide (step < c.lifetime_end)

/-- `Clause::count`: number of contained literals that exist. -/
def Clause.count (step : Nat) (c : Clause) : Nat :=
  (c.literals.filter (Literal.exists_ step)).length

/-- `Clause::begin`: the first existing literal, `none` for the end iterator. -/
def Clause.begin (step : Nat) (c : Clause) : Option Literal :=
  c.literals.find? (Literal.exists_ step)

/-- `Clause::empty`: `begin() == end()`. -/
def Clause.empty (step : Nat) (c : Clause) : Bool :=
  (c.begin step).isNone

/-- Read `variable_cnt[i]`. -/
def tblGet (t : List Int) (i : Nat) : Int :=
  t.getD i 0

/-- Update `variable_cnt[i] += d`. -/
def tblAdd : List Int → Nat → Int → List Int
  | [], _, _ => []
  | x :: xs, 0, d => (x + d) :: xs
  | x :: xs, i + 1, d => x :: tblAdd xs i d

/-- The state of a `CNF` object together with the two static counters
`CNF::step` and `CNF::Clause::clause_cnt`.  `pure_literals` is the stack, top
first. -/
structure State where
  step : Nat
  clause_cnt : Nat
  clauses : List Clause
  variable_cnt : List Int
  pure_literals : List (Literal × Nat)
  solution : List Literal
  solution_state : state_t
  deriving DecidableEq, Repr

/-- `CNF::empty`: no clause of the list exists. -/
def empty (s : State) : Bool :=
  (s.clauses.find? (Clause.exists_ s.step)).isNone

/-- The loop `for (const auto& l : clause_other) variable_cnt[l]--`. -/
def dec_live (step : Nat) : List Literal → List Int → List Int
  | [], cnt => cnt
  | l :: rest, cnt =>
    if l.exists_ step then dec_live step rest (tblAdd cnt l.val (-1))
    else dec_live step rest cnt

/-- The loop `for (auto& lit : clause_other)` of `unit_propagation`, with the
literals already passed in `done` and those still ahead in the third argument.
The result is the new literal list, the new table, the new `modified` flag and
whether the clause was removed (the `break` branch). -/
def unit_scan (step : Nat) (unit_lit : Literal) :
    List Literal → List Literal → List Int → Bool →
      List Literal × List Int × Bool × Bool
  | done, [], cnt, modified => (done, cnt, modified, false)
  | done, lit :: rest, cnt, modified =>
    if lit.exists_ step then
      if lit.eq unit_lit.not then
        unit_scan step unit_lit (done ++ [lit.remove step]) rest
          (tblAdd cnt unit_lit.val (-1)) true
      else if lit.eq unit_lit then
        (done ++ lit :: rest, dec_live step (done ++ lit :: rest) cnt, true, true)
      else unit_scan step unit_lit (done ++ [lit]) rest cnt modified
    else unit_scan step unit_lit (done ++ [lit]) rest cnt modified

/-- One iteration of `for (auto& clause_other : *this)` in `unit_propagation`:
clauses that do not exist are skipped by the iterator, the unit clause itself
is skipped by the identity test. -/
def unit_other (step : Nat) (unit_lit : Literal) (uid : Nat) (c : Clause)
    (cnt : List Int) (modified : Bool) : Clause × List Int × Bool :=
  if c.exists_ step then
    if c.id = uid then (c, cnt, modified)
    else
      let r := unit_scan step unit_lit [] c.literals cnt modified
      let c1 : Clause := { c with literals := r.1 }
      (if r.2.2.2 then c1.remove step else c1, r.2.1, r.2.2.1)
  else (c, cnt, modified)

/-- The loop `for (auto& clause_other : *this)` of `unit_propagation`. -/
def unit_others (step : Nat) (unit_lit : Literal) (uid : Nat) :
    List Clause → List Int → Bool → List Clause × List Int × Bool
  | [], cnt, modified => ([], cnt, modified)
  | c :: cs, cnt, modified =>
    let r := unit_other step unit_lit uid c cnt modified
    let rs := unit_others step unit_lit uid cs r.2.1 r.2.2
    (r.1 :: rs.1, rs.2.1, rs.2.2)

/-- One iteration of the outer loop `for (const auto& clause : *this)` of
`unit_propagation`, the cursor standing on position `i` of the clause list. -/
def unit_visit (step : Nat) (st : List Clause × List Int × Bool) (i : Nat) :
    List Clause × List Int × Bool :=
  match st.1.get? i with
  | none => st
  | some clause =>
    if clause.exists_ step && decide (clause.count step = 1) then
      match clause.begin step with
      | none => st
      | some unit_lit => unit_others step unit_lit clause.id st.1 st.2.1 st.2.2
    else st

/-- `CNF::unit_propagation`: returns `modified` and the new state. -/
def unit_propagation (s : State) : Bool × State :=
  let r := (List.range s.clauses.length).foldl (unit_visit s.step)
    (s.clauses, s.variable_cnt, false)
  (r.2.2, { s with clauses := r.1, variable_cnt := r.2.1 })

/-- The first inner loop of `pure_literal_elimination`: push every existing
literal whose variable has occurrence exactly 1 and raise `is_pure`. -/
def pure_scan (step : Nat) (cnt : List Int) :
    List Literal → List (Literal × Nat) → Bool → List (Literal × Nat) × Bool
  | [], stk, is_pure => (stk, is_pure)
  | lit :: rest, stk, is_pure =>
    if lit.exists_ step && decide (tblGet cnt lit.val = 1) then
      pure_scan step cnt rest ((lit, step) :: stk) true
    else pure_scan step cnt rest stk is_pure

/-- One iteration of `for (auto& clause : *this)` in
`pure_literal_elimination`. -/
def pure_visit (step : Nat) (c : Clause) (cnt : List Int)
    (stk : List (Literal × Nat)) (modified : Bool) :
    Clause × List Int × List (Literal × Nat) × Bool :=
  if c.exists_ step then
    let r := pure_scan step cnt c.literals stk false
    if r.2 then (c.remove step, dec_live step c.literals cnt, r.1, true)
    else (c, cnt, r.1, modified)
  else (c, cnt, stk, modified)

/-- The loop `for (auto& clause : *this)` of `pure_literal_elimination`. -/
def pure_clauses (step : Nat) :
    List Clause → List Int → List (Literal × Nat) → Bool →
      List Clause × List Int × List (Literal × Nat) × Bool
  | [], cnt, stk, modified => ([], cnt, stk, modified)
  | c :: cs, cnt, stk, modified =>
    let r := pure_visit step c cnt stk modified
    let rs := pure_clauses step cs r.2.1 r.2.2.1 r.2.2.2
    (r.1 :: rs.1, rs.2.1, rs.2.2.1, rs.2.2.2)

/-- `CNF::pure_literal_elimination`: returns `modified` and the new state. -/
def pure_literal_elimination (s : State) : Bool × State :=
  let r := pure_clauses s.step s.clauses s.variable_cnt s.pure_literals false
  (r.2.2.2, { s with clauses := r.1, variable_cnt := r.2.1, pure_literals := r.2.2.1 })

/-- `CNF::select_variable`: the first index `var ≥ 1` with
`variable_cnt[var] > 0`; `none` stands for reaching `assert(false)`. -/
def select_variable (s : State) : Option Nat :=
  ((List.range s.variable_cnt.length).drop 1).find?
    (fun var => decide (0 < tblGet s.variable_cnt var))

/-- The loop `while (unit_propagation()) { }`. -/
def unit_loop : Nat → State → Run State
  | 0, _ => Run.outOfFuel
  | n + 1, s =>
    let r := unit_propagation s
    if r.1 then unit_loop n r.2 else Run.ok r.2

/-- The loop `while (pure_literal_elimination()) { if (empty()) { state = SAT;
break; } }`; the flag tells whether the loop left through the `break`. -/
def pure_loop : Nat → State → Run (Bool × State)
  | 0, _ => Run.outOfFuel
  | n + 1, s =>
    let r := pure_literal_elimination s
    if r.1 then
      if empty r.2 then Run.ok (true, r.2) else pure_loop n r.2
    else Run.ok (false, r.2)

/-- Step 3 of `solve_impl`: is there an existing clause without an existing
literal. -/
def has_empty_clause (s : State) : Bool :=
  s.clauses.any (fun c => c.exists_ s.step && c.empty s.step)

/-- The verdict after steps 1 to 3 of `solve_impl`. -/
def detect (sat : Bool) (s : State) : state_t :=
  if sat then state_t.SAT
  else if has_empty_clause s then state_t.UNSAT
  else state_t.UNKNOWN

/-- The first three statements of step 4: build the literal and its unit
clause stamped with the current step, push it to the front, bump the
occurrence of the variable. -/
def push_decision (s : State) (var : Nat) : State :=
  let lit : Literal := ⟨var, false, s.step, MAX_STEP⟩
  { s with
    clauses := ⟨[lit], s.step, MAX_STEP, s.clause_cnt⟩ :: s.clauses
    clause_cnt := s.clause_cnt + 1
    variable_cnt := tblAdd s.variable_cnt lit.val 1 }

/-- Negate the first existing literal of a list: `begin()->negate()`. -/
def negate_first (step : Nat) : List Literal → Option (List Literal)
  | [] => none
  | l :: rest =>
    if l.exists_ step then some (l.negate :: rest)
    else (negate_first step rest).map (fun r => l :: r)

/-- The statement `clauses.front().begin()->negate()`. -/
def negate_front (s : State) : Option State :=
  match s.clauses with
  | [] => none
  | c :: cs =>
    match negate_first s.step c.literals with
    | none => none
    | some ls => some { s with clauses := { c with literals := ls } :: cs }

/-- The statement `clauses.pop_front()`. -/
def pop_front (s : State) : State :=
  { s with clauses := s.clauses.tail }

/-- Step 5 of `solve_impl`, the epilogue. -/
def epilogue (save_variable_cnt : List Int) (state : state_t) (s : State) : State :=
  let drained : State :=
    if state = state_t.SAT then
      { s with solution := s.solution ++ s.pure_literals.map Prod.fst, pure_literals := [] }
    else s
  { drained with
    clauses := drained.clauses.map (Clause.restore drained.step)
    pure_literals := drained.pure_literals.dropWhile (fun p => decide (drained.step ≤ p.2))
    step := drained.step - 1
    variable_cnt := save_variable_cnt }

/-- `CNF::solve_impl`.  The fuel bounds the recursion depth and the number of
iterations of each `while` loop. -/
def solve_impl : Nat → State → Run (state_t × State)
  | 0, _ => Run.outOfFuel
  | fuel + 1, s =>
    match unit_loop (fuel + 1) { s with step := s.step + 1 } with
    | Run.ok s1 =>
      match pure_loop (fuel + 1) s1 with
      | Run.ok (sat, s2) =>
        match detect sat s2 with
        | state_t.UNKNOWN =>
          match select_variable s2 with
          | none => Run.fatal
          | some var =>
            match solve_impl fuel (push_decision s2 var) with
            | Run.ok (state_t.SAT, s3) =>
              Run.ok (state_t.SAT, epilogue s.variable_cnt state_t.SAT (pop_front s3))
            | Run.ok (_, s3) =>
              match negate_front s3 with
              | none => Run.undefined
              | some s4 =>
                match solve_impl fuel s4 with
                | Run.ok (state, s5) =>
                  Run.ok (state, epilogue s.variable_cnt state (pop_front s5))
                | Run.fatal => Run.fatal
                | Run.undefined => Run.undefined
                | Run.outOfFuel => Run.outOfFuel
            | Run.fatal => Run.fatal
            | Run.undefined => Run.undefined
            | Run.outOfFuel => Run.outOfFuel
        | state => Run.ok (state, epilogue s.variable_cnt state s2)
      | Run.fatal => Run.fatal
      | Run.undefined => Run.undefined
      | Run.outOfFuel => Run.outOfFuel
    | Run.fatal => Run.fatal
    | Run.undefined => Run.undefined
    | Run.outOfFuel => Run.outOfFuel

/-- `CNF::solve` without the clock: reset `step`, run the engine once, record
the verdict. -/
def solve (fuel : Nat) (s : State) : Run State :=
  match solve_impl fuel { s with step := 0 } with
  | Run.ok (state, s1) => Run.ok { s1 with solution_state := state }
  | Run.fatal => Run.fatal
  | Run.undefined => Run.undefined
  | Run.outOfFuel => Run.outOfFuel

/-- One line of the input file as `from_file` sees it: a comment line (first
character `c`), the header line `p cnf n m`, or any other line, given by the
integers that `iss >> n` extracts from it. -/
inductive Line where
  | comment : Line
  | header : Nat → Nat → Line
  | body : List Int → Line
  deriving DecidableEq, Repr

/-- The local variables of `from_file`, with the static `clause_cnt`. -/
structure Reader where
  clauses : List Clause
  variable_cnt : List Int
  valid_header : Bool
  m : Option Nat
  clause_cnt : Nat
  deriving DecidableEq, Repr

/-- `variable_cnt.resize(n)`: cut, or pad with zeros. -/
def resize (t : List Int) (n : Nat) : List Int :=
  t.take n ++ List.replicate (n - t.length) 0

/-- The loop `while (iss >> n)` over one line; the second argument is the local
list `literals`, which is dropped when the line ends. -/
def read_numbers : List Int → List Literal → Reader → Reader
  | [], _, r => r
  | n :: rest, literals, r =>
    if n = 0 then
      read_numbers rest []
        { r with
          clauses := r.clauses ++ [⟨literals, 0, MAX_STEP, r.clause_cnt⟩]
          clause_cnt := r.clause_cnt + 1 }
    else
      read_numbers rest (literals ++ [⟨n.natAbs, decide (n < 0), 0, MAX_STEP⟩])
        { r with variable_cnt := tblAdd r.variable_cnt n.natAbs 1 }

/-- The loop `while (std::getline(ifs, line))` of `from_file`. -/
def read_lines : List Line → Reader → Run Reader
  | [], r => Run.ok r
  | Line.comment :: rest, r => read_lines rest r
  | Line.header n m :: rest, r =>
    read_lines rest
      { r with variable_cnt := resize r.variable_cnt (n + 1), valid_header := true, m := some m }
  | Line.body nums :: rest, r =>
    if r.valid_header then read_lines rest (read_numbers nums [] r) else Run.fatal

/-- `CNF::from_file` on the lines of the file, for a program that has built no
clause before.  Reading `m` without a header is undefined. -/
def from_file (lines : List Line) : Run State :=
  match read_lines lines ⟨[], [], false, none, 0⟩ with
  | Run.ok r =>
    match r.m with
    | none => Run.undefined
    | some m =>
      if r.clauses.length = m then
        Run.ok ⟨0, r.clause_cnt, r.clauses, r.variable_cnt, [], [], state_t.UNKNOWN⟩
      else Run.fatal
  | Run.fatal => Run.fatal
  | Run.undefined => Run.undefined
  | Run.outOfFuel => Run.outOfFuel

/-- Run `solve` on what `from_file` returns, as `main` does. -/
def run_file (fuel : Nat) (lines : List Line) : Run State :=
  match from_file lines with
  | Run.ok s => solve fuel s
  | Run.fatal => Run.fatal
  | Run.undefined => Run.undefined
  | Run.outOfFuel => Run.outOfFuel

/-- The verdict recorded by a finished `solve`, `none` when it did not finish. -/
def verdict (r : Run State) : Option state_t :=
  match r with
  | Run.ok s => some s.solution_state
  | _ => none

/-- The solution list after a finished `solve`. -/
def produced (r : Run State) : List Literal :=
  match r with
  | Run.ok s => s.solution
  | _ => []

/-- The verdict returned by a finished `solve_impl`. -/
def returned (r : Run (state_t × State)) : Option state_t :=
  match r with
  | Run.ok p => some p.1
  | _ => none

/-- The state left behind by a finished `solve_impl`. -/
def left (r : Run (state_t × State)) (dflt : State) : State :=
  match r with
  | Run.ok p => p.2
  | _ => dflt

/-- The state `from_file` returns for the file `p cnf nv 0` without clause
lines. -/
def zero_clauses (nv : Nat) : State :=
  ⟨0, 0, [], List.replicate (nv + 1) 0, [], [], state_t.UNKNOWN⟩

/-- The file for `(x1 ∨ x2) ∧ (¬x1 ∨ x2) ∧ (x1 ∨ ¬x2) ∧ (¬x1 ∨ ¬x2)`. -/
def four_clauses : List Line :=
  [Line.header 2 4, Line.body [1, 2, 0], Line.body [-1, 2, 0], Line.body [1, -2, 0],
    Line.body [-1, -2, 0]]

/-- The state at the root node of the search on `four_clauses`, after
`step++`. -/
def four_root : State :=
  ⟨1, 4,
    [⟨[⟨1, false, 0, MAX_STEP⟩, ⟨2, false, 0, MAX_STEP⟩], 0, MAX_STEP, 0⟩,
     ⟨[⟨1, true, 0, MAX_STEP⟩, ⟨2, false, 0, MAX_STEP⟩], 0, MAX_STEP, 1⟩,
     ⟨[⟨1, false, 0, MAX_STEP⟩, ⟨2, true, 0, MAX_STEP⟩], 0, MAX_STEP, 2⟩,
     ⟨[⟨1, true, 0, MAX_STEP⟩, ⟨2, true, 0, MAX_STEP⟩], 0, MAX_STEP, 3⟩],
    [0, 4, 4], [], [], state_t.UNKNOWN⟩

/-- The file for the one-clause formula `(x1 ∨ x1)`. -/
def repeated_literal : List Line :=
  [Line.header 1 1, Line.body [1, 1, 0]]

/-- Number of existing literals over variable `v` in a literal list. -/
def live_count (step v : Nat) (ls : List Literal) : Nat :=
  ls.countP (fun l => l.exists_ step && decide (l.val = v))

/-- Number of existing literals over variable `v` in a clause, `0` when the
clause does not exist. -/
def clause_count (step v : Nat) (c : Clause) : Nat :=
  if c.exists_ step then live_count step v c.literals else 0

/-- Number of existing literals over variable `v` in the existing clauses of a
clause list: what a scan of the formula at step `step` counts. -/
def occurrences (step v : Nat) : List Clause → Nat
  | [] => 0
  | c :: cs => clause_count step v c + occurrences step v cs

/-- The occurrence invariant for a clause list and a table: for every variable
the table entry is the number of existing literals over it in existing clauses.
An index outside the table reads as `0`, so the invariant also says that no
existing literal of an existing clause has an id outside the table. -/
def OccAt (step : Nat) (cs : List Clause) (cnt : List Int) : Prop :=
  ∀ v, tblGet cnt v = (occurrences step v cs : Int)

/-- The occurrence invariant of a state. -/
def OccInv (s : State) : Prop :=
  OccAt s.step s.clauses s.variable_cnt

/-- No existing literal of an existing clause has an id outside a table of
length `n`. -/
def InTable (step : Nat) (cs : List Clause) (n : Nat) : Prop :=
  ∀ c ∈ cs, c.exists_ step = true → ∀ l ∈ c.literals, l.exists_ step = true → l.val < n

/-- What one sweep of `unit_propagation` for the unit literal `u` may do to a
literal: leave it, or remove it when it exists and equals `!u`. -/
def LitProp (step : Nat) (u : Literal) (l l' : Literal) : Prop :=
  l' = l ∨ (l.exists_ step = true ∧ l.eq u.not = true ∧ l' = l.remove step)

/-- What one sweep of `unit_propagation` for the unit literal `u` of the clause
with identity `uid` may do to a clause: remove some literals equal to `!u`, and
remove the clause when it holds an existing literal equal to `u`; a clause that
does not exist, and the unit clause itself, stay as they are. -/
def ClauseProp (step : Nat) (u : Literal) (uid : Nat) (c c' : Clause) : Prop :=
  c'.lifetime_start = c.lifetime_start ∧ c'.id = c.id ∧
  List.Forall₂ (LitProp step u) c.literals c'.literals ∧
  (c'.lifetime_end = c.lifetime_end ∨
    (c.exists_ step = true ∧ c'.lifetime_end = step ∧
      ∃ l ∈ c.literals, l.exists_ step = true ∧ l.eq u = true)) ∧
  (c.exists_ step = false ∨ c.id = uid → c' = c)

/-- A state with the unit clause `(x1)` and the clause `(¬x1 ∨ x2)`, at step 1. -/
def unit_example : State :=
  ⟨1, 2,
    [⟨[⟨1, false, 0, MAX_STEP⟩], 0, MAX_STEP, 0⟩,
     ⟨[⟨1, true, 0, MAX_STEP⟩, ⟨2, false, 0, MAX_STEP⟩], 0, MAX_STEP, 1⟩],
    [0, 2, 1], [], [], state_t.UNKNOWN⟩

/-- Every window end of the clause list (clauses and literals) is `MAX_STEP` or
at most `S`: nothing has been removed at a step deeper than `S`. -/
def Settled (S : Nat) (cs : List Clause) : Prop :=
  ∀ c ∈ cs, (c.lifetime_end = MAX_STEP ∨ c.lifetime_end ≤ S) ∧
    ∀ l ∈ c.literals, l.lifetime_end = MAX_STEP ∨ l.lifetime_end ≤ S

/-- What a frame at step `S` may do to a literal: leave it, or remove an
existing one. -/
def LitStep (S : Nat) (l l' : Literal) : Prop :=
  l' = l ∨ (l.exists_ S = true ∧ l' = l.remove S)

/-- What a frame at step `S` may do to a clause: remove existing literals, and
remove the clause when it exists. -/
def ClauseStep (S : Nat) (c c' : Clause) : Prop :=
  c'.lifetime_start = c.lifetime_start ∧ c'.id = c.id ∧
  List.Forall₂ (LitStep S) c.literals c'.literals ∧
  (c'.lifetime_end = c.lifetime_end ∨ (c.exists_ S = true ∧ c'.lifetime_end = S))

/-- What one sweep of `pure_literal_elimination` may do to a clause: leave it,
or remove it when it exists and one of its existing literals, with occurrence
1, has been pushed on the stack `stk`. -/
def PureStep (S : Nat) (stk : List (Literal × Nat)) (c c' : Clause) : Prop :=
  c' = c ∨ (c.exists_ S = true ∧ c' = c.remove S ∧
    ∃ l ∈ c.literals, l.exists_ S = true ∧ (l, S) ∈ stk)

/-- Every window start of the clause list is at most `T`: everything in the
list was created by the parser or at a step up to `T`. -/
def Born (T : Nat) (cs : List Clause) : Prop :=
  ∀ c ∈ cs, c.lifetime_start ≤ T ∧ ∀ l ∈ c.literals, l.lifetime_start ≤ T

/-- Number of literals over variable `v` in the clauses, windows ignored. -/
def literal_count (v : Nat) : List Clause → Nat
  | [] => 0
  | c :: cs => c.literals.countP (fun l => decide (l.val = v)) + literal_count v cs

/-- A formula as `from_file` hands it to `solve`: every clause and literal has
the window `[0, MAX_STEP)`, every variable id is inside the occurrence table,
and the table holds the literal counts of the clauses. -/
def WellFormed (s : State) : Prop :=
  (∀ c ∈ s.clauses, c.lifetime_start = 0 ∧ c.lifetime_end = MAX_STEP ∧
    ∀ l ∈ c.literals, l.lifetime_start = 0 ∧ l.lifetime_end = MAX_STEP) ∧
  (∀ c ∈ s.clauses, ∀ l ∈ c.literals, l.val < s.variable_cnt.length) ∧
  (∀ v, v < s.variable_cnt.length → tblGet s.variable_cnt v = (literal_count v s.clauses : Int))

/-- The states on which `solve_impl` is entered while `solve()` runs on `s0`:
the top-level call, the first recursive call of a frame that reaches step 4,
and the second recursive call of a frame whose first one did not return SAT. -/
inductive Called (s0 : State) : State → Prop where
  | root : Called s0 { s0 with step := 0 }
  | first (s s1 s2 : State) (n m : Nat) (sat : Bool) (var : Nat) :
      Called s0 s →
      unit_loop n { s with step := s.step + 1 } = Run.ok s1 →
      pure_loop m s1 = Run.ok (sat, s2) →
      detect sat s2 = state_t.UNKNOWN →
      select_variable s2 = some var →
      Called s0 (push_decision s2 var)
  | second (s s1 s2 s3 s4 : State) (n m k : Nat) (sat : Bool) (var : Nat) (r1 : state_t) :
      Called s0 s →
      unit_loop n { s with step := s.step + 1 } = Run.ok s1 →
      pure_loop m s1 = Run.ok (sat, s2) →
      detect sat s2 = state_t.UNKNOWN →
      select_variable s2 = some var →
      solve_impl k (push_decision s2 var) = Run.ok (r1, s3) →
      r1 ≠ state_t.SAT →
      negate_front s3 = some s4 →
      Called s0 s4

/-- Truth of a literal under a total assignment of the variables. -/
def Literal.holds (a : Nat → Bool) (l : Literal) : Bool :=
  a l.val != l.negated

/-- The assignment `a` satisfies every clause that exists at step `S`, through
a literal that exists at step `S`. -/
def Models (S : Nat) (a : Nat → Bool) (cs : List Clause) : Prop :=
  ∀ c ∈ cs, c.exists_ S = true → ∃ l ∈ c.literals, l.exists_ S = true ∧ l.holds a = true

/-- The assignment `a` satisfies every clause of the formula as it was read:
each clause has a true literal, windows playing no part. -/
def Satisfies (a : Nat → Bool) (cs : List Clause) : Prop :=
  ∀ c ∈ cs, ∃ l ∈ c.literals, l.holds a = true

/-- The file for `(x1) ∧ (¬x1)`. -/
def contradiction_file : List Line :=
  [Line.header 1 2, Line.body [1, 0], Line.body [-1, 0]]

/-- The state `from_file` returns for `contradiction_file`. -/
def contradiction_state : State :=
  ⟨0, 2,
    [⟨[⟨1, false, 0, MAX_STEP⟩], 0, MAX_STEP, 0⟩, ⟨[⟨1, true, 0, MAX_STEP⟩], 0, MAX_STEP, 1⟩],
    [0, 2], [], [], state_t.UNKNOWN⟩

/-- The unit clause that step 4 of `solve_impl` pushes at step `S` for the
variable `var`, with polarity `neg` (`false` when pushed, `true` after
`negate()`), and identity `id`. -/
def decision (S var : Nat) (neg : Bool) (id : Nat) : Clause :=
  ⟨[⟨var, neg, S, MAX_STEP⟩], S, MAX_STEP, id⟩

/-- What the loops of a frame at step `T + 1` keep true of the state: the step,
the window starts and ends, and the occurrence invariant. -/
def FrameOk (T : Nat) (s : State) : Prop :=
  s.step = T + 1 ∧ Born (T + 1) s.clauses ∧ Settled (T + 1) s.clauses ∧
    OccAt (T + 1) s.clauses s.variable_cnt

/-- The clause holds a literal equal (same variable, same polarity) to a
literal of the list `sol`. -/
def Clause.hit (sol : List Literal) (c : Clause) : Prop :=
  ∃ l ∈ c.literals, ∃ p ∈ sol, l.eq p = true

/-- The clause holds a literal equal to the one existing literal of some
existing unit clause of `cs`. -/
def UnitFor (S : Nat) (cs : List Clause) (c : Clause) : Prop :=
  ∃ u ∈ cs, u.exists_ S = true ∧ u.count S = 1 ∧
    ∃ k ∈ u.literals, k.exists_ S = true ∧ ∃ l ∈ c.literals, l.eq k = true

/-- Every clause is accounted for: either some existing clause has no existing
literal (the frame is going to answer UNSAT), or every clause of the list still
exists, or holds a literal recorded on the stack, or holds the literal of an
existing unit clause. -/
def Covered (S : Nat) (cs : List Clause) (stk : List (Literal × Nat)) : Prop :=
  (∃ c ∈ cs, c.exists_ S = true ∧ c.empty S = true) ∨
  ∀ c ∈ cs, c.exists_ S = true ∨ c.hit (stk.map Prod.fst) ∨ UnitFor S cs c

/-- The file for `(x1 ∨ x2)`. -/
def pair_file : List Line :=
  [Line.header 2 1, Line.body [1, 2, 0]]

/-- The state `from_file` returns for `pair_file`. -/
def pair_state : State :=
  ⟨0, 1, [⟨[⟨1, false, 0, MAX_STEP⟩, ⟨2, false, 0, MAX_STEP⟩], 0, MAX_STEP, 0⟩],
    [0, 1, 1], [], [], state_t.UNKNOWN⟩

/-- The number of removals still possible at step `S`: one for every existing
clause and one for every existing literal of any clause. -/
def live_size (S : Nat) : List Clause → Nat
  | [] => 0
  | c :: cs => (if c.exists_ S then 1 else 0) + c.count S + live_size S cs

/-- No unit clause has anything left to propagate: for every existing clause
with exactly one existing literal `u`, no other existing clause (other by
identity) holds an existing literal over the variable of `u`. -/
def Quiet (S : Nat) (cs : List Clause) : Prop :=
  ∀ W ∈ cs, W.exists_ S = true → W.count S = 1 → ∀ u, W.begin S = some u →
    ∀ c ∈ cs, c.exists_ S = true → c.id ≠ W.id →
      ∀ l ∈ c.literals, l.exists_ S = true → l.val ≠ u.val

/-- No existing clause holds an existing literal whose variable has occurrence
exactly 1. -/
def PureQuiet (S : Nat) (cs : List Clause) (cnt : List Int) : Prop :=
  ∀ c ∈ cs, c.exists_ S = true → ∀ l ∈ c.literals, l.exists_ S = true → tblGet cnt l.val ≠ 1

/-- The frame has a decision to work on: some existing clause has no existing
literal, or some existing unit clause has its one existing literal over the
variable `var`. -/
def Decided (S var : Nat) (cs : List Clause) : Prop :=
  (∃ c ∈ cs, c.exists_ S = true ∧ c.empty S = true) ∨
  ∃ V ∈ cs, V.exists_ S = true ∧ V.count S = 1 ∧
    ∃ k ∈ V.literals, k.exists_ S = true ∧ k.val = var

/-- Clause identities are pairwise different and below the static counter
`clause_cnt`, as the constructor of `Clause` makes them. -/
def IdsOk (s : State) : Prop :=
  (s.clauses.map Clause.id).Nodup ∧ ∀ c ∈ s.clauses, c.id < s.clause_cnt

/-- What the elimination loop may do to a clause: leave it, or remove it when
it exists and has an existing literal. -/
def Dropped (S : Nat) (c c' : Clause) : Prop :=
  c' = c ∨ (c.exists_ S = true ∧ c' = c.remove S ∧ ∃ l ∈ c.literals, l.exists_ S = true)

/-- Number of variables below `N` with positive occurrence: the candidates of
`select_variable`. -/
def positives (N : Nat) (cnt : List Int) : Nat :=
  (List.range N).countP (fun v => decide (0 < tblGet cnt v))

/-- Every literal is over a variable with id at least 1, as `from_file` builds
them (`0` ends a clause). -/
def PosVals (cs : List Clause) : Prop :=
  ∀ c ∈ cs, ∀ l ∈ c.literals, 1 ≤ l.val

/-- Some existing unit clause has its one existing literal over the variable
`var`. -/
def UnitOver (S var : Nat) (cs : List Clause) : Prop :=
  ∃ V ∈ cs, V.exists_ S = true ∧ V.count S = 1 ∧
    ∃ k ∈ V.literals, k.exists_ S = true ∧ k.val = var

/-- What holds of the state whenever `solve_impl` is entered during a search
on a well-formed formula with at least one clause: the window and occurrence
invariants, distinct clause identities, variable ids from 1, and at least one
clause that exists at the step of the frame. -/
def EntryOk (s : State) : Prop :=
  Born s.step s.clauses ∧ Settled s.step s.clauses ∧
  OccAt (s.step + 1) s.clauses s.variable_cnt ∧ IdsOk s ∧ PosVals s.clauses ∧
  ∃ c ∈ s.clauses, c.exists_ (s.step + 1) = true

/-- The state `from_file` returns for `repeated_literal`. -/
def repeated_state : State :=
  ⟨0, 1, [⟨[⟨1, false, 0, MAX_STEP⟩, ⟨1, false, 0, MAX_STEP⟩], 0, MAX_STEP, 0⟩], [0, 2], [], [],
    state_t.UNKNOWN⟩

/-- The state at the root node of the search on `repeated_literal`, after
`step++`. -/
def repeated_root : State :=
  { repeated_state with step := 1 }

/-- Two unit clauses with the same literal, `(x1)` and `(x1)`, at step 1. -/
def twin_units : State :=
  ⟨1, 2,
    [⟨[⟨1, false, 0, MAX_STEP⟩], 0, MAX_STEP, 0⟩, ⟨[⟨1, false, 0, MAX_STEP⟩], 0, MAX_STEP, 1⟩],
    [0, 2], [], [], state_t.UNKNOWN⟩

/-- Two opposite unit clauses, `(x1)` and `(¬x1)`, at step 1. -/
def opposite_units : State :=
  { contradiction_state with step := 1 }

/-- The unit clauses `(x1)` and `(x2)` and the clause `(¬x2 ∨ x3)`, at step 1. -/
def solo_example : State :=
  ⟨1, 3,
    [⟨[⟨1, false, 0, MAX_STEP⟩], 0, MAX_STEP, 0⟩, ⟨[⟨2, false, 0, MAX_STEP⟩], 0, MAX_STEP, 1⟩,
     ⟨[⟨2, true, 0, MAX_STEP⟩, ⟨3, false, 0, MAX_STEP⟩], 0, MAX_STEP, 2⟩],
    [0, 1, 2, 1], [], [], state_t.UNKNOWN⟩

/-- The state `from_file` returns for the file of
`(x1 ∨ x2) ∧ (x3 ∨ x4) ∧ (¬x3 ∨ x4) ∧ (x3 ∨ ¬x4) ∧ (¬x3 ∨ ¬x4)`. -/
def mixed_state : State :=
  ⟨0, 5,
    [⟨[⟨1, false, 0, MAX_STEP⟩, ⟨2, false, 0, MAX_STEP⟩], 0, MAX_STEP, 0⟩,
     ⟨[⟨3, false, 0, MAX_STEP⟩, ⟨4, false, 0, MAX_STEP⟩], 0, MAX_STEP, 1⟩,
     ⟨[⟨3, true, 0, MAX_STEP⟩, ⟨4, false, 0, MAX_STEP⟩], 0, MAX_STEP, 2⟩,
     ⟨[⟨3, false, 0, MAX_STEP⟩, ⟨4, true, 0, MAX_STEP⟩], 0, MAX_STEP, 3⟩,
     ⟨[⟨3, true, 0, MAX_STEP⟩, ⟨4, true, 0, MAX_STEP⟩], 0, MAX_STEP, 4⟩],
    [0, 1, 1, 4, 4], [], [], state_t.UNKNOWN⟩

/-- The state of the root frame on `mixed_state` after its two loops: the
first clause is removed and its two literals are on the stack. -/
def mixed_pruned : State :=
  ⟨1, 5,
    [⟨[⟨1, false, 0, MAX_STEP⟩, ⟨2, false, 0, MAX_STEP⟩], 0, 1, 0⟩,
     ⟨[⟨3, false, 0, MAX_STEP⟩, ⟨4, false, 0, MAX_STEP⟩], 0, MAX_STEP, 1⟩,
     ⟨[⟨3, true, 0, MAX_STEP⟩, ⟨4, false, 0, MAX_STEP⟩], 0, MAX_STEP, 2⟩,
     ⟨[⟨3, false, 0, MAX_STEP⟩, ⟨4, true, 0, MAX_STEP⟩], 0, MAX_STEP, 3⟩,
     ⟨[⟨3, true, 0, MAX_STEP⟩, ⟨4, true, 0, MAX_STEP⟩], 0, MAX_STEP, 4⟩],
    [0, 0, 0, 4, 4],
    [(⟨2, false, 0, MAX_STEP⟩, 1), (⟨1, false, 0, MAX_STEP⟩, 1)], [], state_t.UNKNOWN⟩

/-- The part of the entry invariant that does not depend on the shape of the
formula: window starts and ends, the occurrence invariant at the step of the
frame, and clause identities. -/
def CoreOk (s : State) : Prop :=
  Born s.step s.clauses ∧ Settled s.step s.clauses ∧
  OccAt (s.step + 1) s.clauses s.variable_cnt ∧ IdsOk s


/-- The state `solve()` leaves on `repeated_state`. -/
def repeated_solved : State :=
  { repeated_state with
    clause_cnt := 2, solution := [⟨1, false, 1, MAX_STEP⟩], solution_state := state_t.SAT }

/-- The entry invariant of a call together with the measure that bounds the
depth of the search below it: the variables with positive occurrence are below
`N`, and at most `n + 1` of them are left (at most `n` when the call was made
for a decision, whose variable the call itself settles), with room for `n + 2`
more steps of the counter. -/
def Ranked (N : Nat) (s : State) : Prop :=
  EntryOk s ∧ (∀ v, 0 < tblGet s.variable_cnt v → v < N) ∧
  ∃ (n : Nat) (dv : Option Nat),
    (∀ var, dv = some var → UnitOver (s.step + 1) var s.clauses) ∧
    positives N s.variable_cnt + (if dv = none then 1 else 0) ≤ n + 1 ∧
    s.step + n + 2 < MAX_STEP

/-- The pending stack is consistent with the table: it holds at most one entry
per variable, and every variable on it has occurrence 0. -/
def StackOk (stk : List (Literal × Nat)) (cnt : List Int) : Prop :=
  (stk.map (fun q => q.1.val)).Nodup ∧ ∀ q ∈ stk, tblGet cnt q.1.val = 0


/-- The state `solve()` leaves on `pair_state`. -/
def pair_solved : State :=
  { pair_state with
    solution := [⟨2, false, 0, MAX_STEP⟩, ⟨1, false, 0, MAX_STEP⟩],
    solution_state := state_t.SAT }

/-- The file `p cnf 2 1` followed by the clause `1 2 0` spread over two lines. -/
def split_clause_file : List Line :=
  [Line.header 2 1, Line.body [1], Line.body [2, 0]]

/-- The numbers of a line end with the terminating zero of a clause (or the
line holds no number). -/
def Terminated (nums : List Int) : Prop :=
  nums = [] ∨ nums.getLast? = some 0

/-- A line after the header of a file over `n` variables in which no clause
runs over the end of a line: a comment, or numbers of absolute value at most
`n` that end with a terminating zero. -/
def ProperLine (n : Nat) (l : Line) : Prop :=
  match l with
  | Line.comment => True
  | Line.header _ _ => False
  | Line.body nums => Terminated nums ∧ ∀ x ∈ nums, x.natAbs ≤ n

/-- What `from_file` keeps true while it reads proper lines after the header
`p cnf n m`, with the literals of the clause under construction in `lits`: the
table has `n + 1` entries and counts the literals of the finished clauses and
of `lits`, all windows are `[0, MAX_STEP)`, all ids are between 1 and `n`, and
the clause identities count up from 0. -/
def ReaderOk (n : Nat) (r : Reader) (lits : List Literal) : Prop :=
  r.variable_cnt.length = n + 1 ∧
  (∀ c ∈ r.clauses, c.lifetime_start = 0 ∧ c.lifetime_end = MAX_STEP ∧
    ∀ l ∈ c.literals, l.lifetime_start = 0 ∧ l.lifetime_end = MAX_STEP ∧ 1 ≤ l.val ∧ l.val ≤ n) ∧
  (∀ l ∈ lits, l.lifetime_start = 0 ∧ l.lifetime_end = MAX_STEP ∧ 1 ≤ l.val ∧ l.val ≤ n) ∧
  (∀ v, tblGet r.variable_cnt v =
    ((literal_count v r.clauses + lits.countP (fun l => decide (l.val = v)) : Nat) : Int)) ∧
  r.clauses.map Clause.id = List.range r.clause_cnt

/-- The state of the outer loop `for (const auto& clause : *this)` of
`unit_propagation` when the cursor reaches position `j`: the clause list, the
table and the flag `modified` after the visits of the positions before `j`. -/
def unit_upto (s : State) (j : Nat) : List Clause × List Int × Bool :=
  (List.range j).foldl (unit_visit s.step) (s.clauses, s.variable_cnt, false)

/-! ## The existence window (claim C8) -/

theorem lit_restore_remove (S : Nat) (l : Literal) (h : l.lifetime_end = MAX_STEP) :
    (l.remove S).restore S = l := by
  cases l
  simp only [Literal.remove, Literal.restore] at *
  simp [h]

/-- Claim C8: `restore()` at step `S` resets the window end to `MAX_STEP` exactly
when the end equals `S` and changes nothing else, for a literal and for a
clause's own window; so on an entity whose end is `MAX_STEP`, `remove()` then
`restore()` at the same step gives back the prior state (existence included),
and `restore()` at another step leaves the removal in place. -/
theorem C8_frame_scoped_undo :
    (∀ (S : Nat) (l : Literal),
        l.restore S = { l with lifetime_end :=
          if l.lifetime_end = S then MAX_STEP else l.lifetime_end }) ∧
    (∀ (S : Nat) (c : Clause),
        (c.restore S).lifetime_end = (if c.lifetime_end = S then MAX_STEP else c.lifetime_end) ∧
        (c.restore S).lifetime_start = c.lifetime_start ∧ (c.restore S).id = c.id) ∧
    (∀ (S : Nat) (l : Literal), l.lifetime_end = MAX_STEP →
        (l.remove S).restore S = l ∧
        ((l.remove S).restore S).exists_ S = l.exists_ S) ∧
    (∀ (S : Nat) (c : Clause), c.lifetime_end = MAX_STEP →
        ((c.remove S).restore S).lifetime_end = c.lifetime_end ∧
        ((c.remove S).restore S).lifetime_start = c.lifetime_start ∧
        ((c.remove S).restore S).id = c.id ∧
        ((c.remove S).restore S).exists_ S = c.exists_ S) ∧
    (∀ (S T : Nat) (l : Literal), T ≠ S → (l.remove S).restore T = l.remove S) ∧
    (∀ (S T : Nat) (c : Clause), T ≠ S →
        ((c.remove S).restore T).lifetime_end = S) := by
  refine ⟨?_, ?_, ?_, ?_, ?_, ?_⟩
  · intro S l
    cases l with
    | mk v n a b =>
      by_cases h : S = b
      · subst h; simp [Literal.restore]
      · have h2 : ¬ b = S := fun e => h e.symm
        simp [Literal.restore, h, h2]
  · intro S c
    simp [Clause.restore]
  · intro S l h
    rw [lit_restore_remove S l h]
    exact ⟨rfl, rfl⟩
  · intro S c h
    simp [Clause.restore, Clause.remove, Clause.exists_, h]
  · intro S T l h
    simp [Literal.restore, Literal.remove, h]
  · intro S T c h
    have h2 : ¬ S = T := fun e => h e.symm
    simp [Clause.restore, Clause.remove, h2]

/-- Claim C8 at step 3 on a literal over variable 5 and at steps 3 and 4. -/
theorem C8_frame_scoped_undo_witness :
    ((⟨5, false, 0, MAX_STEP⟩ : Literal).remove 3).restore 3 = ⟨5, false, 0, MAX_STEP⟩ ∧
    ((⟨5, false, 0, MAX_STEP⟩ : Literal).remove 3).restore 4 = ⟨5, false, 0, 3⟩ :=
  ⟨(C8_frame_scoped_undo.2.2.1 3 ⟨5, false, 0, MAX_STEP⟩ rfl).1,
   C8_frame_scoped_undo.2.2.2.2.1 3 4 ⟨5, false, 0, MAX_STEP⟩ (by decide)⟩

/-! ## Fuel -/

theorem unit_loop_mono (n : Nat) : ∀ (s s' : State), unit_loop n s = Run.ok s' →
    unit_loop (n + 1) s = Run.ok s' := by
  induction n with
  | zero => intro s s' h; simp [unit_loop] at h
  | succ k ih =>
    intro s s' h
    rw [unit_loop] at h ⊢
    by_cases hm : (unit_propagation s).1 = true
    · simp only [hm, if_true] at h ⊢
      exact ih _ _ h
    · simp only [hm, if_false] at h ⊢
      exact h

theorem pure_loop_mono (n : Nat) : ∀ (s : State) (r : Bool × State),
    pure_loop n s = Run.ok r → pure_loop (n + 1) s = Run.ok r := by
  induction n with
  | zero => intro s r h; simp [pure_loop] at h
  | succ k ih =>
    intro s r h
    rw [pure_loop] at h ⊢
    by_cases hm : (pure_literal_elimination s).1 = true
    · simp only [hm, if_true] at h ⊢
      by_cases he : empty (pure_literal_elimination s).2 = true
      · simp only [he, if_true] at h ⊢; exact h
      · simp only [he] at h ⊢
        exact ih _ _ h
    · simp only [hm, if_false] at h ⊢
      exact h

/-- Every way in which `solve_impl` can return. -/
theorem solve_impl_inv (fuel : Nat) (s : State) (r : state_t) (s' : State)
    (h : solve_impl (fuel + 1) s = Run.ok (r, s')) :
    ∃ s1 sat s2, unit_loop (fuel + 1) { s with step := s.step + 1 } = Run.ok s1 ∧
      pure_loop (fuel + 1) s1 = Run.ok (sat, s2) ∧
      ((detect sat s2 ≠ state_t.UNKNOWN ∧ r = detect sat s2 ∧
          s' = epilogue s.variable_cnt r s2) ∨
       (detect sat s2 = state_t.UNKNOWN ∧ ∃ var, select_variable s2 = some var ∧
          ∃ r1 s3, solve_impl fuel (push_decision s2 var) = Run.ok (r1, s3) ∧
            ((r1 = state_t.SAT ∧ r = state_t.SAT ∧
                s' = epilogue s.variable_cnt state_t.SAT (pop_front s3)) ∨
             (r1 ≠ state_t.SAT ∧ ∃ s4, negate_front s3 = some s4 ∧
                ∃ s5, solve_impl fuel s4 = Run.ok (r, s5) ∧
                  s' = epilogue s.variable_cnt r (pop_front s5))))) := by
  rw [solve_impl] at h
  cases h1 : unit_loop (fuel + 1) { s with step := s.step + 1 } with
  | ok s1 =>
    rw [h1] at h
    simp only at h
    cases h2 : pure_loop (fuel + 1) s1 with
    | ok p =>
      obtain ⟨sat, s2⟩ := p
      rw [h2] at h
      simp only at h
      refine ⟨s1, sat, s2, rfl, h2, ?_⟩
      cases hd : detect sat s2 with
      | UNKNOWN =>
        rw [hd] at h
        simp only at h
        right
        refine ⟨rfl, ?_⟩
        cases hv : select_variable s2 with
        | none => rw [hv] at h; simp at h
        | some var =>
          rw [hv] at h
          simp only at h
          refine ⟨var, rfl, ?_⟩
          cases h3 : solve_impl fuel (push_decision s2 var) with
          | ok q =>
            obtain ⟨r1, s3⟩ := q
            rw [h3] at h
            refine ⟨r1, s3, rfl, ?_⟩
            have second : r1 ≠ state_t.SAT →
                (match negate_front s3 with
                  | none => Run.undefined
                  | some s4 =>
                    match solve_impl fuel s4 with
                    | Run.ok (state, s5) =>
                      Run.ok (state, epilogue s.variable_cnt state (pop_front s5))
                    | Run.fatal => Run.fatal
                    | Run.undefined => Run.undefined
                    | Run.outOfFuel => Run.outOfFuel) = Run.ok (r, s') →
                ∃ s4, negate_front s3 = some s4 ∧
                  ∃ s5, solve_impl fuel s4 = Run.ok (r, s5) ∧
                    s' = epilogue s.variable_cnt r (pop_front s5) := by
              intro _ h
              cases h4 : negate_front s3 with
              | none => rw [h4] at h; simp at h
              | some s4 =>
                rw [h4] at h
                simp only at h
                refine ⟨s4, rfl, ?_⟩
                cases h5 : solve_impl fuel s4 with
                | ok q5 =>
                  obtain ⟨r5, s5⟩ := q5
                  rw [h5] at h
                  simp only [Run.ok.injEq, Prod.mk.injEq] at h
                  obtain ⟨rfl, rfl⟩ := h
                  exact ⟨s5, rfl, rfl⟩
                | fatal => rw [h5] at h; simp at h
                | undefined => rw [h5] at h; simp at h
                | outOfFuel => rw [h5] at h; simp at h
            cases r1 with
            | SAT =>
              simp only [Run.ok.injEq, Prod.mk.injEq] at h
              left; exact ⟨rfl, h.1.symm, h.2.symm⟩
            | UNKNOWN => right; exact ⟨by decide, second (by decide) h⟩
            | UNSAT => right; exact ⟨by decide, second (by decide) h⟩
          | fatal => rw [h3] at h; simp at h
          | undefined => rw [h3] at h; simp at h
          | outOfFuel => rw [h3] at h; simp at h
      | UNSAT =>
        rw [hd] at h
        simp only [Run.ok.injEq, Prod.mk.injEq] at h
        left; exact ⟨by decide, h.1.symm, by rw [← h.1]; exact h.2.symm⟩
      | SAT =>
        rw [hd] at h
        simp only [Run.ok.injEq, Prod.mk.injEq] at h
        left; exact ⟨by decide, h.1.symm, by rw [← h.1]; exact h.2.symm⟩
    | fatal => rw [h2] at h; simp at h
    | undefined => rw [h2] at h; simp at h
    | outOfFuel => rw [h2] at h; simp at h
  | fatal => rw [h1] at h; simp at h
  | undefined => rw [h1] at h; simp at h
  | outOfFuel => rw [h1] at h; simp at h

theorem solve_impl_leaf (fuel : Nat) (s s1 s2 : State) (sat : Bool)
    (h1 : unit_loop (fuel + 1) { s with step := s.step + 1 } = Run.ok s1)
    (h2 : pure_loop (fuel + 1) s1 = Run.ok (sat, s2))
    (hd : detect sat s2 ≠ state_t.UNKNOWN) :
    solve_impl (fuel + 1) s = Run.ok (detect sat s2, epilogue s.variable_cnt (detect sat s2) s2) := by
  rw [solve_impl, h1]
  simp only
  rw [h2]
  cases hdd : detect sat s2 with
  | UNKNOWN => exact absurd hdd hd
  | UNSAT => simp only [hdd]
  | SAT => simp only [hdd]

theorem solve_impl_first (fuel : Nat) (s s1 s2 s3 : State) (sat : Bool) (var : Nat)
    (h1 : unit_loop (fuel + 1) { s with step := s.step + 1 } = Run.ok s1)
    (h2 : pure_loop (fuel + 1) s1 = Run.ok (sat, s2))
    (hd : detect sat s2 = state_t.UNKNOWN)
    (hv : select_variable s2 = some var)
    (h3 : solve_impl fuel (push_decision s2 var) = Run.ok (state_t.SAT, s3)) :
    solve_impl (fuel + 1) s =
      Run.ok (state_t.SAT, epilogue s.variable_cnt state_t.SAT (pop_front s3)) := by
  rw [solve_impl, h1]
  simp only
  rw [h2]
  simp only
  rw [hd]
  simp only
  rw [hv]
  simp only
  rw [h3]

theorem solve_impl_second (fuel : Nat) (s s1 s2 s3 s4 s5 : State) (sat : Bool) (var : Nat)
    (r1 r : state_t)
    (h1 : unit_loop (fuel + 1) { s with step := s.step + 1 } = Run.ok s1)
    (h2 : pure_loop (fuel + 1) s1 = Run.ok (sat, s2))
    (hd : detect sat s2 = state_t.UNKNOWN)
    (hv : select_variable s2 = some var)
    (h3 : solve_impl fuel (push_decision s2 var) = Run.ok (r1, s3))
    (hr1 : r1 ≠ state_t.SAT)
    (h4 : negate_front s3 = some s4)
    (h5 : solve_impl fuel s4 = Run.ok (r, s5)) :
    solve_impl (fuel + 1) s = Run.ok (r, epilogue s.variable_cnt r (pop_front s5)) := by
  rw [solve_impl, h1]
  simp only
  rw [h2]
  simp only
  rw [hd]
  simp only
  rw [hv]
  simp only
  rw [h3]
  cases r1 with
  | SAT => exact absurd rfl hr1
  | UNKNOWN => simp only; rw [h4]; simp only; rw [h5]
  | UNSAT => simp only; rw [h4]; simp only; rw [h5]

/-- More fuel does not change a result. -/
theorem solve_impl_mono (n : Nat) : ∀ (s : State) (p : state_t × State),
    solve_impl n s = Run.ok p → solve_impl (n + 1) s = Run.ok p := by
  induction n with
  | zero => intro s p h; simp [solve_impl] at h
  | succ k ih =>
    intro s p h
    obtain ⟨r, s'⟩ := p
    obtain ⟨s1, sat, s2, h1, h2, hcase⟩ := solve_impl_inv k s r s' h
    have h1' := unit_loop_mono _ _ _ h1
    have h2' := pure_loop_mono _ _ _ h2
    rcases hcase with ⟨hd, hr, hs⟩ | ⟨hd, var, hv, r1, s3, h3, hcase⟩
    · rw [hs, hr]
      exact solve_impl_leaf (k + 1) s s1 s2 sat h1' h2' hd
    · rcases hcase with ⟨hr1, hr, hs⟩ | ⟨hr1, s4, h4, s5, h5, hs⟩
      · subst hr1
        rw [hs, hr]
        exact solve_impl_first (k + 1) s s1 s2 s3 sat var h1' h2' hd hv (ih _ _ h3)
      · rw [hs]
        exact solve_impl_second (k + 1) s s1 s2 s3 s4 s5 sat var r1 r h1' h2' hd hv
          (ih _ _ h3) hr1 h4 (ih _ _ h5)

theorem solve_impl_mono_le (n m : Nat) (hnm : n ≤ m) (s : State) (p : state_t × State)
    (h : solve_impl n s = Run.ok p) : solve_impl m s = Run.ok p := by
  induction m with
  | zero =>
    have : n = 0 := by omega
    subst this; exact h
  | succ k ih =>
    by_cases hk : n ≤ k
    · exact solve_impl_mono k s p (ih hk)
    · have : n = k + 1 := by omega
      subst this; exact h

theorem solve_mono_le (n m : Nat) (hnm : n ≤ m) (s s' : State)
    (h : solve n s = Run.ok s') : solve m s = Run.ok s' := by
  unfold solve at h ⊢
  cases h1 : solve_impl n { s with step := 0 } with
  | ok p =>
    rw [solve_impl_mono_le n m hnm _ p h1]
    rw [h1] at h
    exact h
  | fatal => rw [h1] at h; simp at h
  | undefined => rw [h1] at h; simp at h
  | outOfFuel => rw [h1] at h; simp at h

/-! ## Concrete scenarios (claims C3, C7, C9, C10) -/

theorem tblGet_replicate_zero (n v : Nat) : tblGet (List.replicate n 0) v = 0 := by
  simp only [tblGet, List.getD_eq_getElem?_getD, List.getElem?_replicate]
  split <;> rfl

theorem select_variable_none (s : State) (h : ∀ v, tblGet s.variable_cnt v ≤ 0) :
    select_variable s = none := by
  simp only [select_variable, List.find?_eq_none]
  intro v _
  have := h v
  simp only [decide_eq_true_eq]; omega

/-- Without clauses and without a positive occurrence the engine runs into the
assertion of `select_variable`: neither loop body that could set the verdict is
entered. -/
theorem solve_impl_no_clauses (fuel : Nat) (s : State) (hc : s.clauses = [])
    (h : ∀ v, tblGet s.variable_cnt v ≤ 0) : solve_impl (fuel + 1) s = Run.fatal := by
  have hs : select_variable { s with step := s.step + 1, clauses := [] } = none :=
    select_variable_none _ h
  simp [solve_impl, unit_loop, unit_propagation, pure_loop, pure_literal_elimination,
    pure_clauses, detect, has_empty_clause, hc, hs]

/-- Claim C7, as the code behaves: on the formula without clauses over `nv`
declared variables `solve()` does not record SATISFIABLE; whatever the fuel, it
stops in the assertion of `select_variable`. -/
theorem C7_zero_clauses_abort (nv fuel : Nat) :
    from_file [Line.header nv 0] = Run.ok (zero_clauses nv) ∧
    solve (fuel + 1) (zero_clauses nv) = Run.fatal := by
  constructor
  · simp [from_file, read_lines, resize, zero_clauses]
  · have h := solve_impl_no_clauses fuel { zero_clauses nv with step := 0 } rfl
      (fun v => le_of_eq (tblGet_replicate_zero _ v))
    simp only [solve, h]

/-- Claim C3, as the code behaves: for the input `p cnf 2 0` no amount of fuel
makes `solve()` record a verdict. -/
theorem C3_no_verdict_without_clauses (fuel : Nat) :
    verdict (run_file fuel [Line.header 2 0]) = none := by
  cases fuel with
  | zero => rfl
  | succ k =>
    have h := solve_impl_no_clauses k { zero_clauses 2 with step := 0 } rfl
      (fun v => le_of_eq (tblGet_replicate_zero _ v))
    have hf : from_file [Line.header 2 0] = Run.ok (zero_clauses 2) := by decide
    simp only [run_file, hf, solve, h, verdict]

/-- Claim C9: on `(x1 ∨ x2) ∧ (¬x1 ∨ x2) ∧ (x1 ∨ ¬x2) ∧ (¬x1 ∨ ¬x2)` the
recorded verdict is UNSATISFIABLE; at the root node `unit_propagation` and
`pure_literal_elimination` report no change and leave the state as it is, no
clause is falsified, the branch variable is x1, and the recursive call returns
UNSATISFIABLE for the decision x1 and again for the flipped decision ¬x1. -/
theorem C9_branch_backtrack :
    from_file four_clauses = Run.ok { four_root with step := 0 } ∧
    (∀ fuel, 3 ≤ fuel → verdict (run_file fuel four_clauses) = some state_t.UNSAT) ∧
    unit_propagation four_root = (false, four_root) ∧
    pure_literal_elimination four_root = (false, four_root) ∧
    has_empty_clause four_root = false ∧
    select_variable four_root = some 1 ∧
    (∀ fuel, 2 ≤ fuel →
      solve_impl fuel (push_decision four_root 1) =
        Run.ok (state_t.UNSAT, push_decision four_root 1) ∧
      ∃ s4, negate_front (push_decision four_root 1) = some s4 ∧
        s4.clauses.head?.map Clause.literals = some [⟨1, true, 1, MAX_STEP⟩] ∧
        solve_impl fuel s4 = Run.ok (state_t.UNSAT, s4)) := by
  have hf : from_file four_clauses = Run.ok { four_root with step := 0 } := by decide
  refine ⟨hf, ?_, by decide, by decide, by decide, by decide, ?_⟩
  · intro fuel h
    have h3 : solve 3 { four_root with step := 0 } =
        Run.ok { four_root with step := 0, clause_cnt := 5, solution_state := state_t.UNSAT } := by
      decide
    simp only [run_file, hf, solve_mono_le 3 fuel h _ _ h3, verdict]
  · intro fuel h
    have h1 : solve_impl 2 (push_decision four_root 1) =
        Run.ok (state_t.UNSAT, push_decision four_root 1) := by decide
    refine ⟨solve_impl_mono_le 2 fuel h _ _ h1, ?_⟩
    have h4 : negate_front (push_decision four_root 1) = some
        { push_decision four_root 1 with
          clauses := ⟨[⟨1, true, 1, MAX_STEP⟩], 1, MAX_STEP, 4⟩ :: four_root.clauses } := by
      decide
    refine ⟨_, h4, rfl, ?_⟩
    have h2 : solve_impl 2 { push_decision four_root 1 with
          clauses := ⟨[⟨1, true, 1, MAX_STEP⟩], 1, MAX_STEP, 4⟩ :: four_root.clauses } =
        Run.ok (state_t.UNSAT, { push_decision four_root 1 with
          clauses := ⟨[⟨1, true, 1, MAX_STEP⟩], 1, MAX_STEP, 4⟩ :: four_root.clauses }) := by
      decide
    exact solve_impl_mono_le 2 fuel h _ _ h2

/-- Claim C9 with fuel 5 for `solve` and fuel 4 for the two recursive calls. -/
theorem C9_branch_backtrack_witness :
    verdict (run_file 5 four_clauses) = some state_t.UNSAT ∧
    solve_impl 4 (push_decision four_root 1) =
      Run.ok (state_t.UNSAT, push_decision four_root 1) :=
  ⟨C9_branch_backtrack.2.1 5 (by decide), (C9_branch_backtrack.2.2.2.2.2.2 4 (by decide)).1⟩

/-- Claim C10: on the one-clause formula `(x1 ∨ x1)` as `from_file` builds it
(occurrence of x1 equal to 2), `solve()` records SATISFIABLE and the solution
list holds the positive literal over x1. -/
theorem C10_repeated_literal_verdict (fuel : Nat) (h : 3 ≤ fuel) :
    verdict (run_file fuel repeated_literal) = some state_t.SAT ∧
    ∃ l ∈ produced (run_file fuel repeated_literal), l.val = 1 ∧ l.negated = false := by
  have hf : from_file repeated_literal = Run.ok ⟨0, 1,
      [⟨[⟨1, false, 0, MAX_STEP⟩, ⟨1, false, 0, MAX_STEP⟩], 0, MAX_STEP, 0⟩], [0, 2], [], [],
      state_t.UNKNOWN⟩ := by decide
  have h2 : solve 3 ⟨0, 1,
      [⟨[⟨1, false, 0, MAX_STEP⟩, ⟨1, false, 0, MAX_STEP⟩], 0, MAX_STEP, 0⟩], [0, 2], [], [],
      state_t.UNKNOWN⟩ = Run.ok ⟨0, 2,
      [⟨[⟨1, false, 0, MAX_STEP⟩, ⟨1, false, 0, MAX_STEP⟩], 0, MAX_STEP, 0⟩], [0, 2], [],
      [⟨1, false, 1, MAX_STEP⟩], state_t.SAT⟩ := by decide
  have h3 := solve_mono_le 3 fuel h _ _ h2
  simp only [run_file, hf, h3, verdict, produced]
  exact ⟨trivial, ⟨1, false, 1, MAX_STEP⟩, by simp, rfl, rfl⟩

/-- Claim C10 with fuel 4. -/
theorem C10_repeated_literal_verdict_witness :
    verdict (run_file 4 repeated_literal) = some state_t.SAT ∧
    ∃ l ∈ produced (run_file 4 repeated_literal), l.val = 1 ∧ l.negated = false :=
  C10_repeated_literal_verdict 4 (by decide)

/-! ## The occurrence table (claims C5, C6) -/

theorem tblAdd_length (t : List Int) : ∀ (i : Nat) (d : Int), (tblAdd t i d).length = t.length := by
  induction t with
  | nil => intro i d; rfl
  | cons x xs ih =>
    intro i d
    cases i with
    | zero => rfl
    | succ k => simp [tblAdd, ih]
theorem tblGet_cons_zero (x : Int) (xs : List Int) : tblGet (x :: xs) 0 = x := by
  simp [tblGet]
theorem tblGet_cons_succ (x : Int) (xs : List Int) (j : Nat) :
    tblGet (x :: xs) (j + 1) = tblGet xs j := by
  simp [tblGet]
theorem tblGet_of_le (t : List Int) (j : Nat) (h : t.length ≤ j) : tblGet t j = 0 := by
  simp [tblGet, List.getD_eq_getElem?_getD, List.getElem?_eq_none h]
theorem tblGet_tblAdd (t : List Int) : ∀ (i j : Nat) (d : Int),
    tblGet (tblAdd t i d) j = if i = j ∧ i < t.length then tblGet t j + d else tblGet t j := by
  induction t with
  | nil => intro i j d; simp [tblAdd]
  | cons x xs ih =>
    intro i j d
    cases i with
    | zero =>
      cases j with
      | zero => simp [tblAdd, tblGet_cons_zero]
      | succ j => simp [tblAdd, tblGet_cons_succ]
    | succ i =>
      cases j with
      | zero => simp [tblAdd, tblGet_cons_zero]
      | succ j => simp [tblAdd, tblGet_cons_succ, ih]

/-! ### counting -/

theorem live_count_nil (S v : Nat) : live_count S v [] = 0 := rfl

theorem live_count_cons (S v : Nat) (l : Literal) (ls : List Literal) :
    live_count S v (l :: ls) =
      live_count S v ls + (if l.exists_ S = true ∧ l.val = v then 1 else 0) := by
  simp [live_count, List.countP_cons]

theorem live_count_append (S v : Nat) (a b : List Literal) :
    live_count S v (a ++ b) = live_count S v a + live_count S v b := by
  simp [live_count, List.countP_append]

theorem lit_exists_remove (S : Nat) (l : Literal) : (l.remove S).exists_ S = false := by
  simp [Literal.remove, Literal.exists_]

theorem clause_exists_remove (S : Nat) (c : Clause) : (c.remove S).exists_ S = false := by
  simp [Clause.remove, Clause.exists_]

theorem dec_live_length (S : Nat) (ls : List Literal) : ∀ (cnt : List Int),
    (dec_live S ls cnt).length = cnt.length := by
  induction ls with
  | nil => intro cnt; rfl
  | cons l rest ih =>
    intro cnt
    simp only [dec_live]
    split
    · rw [ih, tblAdd_length]
    · exact ih cnt

theorem dec_live_get (S : Nat) (ls : List Literal) : ∀ (cnt : List Int),
    (∀ l ∈ ls, l.exists_ S = true → l.val < cnt.length) →
    ∀ v, tblGet (dec_live S ls cnt) v = tblGet cnt v - (live_count S v ls : Int) := by
  induction ls with
  | nil => intro cnt _ v; simp [dec_live, live_count]
  | cons l rest ih =>
    intro cnt hin v
    have hrest : ∀ x ∈ rest, x.exists_ S = true → x.val < cnt.length :=
      fun x hx => hin x (List.mem_cons_of_mem _ hx)
    simp only [dec_live, live_count_cons]
    cases hl : l.exists_ S with
    | true =>
      have hlt : l.val < cnt.length := hin l (List.mem_cons_self _ _) hl
      simp only [if_true, true_and]
      rw [ih _ (by rw [tblAdd_length]; exact hrest), tblGet_tblAdd]
      by_cases hv : l.val = v
      · subst hv; simp [hlt]; omega
      · simp [hv]
    | false =>
      simp only [Bool.false_eq_true, false_and, if_false]
      rw [ih _ hrest]; simp


theorem lit_eq_val {a b : Literal} (h : a.eq b = true) : a.val = b.val := by
  simp [Literal.eq] at h; exact h.1

theorem lit_not_val (u : Literal) : u.not.val = u.val := rfl

theorem forall2_refl_LitProp (S : Nat) (u : Literal) (ls : List Literal) :
    List.Forall₂ (LitProp S u) ls ls := by
  induction ls with
  | nil => exact List.Forall₂.nil
  | cons l rest ih => exact List.Forall₂.cons (Or.inl rfl) ih

theorem unit_scan_shape (S : Nat) (u : Literal) (todo : List Literal) :
    ∀ (done : List Literal) (cnt : List Int) (m : Bool),
    ∃ X, (unit_scan S u done todo cnt m).1 = done ++ X ∧
      List.Forall₂ (LitProp S u) todo X ∧
      ((unit_scan S u done todo cnt m).2.2.2 = true →
        ∃ l ∈ todo, l.exists_ S = true ∧ l.eq u = true) ∧
      (unit_scan S u done todo cnt m).2.1.length = cnt.length := by
  induction todo with
  | nil =>
    intro done cnt m
    exact ⟨[], by simp [unit_scan], List.Forall₂.nil, by simp [unit_scan], by simp [unit_scan]⟩
  | cons l rest ih =>
    intro done cnt m
    simp only [unit_scan]
    cases hl : l.exists_ S with
    | true =>
      simp only [if_true]
      cases hn : l.eq u.not with
      | true =>
        simp only [if_true]
        obtain ⟨X, h1, h2, h3, h4⟩ := ih (done ++ [l.remove S]) (tblAdd cnt u.val (-1)) true
        refine ⟨l.remove S :: X, by rw [h1]; simp, List.Forall₂.cons (Or.inr ⟨hl, hn, rfl⟩) h2,
          ?_, by rw [h4, tblAdd_length]⟩
        intro hr
        obtain ⟨x, hx, hx2⟩ := h3 hr
        exact ⟨x, List.mem_cons_of_mem _ hx, hx2⟩
      | false =>
        simp only [Bool.false_eq_true, if_false]
        cases he : l.eq u with
        | true =>
          simp only [if_true]
          refine ⟨l :: rest, rfl, forall2_refl_LitProp S u _, ?_, dec_live_length _ _ _⟩
          intro _
          exact ⟨l, List.mem_cons_self _ _, hl, he⟩
        | false =>
          simp only [Bool.false_eq_true, if_false]
          obtain ⟨X, h1, h2, h3, h4⟩ := ih (done ++ [l]) cnt m
          refine ⟨l :: X, by rw [h1]; simp, List.Forall₂.cons (Or.inl rfl) h2, ?_, h4⟩
          intro hr
          obtain ⟨x, hx, hx2⟩ := h3 hr
          exact ⟨x, List.mem_cons_of_mem _ hx, hx2⟩
    | false =>
      simp only [Bool.false_eq_true, if_false]
      obtain ⟨X, h1, h2, h3, h4⟩ := ih (done ++ [l]) cnt m
      refine ⟨l :: X, by rw [h1]; simp, List.Forall₂.cons (Or.inl rfl) h2, ?_, h4⟩
      intro hr
      obtain ⟨x, hx, hx2⟩ := h3 hr
      exact ⟨x, List.mem_cons_of_mem _ hx, hx2⟩

theorem unit_scan_count (S : Nat) (u : Literal) (todo : List Literal) :
    ∀ (done : List Literal) (cnt : List Int) (m : Bool),
    (∀ l ∈ done ++ todo, l.exists_ S = true → l.val < cnt.length) →
    ∀ v, tblGet (unit_scan S u done todo cnt m).2.1 v + (live_count S v (done ++ todo) : Int) =
      tblGet cnt v + (if (unit_scan S u done todo cnt m).2.2.2 = true then 0
        else (live_count S v (unit_scan S u done todo cnt m).1 : Int)) := by
  induction todo with
  | nil =>
    intro done cnt m _ v
    simp [unit_scan]
  | cons l rest ih =>
    intro done cnt m hin v
    simp only [unit_scan]
    cases hl : l.exists_ S with
    | true =>
      simp only [if_true]
      have hlt : l.val < cnt.length := hin l (by simp) hl
      cases hn : l.eq u.not with
      | true =>
        simp only [if_true]
        have hval : u.val = l.val := (lit_eq_val hn).symm
        have hin' : ∀ x ∈ (done ++ [l.remove S]) ++ rest, x.exists_ S = true →
            x.val < (tblAdd cnt u.val (-1)).length := by
          intro x hx hxe
          rw [tblAdd_length]
          simp only [List.mem_append, List.mem_singleton] at hx
          rcases hx with (hx | hx) | hx
          · exact hin x (by simp [hx]) hxe
          · subst hx; simp [lit_exists_remove] at hxe
          · exact hin x (by simp [hx]) hxe
        have := ih (done ++ [l.remove S]) (tblAdd cnt u.val (-1)) true hin' v
        rw [tblGet_tblAdd] at this
        simp only [live_count_append, live_count_cons, live_count_nil, lit_exists_remove,
          hl, hval] at this ⊢
        by_cases hv : l.val = v
        · simp [hv, hlt] at this ⊢
          subst hv; simp [hlt] at this; omega
        · simp [hv] at this ⊢
          omega
      | false =>
        simp only [Bool.false_eq_true, if_false]
        cases he : l.eq u with
        | true =>
          simp only [if_true]
          rw [dec_live_get S _ cnt hin v]
          omega
        | false =>
          simp only [Bool.false_eq_true, if_false]
          have := ih (done ++ [l]) cnt m (by simpa using hin) v
          simpa using this
    | false =>
      simp only [Bool.false_eq_true, if_false]
      have := ih (done ++ [l]) cnt m (by simpa using hin) v
      simpa using this


theorem occurrences_cons (S v : Nat) (c : Clause) (cs : List Clause) :
    occurrences S v (c :: cs) = clause_count S v c + occurrences S v cs := rfl

theorem clauseProp_refl (S : Nat) (u : Literal) (uid : Nat) (c : Clause) :
    ClauseProp S u uid c c :=
  ⟨rfl, rfl, forall2_refl_LitProp S u _, Or.inl rfl, fun _ => rfl⟩

theorem unit_other_shape (S : Nat) (u : Literal) (uid : Nat) (c : Clause) (cnt : List Int)
    (m : Bool) :
    ClauseProp S u uid c (unit_other S u uid c cnt m).1 ∧
    (unit_other S u uid c cnt m).2.1.length = cnt.length := by
  unfold unit_other
  cases hc : c.exists_ S with
  | false => exact ⟨clauseProp_refl S u uid c, rfl⟩
  | true =>
    simp only [if_true]
    by_cases hid : c.id = uid
    · simp only [hid, if_true]
      exact ⟨clauseProp_refl S u _ c, trivial⟩
    · simp only [hid, if_false]
      obtain ⟨X, h1, h2, h3, h4⟩ := unit_scan_shape S u c.literals [] cnt m
      rw [List.nil_append] at h1
      refine ⟨?_, h4⟩
      cases hr : (unit_scan S u [] c.literals cnt m).2.2.2 with
      | true =>
        simp only [if_true]
        refine ⟨rfl, rfl, ?_, Or.inr ⟨hc, rfl, h3 hr⟩, ?_⟩
        · simp only [Clause.remove]; rw [h1]; exact h2
        · intro h; rcases h with h | h
          · rw [hc] at h; exact absurd h (by decide)
          · exact absurd h hid
      | false =>
        simp only [Bool.false_eq_true, if_false]
        refine ⟨rfl, rfl, ?_, Or.inl rfl, ?_⟩
        · rw [h1]; exact h2
        · intro h; rcases h with h | h
          · rw [hc] at h; exact absurd h (by decide)
          · exact absurd h hid

theorem unit_other_count (S : Nat) (u : Literal) (uid : Nat) (c : Clause) (cnt : List Int)
    (m : Bool) (hin : c.exists_ S = true → ∀ l ∈ c.literals, l.exists_ S = true → l.val < cnt.length)
    (v : Nat) :
    tblGet (unit_other S u uid c cnt m).2.1 v + (clause_count S v c : Int) =
      tblGet cnt v + (clause_count S v (unit_other S u uid c cnt m).1 : Int) := by
  unfold unit_other
  cases hc : c.exists_ S with
  | false => simp
  | true =>
    simp only [if_true]
    by_cases hid : c.id = uid
    · simp only [hid, if_true]
    · simp only [hid, if_false]
      have h := unit_scan_count S u c.literals [] cnt m (by simpa using hin hc) v
      rw [List.nil_append] at h
      cases hr : (unit_scan S u [] c.literals cnt m).2.2.2 with
      | true =>
        rw [hr] at h
        simp only [if_true] at h ⊢
        simp only [clause_count, hc, clause_exists_remove, if_true] at h ⊢
        simpa using h
      | false =>
        rw [hr] at h
        simp only [Bool.false_eq_true, if_false] at h ⊢
        have hc' : Clause.exists_ S { c with literals := (unit_scan S u [] c.literals cnt m).1 } = true := hc
        simp only [clause_count, hc, hc', if_true]
        exact h

theorem unit_others_shape (S : Nat) (u : Literal) (uid : Nat) (cs : List Clause) :
    ∀ (cnt : List Int) (m : Bool),
    List.Forall₂ (ClauseProp S u uid) cs (unit_others S u uid cs cnt m).1 ∧
    (unit_others S u uid cs cnt m).2.1.length = cnt.length := by
  induction cs with
  | nil => intro cnt m; exact ⟨List.Forall₂.nil, rfl⟩
  | cons c rest ih =>
    intro cnt m
    simp only [unit_others]
    obtain ⟨h1, h2⟩ := unit_other_shape S u uid c cnt m
    obtain ⟨h3, h4⟩ := ih (unit_other S u uid c cnt m).2.1 (unit_other S u uid c cnt m).2.2
    exact ⟨List.Forall₂.cons h1 h3, by rw [h4, h2]⟩

theorem unit_others_count (S : Nat) (u : Literal) (uid : Nat) (cs : List Clause) :
    ∀ (cnt : List Int) (m : Bool), InTable S cs cnt.length →
    ∀ v, tblGet (unit_others S u uid cs cnt m).2.1 v + (occurrences S v cs : Int) =
      tblGet cnt v + (occurrences S v (unit_others S u uid cs cnt m).1 : Int) := by
  induction cs with
  | nil => intro cnt m _ v; simp [unit_others]
  | cons c rest ih =>
    intro cnt m hin v
    simp only [unit_others, occurrences_cons]
    have h1 := unit_other_count S u uid c cnt m (hin c (List.mem_cons_self _ _)) v
    have hlen := (unit_other_shape S u uid c cnt m).2
    have h2 := ih (unit_other S u uid c cnt m).2.1 (unit_other S u uid c cnt m).2.2
      (by rw [hlen]; exact fun x hx => hin x (List.mem_cons_of_mem _ hx)) v
    push_cast
    omega

theorem live_count_pos (S : Nat) (l : Literal) (ls : List Literal) (hl : l ∈ ls)
    (he : l.exists_ S = true) : 0 < live_count S l.val ls := by
  unfold live_count
  rw [List.countP_pos_iff]
  exact ⟨l, hl, by simp [he]⟩

theorem occurrences_pos (S : Nat) (l : Literal) (c : Clause) (cs : List Clause) (hc : c ∈ cs)
    (hce : c.exists_ S = true) (hl : l ∈ c.literals) (he : l.exists_ S = true) :
    0 < occurrences S l.val cs := by
  induction cs with
  | nil => cases hc
  | cons d rest ih =>
    rw [occurrences_cons]
    rcases List.mem_cons.mp hc with h | h
    · subst h
      have := live_count_pos S l c.literals hl he
      simp only [clause_count, hce, if_true]; omega
    · have := ih h; omega

theorem occAt_inTable {S : Nat} {cs : List Clause} {cnt : List Int} (h : OccAt S cs cnt) :
    InTable S cs cnt.length := by
  intro c hc hce l hl he
  by_contra hlt
  have h0 := tblGet_of_le cnt l.val (by omega)
  have h1 := occurrences_pos S l c cs hc hce hl he
  have h2 := h l.val
  omega


theorem unit_visit_occ (S : Nat) (st : List Clause × List Int × Bool) (i : Nat)
    (h : OccAt S st.1 st.2.1) :
    OccAt S (unit_visit S st i).1 (unit_visit S st i).2.1 := by
  unfold unit_visit
  cases st.1.get? i with
  | none => exact h
  | some clause =>
    simp only
    cases (clause.exists_ S && decide (clause.count S = 1)) with
    | false => exact h
    | true =>
      simp only [if_true]
      cases clause.begin S with
      | none => exact h
      | some unit_lit =>
        intro v
        have := unit_others_count S unit_lit clause.id st.1 st.2.1 st.2.2 (occAt_inTable h) v
        have h2 := h v
        simp only
        omega

theorem foldl_invariant {α β : Type} (P : α → Prop) (f : α → β → α)
    (hf : ∀ a b, P a → P (f a b)) (l : List β) : ∀ a, P a → P (l.foldl f a) := by
  induction l with
  | nil => intro a ha; exact ha
  | cons b rest ih => intro a ha; exact ih _ (hf a b ha)

theorem unit_propagation_occ (s : State) (h : OccInv s) :
    OccInv (unit_propagation s).2 := by
  have := foldl_invariant (fun st : List Clause × List Int × Bool => OccAt s.step st.1 st.2.1)
    (unit_visit s.step) (fun a b ha => unit_visit_occ s.step a b ha)
    (List.range s.clauses.length) (s.clauses, s.variable_cnt, false) h
  exact this

theorem pure_visit_length (S : Nat) (c : Clause) (cnt : List Int) (stk : List (Literal × Nat))
    (m : Bool) : (pure_visit S c cnt stk m).2.1.length = cnt.length := by
  unfold pure_visit
  cases c.exists_ S with
  | false => rfl
  | true =>
    simp only [if_true]
    cases (pure_scan S cnt c.literals stk false).2 with
    | false => rfl
    | true => exact dec_live_length _ _ _

theorem pure_visit_count (S : Nat) (c : Clause) (cnt : List Int) (stk : List (Literal × Nat))
    (m : Bool)
    (hin : c.exists_ S = true → ∀ l ∈ c.literals, l.exists_ S = true → l.val < cnt.length)
    (v : Nat) :
    tblGet (pure_visit S c cnt stk m).2.1 v + (clause_count S v c : Int) =
      tblGet cnt v + (clause_count S v (pure_visit S c cnt stk m).1 : Int) := by
  unfold pure_visit
  cases hc : c.exists_ S with
  | false => simp
  | true =>
    simp only [if_true]
    cases (pure_scan S cnt c.literals stk false).2 with
    | false => rfl
    | true =>
      simp only [clause_count, hc, clause_exists_remove, if_true]
      rw [dec_live_get S _ cnt (hin hc) v]
      simp

theorem pure_clauses_count (S : Nat) (cs : List Clause) :
    ∀ (cnt : List Int) (stk : List (Literal × Nat)) (m : Bool), InTable S cs cnt.length →
    ∀ v, tblGet (pure_clauses S cs cnt stk m).2.1 v + (occurrences S v cs : Int) =
      tblGet cnt v + (occurrences S v (pure_clauses S cs cnt stk m).1 : Int) := by
  induction cs with
  | nil => intro cnt stk m _ v; simp [pure_clauses]
  | cons c rest ih =>
    intro cnt stk m hin v
    simp only [pure_clauses, occurrences_cons]
    have h1 := pure_visit_count S c cnt stk m (hin c (List.mem_cons_self _ _)) v
    have hlen := pure_visit_length S c cnt stk m
    have h2 := ih (pure_visit S c cnt stk m).2.1 (pure_visit S c cnt stk m).2.2.1
      (pure_visit S c cnt stk m).2.2.2
      (by rw [hlen]; exact fun x hx => hin x (List.mem_cons_of_mem _ hx)) v
    push_cast
    omega

theorem pure_literal_elimination_occ (s : State) (h : OccInv s) :
    OccInv (pure_literal_elimination s).2 := by
  intro v
  have := pure_clauses_count s.step s.clauses s.variable_cnt s.pure_literals false (occAt_inTable h) v
  have h2 := h v
  simp only [pure_literal_elimination]
  omega

theorem unit_example_occ : OccInv unit_example := by
  intro v
  rcases v with _ | _ | _ | v
  · decide
  · decide
  · decide
  · simp [unit_example, tblGet, occurrences, clause_count, live_count, Clause.exists_, Literal.exists_, MAX_STEP]


/-- Claim C5: when the occurrence table agrees with the number of existing
literals in existing clauses for every variable, it still does after one call
of `unit_propagation()`; nothing is assumed about the clauses, so clauses with
both `L` and `¬L`, repeated literals and several unit clauses are covered. -/
theorem C5_unit_propagation_keeps_occurrence (s : State)
    (h : ∀ v, tblGet s.variable_cnt v = (occurrences s.step v s.clauses : Int)) :
    ∀ v, tblGet (unit_propagation s).2.variable_cnt v =
      (occurrences (unit_propagation s).2.step v (unit_propagation s).2.clauses : Int) :=
  unit_propagation_occ s h

/-- Claim C6: when the occurrence table agrees with the number of existing
literals in existing clauses for every variable, it still does after one call
of `pure_literal_elimination()`. -/
theorem C6_pure_literal_elimination_keeps_occurrence (s : State)
    (h : ∀ v, tblGet s.variable_cnt v = (occurrences s.step v s.clauses : Int)) :
    ∀ v, tblGet (pure_literal_elimination s).2.variable_cnt v =
      (occurrences (pure_literal_elimination s).2.step v
        (pure_literal_elimination s).2.clauses : Int) :=
  pure_literal_elimination_occ s h

/-- Claim C5 on the state with clauses `(x1)`, `(¬x1 ∨ x2)` and table `[0, 2, 1]`. -/
theorem C5_unit_propagation_keeps_occurrence_witness :
    OccInv unit_example ∧ OccInv (unit_propagation unit_example).2 :=
  ⟨unit_example_occ, C5_unit_propagation_keeps_occurrence unit_example unit_example_occ⟩

/-- Claim C6 on the state with clauses `(x1)`, `(¬x1 ∨ x2)` and table `[0, 2, 1]`. -/
theorem C6_pure_literal_elimination_keeps_occurrence_witness :
    OccInv unit_example ∧ OccInv (pure_literal_elimination unit_example).2 :=
  ⟨unit_example_occ, C6_pure_literal_elimination_keeps_occurrence unit_example unit_example_occ⟩

/-! ## Loops -/

theorem unit_loop_induct (P : State → Prop)
    (hP : ∀ s, P s → P (unit_propagation s).2) :
    ∀ (n : Nat) (s s' : State), unit_loop n s = Run.ok s' → P s → P s' := by
  intro n
  induction n with
  | zero => intro s s' h; simp [unit_loop] at h
  | succ k ih =>
    intro s s' h hs
    rw [unit_loop] at h
    by_cases hm : (unit_propagation s).1 = true
    · simp only [hm, if_true] at h
      exact ih _ _ h (hP s hs)
    · simp only [hm, Bool.false_eq_true, if_false, Run.ok.injEq] at h
      rw [← h]; exact hP s hs

theorem pure_loop_induct (P : State → Prop)
    (hP : ∀ s, P s → P (pure_literal_elimination s).2) :
    ∀ (n : Nat) (s s' : State) (b : Bool), pure_loop n s = Run.ok (b, s') → P s → P s' := by
  intro n
  induction n with
  | zero => intro s s' b h; simp [pure_loop] at h
  | succ k ih =>
    intro s s' b h hs
    rw [pure_loop] at h
    by_cases hm : (pure_literal_elimination s).1 = true
    · simp only [hm, if_true] at h
      by_cases he : empty (pure_literal_elimination s).2 = true
      · simp only [he, if_true, Run.ok.injEq, Prod.mk.injEq] at h
        rw [← h.2]; exact hP s hs
      · simp only [he] at h
        exact ih _ _ _ h (hP s hs)
    · simp only [hm, Bool.false_eq_true, if_false, Run.ok.injEq, Prod.mk.injEq] at h
      rw [← h.2]; exact hP s hs

theorem pure_loop_sat (n : Nat) : ∀ (s s' : State), pure_loop n s = Run.ok (true, s') →
    empty s' = true := by
  induction n with
  | zero => intro s s' h; simp [pure_loop] at h
  | succ k ih =>
    intro s s' h
    rw [pure_loop] at h
    by_cases hm : (pure_literal_elimination s).1 = true
    · simp only [hm, if_true] at h
      by_cases he : empty (pure_literal_elimination s).2 = true
      · simp only [he, if_true, Run.ok.injEq, Prod.mk.injEq] at h
        rw [← h.2]; exact he
      · simp only [he] at h
        exact ih _ _ h
    · simp only [hm, Bool.false_eq_true, if_false, Run.ok.injEq, Prod.mk.injEq] at h
      exact absurd h.1 (by decide)

/-! ## Shape of a sweep -/

theorem forall2_mem_right {α : Type} {R : α → α → Prop} {xs ys : List α}
    (h : List.Forall₂ R xs ys) : ∀ y ∈ ys, ∃ x ∈ xs, R x y := by
  induction h with
  | nil => intro y hy; cases hy
  | cons hab _ ih =>
    intro y hy
    rcases List.mem_cons.mp hy with h | h
    · subst h; exact ⟨_, List.mem_cons_self _ _, hab⟩
    · obtain ⟨x, hx, hr⟩ := ih y h
      exact ⟨x, List.mem_cons_of_mem _ hx, hr⟩

theorem forall2_mem_left {α : Type} {R : α → α → Prop} {xs ys : List α}
    (h : List.Forall₂ R xs ys) : ∀ x ∈ xs, ∃ y ∈ ys, R x y := by
  induction h with
  | nil => intro y hy; cases hy
  | cons hab _ ih =>
    intro x hx
    rcases List.mem_cons.mp hx with h | h
    · subst h; exact ⟨_, List.mem_cons_self _ _, hab⟩
    · obtain ⟨y, hy, hr⟩ := ih x h
      exact ⟨y, List.mem_cons_of_mem _ hy, hr⟩

theorem forall2_imp {α : Type} {R Q : α → α → Prop} (hRQ : ∀ a b, R a b → Q a b)
    {xs ys : List α} (h : List.Forall₂ R xs ys) : List.Forall₂ Q xs ys := by
  induction h with
  | nil => exact List.Forall₂.nil
  | cons hab _ ih => exact List.Forall₂.cons (hRQ _ _ hab) ih

theorem pure_scan_true (S : Nat) (cnt : List Int) (ls : List Literal) :
    ∀ (stk : List (Literal × Nat)), (pure_scan S cnt ls stk true).2 = true := by
  induction ls with
  | nil => intro stk; rfl
  | cons l rest ih =>
    intro stk
    simp only [pure_scan]
    split
    · exact ih _
    · exact ih _

theorem pure_scan_shape (S : Nat) (cnt : List Int) (ls : List Literal) :
    ∀ (stk : List (Literal × Nat)) (p : Bool),
    ∃ new, (pure_scan S cnt ls stk p).1 = new ++ stk ∧
      (∀ q ∈ new, q.2 = S ∧ q.1 ∈ ls ∧ q.1.exists_ S = true ∧ tblGet cnt q.1.val = 1) ∧
      ((pure_scan S cnt ls stk p).2 = true → p = true ∨ new ≠ []) ∧
      ((pure_scan S cnt ls stk p).2 = false → new = []) := by
  induction ls with
  | nil => intro stk p; exact ⟨[], rfl, by simp, fun h => Or.inl h, fun _ => rfl⟩
  | cons l rest ih =>
    intro stk p
    simp only [pure_scan]
    by_cases hc : (l.exists_ S && decide (tblGet cnt l.val = 1)) = true
    · simp only [hc, if_true]
      obtain ⟨new, h1, h2, h3, h4⟩ := ih ((l, S) :: stk) true
      simp only [Bool.and_eq_true, decide_eq_true_eq] at hc
      refine ⟨new ++ [(l, S)], by rw [h1]; simp, ?_, fun _ => Or.inr (by simp), ?_⟩
      · intro q hq
        rcases List.mem_append.mp hq with hq | hq
        · obtain ⟨a, b, c, d⟩ := h2 q hq
          exact ⟨a, List.mem_cons_of_mem _ b, c, d⟩
        · simp only [List.mem_singleton] at hq
          subst hq
          exact ⟨rfl, List.mem_cons_self _ _, hc.1, hc.2⟩
      · intro hf
        rw [pure_scan_true] at hf
        exact absurd hf (by decide)
    · simp only [hc]
      obtain ⟨new, h1, h2, h3, h4⟩ := ih stk p
      refine ⟨new, h1, ?_, h3, h4⟩
      intro q hq
      obtain ⟨a, b, c, d⟩ := h2 q hq
      exact ⟨a, List.mem_cons_of_mem _ b, c, d⟩


theorem pure_visit_shape (S : Nat) (c : Clause) (cnt : List Int) (stk : List (Literal × Nat))
    (m : Bool) :
    ∃ new, (pure_visit S c cnt stk m).2.2.1 = new ++ stk ∧
      (∀ q ∈ new, q.2 = S ∧ q.1 ∈ c.literals ∧ q.1.exists_ S = true ∧
        tblGet cnt q.1.val = 1 ∧ c.exists_ S = true) ∧
      PureStep S (pure_visit S c cnt stk m).2.2.1 c (pure_visit S c cnt stk m).1 := by
  unfold pure_visit
  cases hc : c.exists_ S with
  | false => exact ⟨[], rfl, by simp, Or.inl rfl⟩
  | true =>
    simp only [if_true]
    obtain ⟨new, h1, h2, h3, h4⟩ := pure_scan_shape S cnt c.literals stk false
    cases hr : (pure_scan S cnt c.literals stk false).2 with
    | false =>
      simp only [Bool.false_eq_true, if_false]
      refine ⟨new, h1, ?_, Or.inl rfl⟩
      intro q hq
      obtain ⟨a, b, c', d⟩ := h2 q hq
      exact ⟨a, b, c', d, trivial⟩
    | true =>
      simp only [if_true]
      refine ⟨new, h1, ?_, Or.inr ⟨hc, rfl, ?_⟩⟩
      · intro q hq
        obtain ⟨a, b, c', d⟩ := h2 q hq
        exact ⟨a, b, c', d, trivial⟩
      · rcases h3 hr with h | h
        · exact absurd h (by decide)
        · cases new with
          | nil => exact absurd rfl h
          | cons q rest =>
            obtain ⟨a, b, c', _⟩ := h2 q (List.mem_cons_self _ _)
            refine ⟨q.1, b, c', ?_⟩
            rw [h1, ← a]
            exact List.mem_append_left _ (List.mem_cons_self _ _)

theorem PureStep.mono {S : Nat} {stk stk' : List (Literal × Nat)} {c c' : Clause}
    (h : PureStep S stk c c') (hs : ∀ q ∈ stk, q ∈ stk') : PureStep S stk' c c' := by
  rcases h with h | ⟨h1, h2, l, h3, h4, h5⟩
  · exact Or.inl h
  · exact Or.inr ⟨h1, h2, l, h3, h4, hs _ h5⟩

theorem pure_clauses_shape (S : Nat) (cs : List Clause) :
    ∀ (cnt : List Int) (stk : List (Literal × Nat)) (m : Bool),
    ∃ new, (pure_clauses S cs cnt stk m).2.2.1 = new ++ stk ∧
      (∀ q ∈ new, q.2 = S ∧ ∃ c ∈ cs, c.exists_ S = true ∧ q.1 ∈ c.literals ∧
        q.1.exists_ S = true) ∧
      List.Forall₂ (PureStep S (pure_clauses S cs cnt stk m).2.2.1) cs
        (pure_clauses S cs cnt stk m).1 := by
  induction cs with
  | nil => intro cnt stk m; exact ⟨[], rfl, by simp, List.Forall₂.nil⟩
  | cons c rest ih =>
    intro cnt stk m
    simp only [pure_clauses]
    obtain ⟨n1, h1, h2, h3⟩ := pure_visit_shape S c cnt stk m
    obtain ⟨n2, k1, k2, k3⟩ := ih (pure_visit S c cnt stk m).2.1 (pure_visit S c cnt stk m).2.2.1
      (pure_visit S c cnt stk m).2.2.2
    refine ⟨n2 ++ n1, by rw [k1, h1]; simp, ?_, List.Forall₂.cons (h3.mono ?_) k3⟩
    · intro q hq
      rcases List.mem_append.mp hq with hq | hq
      · obtain ⟨a, d, hd, b⟩ := k2 q hq
        exact ⟨a, d, List.mem_cons_of_mem _ hd, b⟩
      · obtain ⟨a, b, c', _, e⟩ := h2 q hq
        exact ⟨a, c, List.mem_cons_self _ _, e, b, c'⟩
    · intro q hq
      rw [k1]; exact List.mem_append_right _ hq

/-! ## Frame restoration -/

theorem litStep_refl (S : Nat) (ls : List Literal) : List.Forall₂ (LitStep S) ls ls := by
  induction ls with
  | nil => exact List.Forall₂.nil
  | cons l rest ih => exact List.Forall₂.cons (Or.inl rfl) ih

theorem clauseStep_refl (S : Nat) (c : Clause) : ClauseStep S c c :=
  ⟨rfl, rfl, litStep_refl S _, Or.inl rfl⟩

theorem clauseStep_of_prop {S : Nat} {u : Literal} {uid : Nat} {c c' : Clause}
    (h : ClauseProp S u uid c c') : ClauseStep S c c' := by
  obtain ⟨h1, h2, h3, h4, _⟩ := h
  refine ⟨h1, h2, forall2_imp ?_ h3, ?_⟩
  · intro a b hab
    rcases hab with hab | ⟨x, _, y⟩
    · exact Or.inl hab
    · exact Or.inr ⟨x, y⟩
  · rcases h4 with h4 | ⟨x, y, _⟩
    · exact Or.inl h4
    · exact Or.inr ⟨x, y⟩

theorem clauseStep_of_pure {S : Nat} {stk : List (Literal × Nat)} {c c' : Clause}
    (h : PureStep S stk c c') : ClauseStep S c c' := by
  rcases h with h | ⟨h1, h2, _⟩
  · rw [h]; exact clauseStep_refl S c
  · rw [h2]; exact ⟨rfl, rfl, litStep_refl S _, Or.inr ⟨h1, rfl⟩⟩

theorem litStep_settled {S : Nat} {l l' : Literal} (h : LitStep S l l')
    (hl : l.lifetime_end = MAX_STEP ∨ l.lifetime_end ≤ S) :
    (l'.lifetime_end = MAX_STEP ∨ l'.lifetime_end ≤ S) ∧ l'.restore S = l.restore S := by
  rcases h with h | ⟨h1, h2⟩
  · rw [h]; exact ⟨hl, rfl⟩
  · subst h2
    simp only [Literal.exists_, Bool.and_eq_true, decide_eq_true_eq] at h1
    have hmax : l.lifetime_end = MAX_STEP := by omega
    refine ⟨Or.inr (le_refl _), ?_⟩
    cases l with
    | mk v n a b =>
      simp only at hmax
      subst hmax
      simp only [Literal.restore, Literal.remove, if_true]
      split <;> rfl

theorem litStep_list_settled {S : Nat} {ls ls' : List Literal}
    (h : List.Forall₂ (LitStep S) ls ls')
    (hl : ∀ l ∈ ls, l.lifetime_end = MAX_STEP ∨ l.lifetime_end ≤ S) :
    (∀ l ∈ ls', l.lifetime_end = MAX_STEP ∨ l.lifetime_end ≤ S) ∧
      ls'.map (Literal.restore S) = ls.map (Literal.restore S) := by
  induction h with
  | nil => exact ⟨by simp, rfl⟩
  | cons hab _ ih =>
    rename_i a b xs ys _
    obtain ⟨h1, h2⟩ := litStep_settled hab (hl a (List.mem_cons_self _ _))
    obtain ⟨h3, h4⟩ := ih (fun l hx => hl l (List.mem_cons_of_mem _ hx))
    refine ⟨?_, by simp [h2, h4]⟩
    intro l hx
    rcases List.mem_cons.mp hx with h | h
    · rw [h]; exact h1
    · exact h3 l h

theorem clauseStep_settled {S : Nat} {c c' : Clause} (h : ClauseStep S c c')
    (hc : (c.lifetime_end = MAX_STEP ∨ c.lifetime_end ≤ S) ∧
      ∀ l ∈ c.literals, l.lifetime_end = MAX_STEP ∨ l.lifetime_end ≤ S) :
    ((c'.lifetime_end = MAX_STEP ∨ c'.lifetime_end ≤ S) ∧
      ∀ l ∈ c'.literals, l.lifetime_end = MAX_STEP ∨ l.lifetime_end ≤ S) ∧
    c'.restore S = c.restore S := by
  obtain ⟨h1, h2, h3, h4⟩ := h
  obtain ⟨k1, k2⟩ := litStep_list_settled h3 hc.2
  cases c with
  | mk ls a b i =>
    cases c' with
    | mk ls' a' b' i' =>
      simp only at h1 h2 h3 h4 k1 k2 hc
      subst h1 h2
      rcases h4 with h4 | ⟨h4, h5⟩
      · subst h4
        exact ⟨⟨hc.1, k1⟩, by simp [Clause.restore, k2]⟩
      · subst h5
        simp only [Clause.exists_, Bool.and_eq_true, decide_eq_true_eq] at h4
        have hmax : b = MAX_STEP := by omega
        subst hmax
        refine ⟨⟨Or.inr (le_refl _), k1⟩, ?_⟩
        simp only [Clause.restore, k2, if_true]
        split <;> rfl

theorem settled_step {S : Nat} {cs cs' : List Clause}
    (h : List.Forall₂ (ClauseStep S) cs cs') (hs : Settled S cs) :
    Settled S cs' ∧ cs'.map (Clause.restore S) = cs.map (Clause.restore S) := by
  induction h with
  | nil => exact ⟨hs, rfl⟩
  | cons hab _ ih =>
    rename_i a b xs ys _
    obtain ⟨h1, h2⟩ := clauseStep_settled hab (hs a (List.mem_cons_self _ _))
    obtain ⟨h3, h4⟩ := ih (fun c hx => hs c (List.mem_cons_of_mem _ hx))
    refine ⟨?_, by simp [h2, h4]⟩
    intro c hx
    rcases List.mem_cons.mp hx with h | h
    · rw [h]; exact h1
    · exact h3 c h

theorem settled_mono {S T : Nat} (hST : S ≤ T) {cs : List Clause} (h : Settled S cs) :
    Settled T cs := by
  intro c hc
  obtain ⟨h1, h2⟩ := h c hc
  refine ⟨by omega, fun l hl => ?_⟩
  have := h2 l hl
  omega

theorem restore_settled_lit (T : Nat) (l : Literal)
    (h : l.lifetime_end = MAX_STEP ∨ l.lifetime_end ≤ T) : l.restore (T + 1) = l := by
  cases l with
  | mk v n a b =>
    simp only [Literal.restore] at *
    split
    · rename_i hb
      rcases h with h | h
      · rw [h]
      · omega
    · rfl

theorem restore_settled (T : Nat) (cs : List Clause) (h : Settled T cs) :
    cs.map (Clause.restore (T + 1)) = cs := by
  induction cs with
  | nil => rfl
  | cons c rest ih =>
    have hrest := ih (fun c hx => h c (List.mem_cons_of_mem _ hx))
    obtain ⟨h1, h2⟩ := h c (List.mem_cons_self _ _)
    simp only [List.map_cons, hrest]
    congr 1
    cases c with
    | mk ls a b i =>
      simp only [Clause.restore] at *
      have hl : ls.map (Literal.restore (T + 1)) = ls := by
        have : ∀ l ∈ ls, Literal.restore (T + 1) l = l :=
          fun l hl => restore_settled_lit T l (h2 l hl)
        rw [List.map_congr_left this, List.map_id']
      rw [hl]
      congr 1
      split
      · rename_i hb
        rcases h1 with h1 | h1
        · rw [h1]
        · omega
      · rfl


theorem unit_visit_step (S : Nat) (st : List Clause × List Int × Bool) (i : Nat) :
    List.Forall₂ (ClauseStep S) st.1 (unit_visit S st i).1 := by
  have hrefl : List.Forall₂ (ClauseStep S) st.1 st.1 := by
    generalize st.1 = cs
    induction cs with
    | nil => exact List.Forall₂.nil
    | cons c rest ih => exact List.Forall₂.cons (clauseStep_refl S c) ih
  unfold unit_visit
  cases st.1.get? i with
  | none => exact hrefl
  | some clause =>
    simp only
    cases (clause.exists_ S && decide (clause.count S = 1)) with
    | false => exact hrefl
    | true =>
      simp only [if_true]
      cases clause.begin S with
      | none => exact hrefl
      | some unit_lit =>
        exact forall2_imp (fun _ _ h => clauseStep_of_prop h)
          (unit_others_shape S unit_lit clause.id st.1 st.2.1 st.2.2).1

/-- The part of the state of a frame at step `T + 1` that the epilogue relies
on: nothing is stamped deeper than this step, and restoring gives back the
clause list `cs0` the frame started from. -/
theorem unit_propagation_frame (T : Nat) (cs0 : List Clause) (s : State)
    (h : s.step = T + 1 ∧ Settled (T + 1) s.clauses ∧
      s.clauses.map (Clause.restore (T + 1)) = cs0) :
    (unit_propagation s).2.step = T + 1 ∧ Settled (T + 1) (unit_propagation s).2.clauses ∧
      (unit_propagation s).2.clauses.map (Clause.restore (T + 1)) = cs0 := by
  obtain ⟨h1, h2, h3⟩ := h
  have := foldl_invariant
    (fun st : List Clause × List Int × Bool =>
      Settled (T + 1) st.1 ∧ st.1.map (Clause.restore (T + 1)) = cs0)
    (unit_visit s.step)
    (fun a b ha => by
      have hs := unit_visit_step s.step a b
      rw [h1] at hs ⊢
      obtain ⟨k1, k2⟩ := settled_step hs ha.1
      exact ⟨k1, by rw [k2]; exact ha.2⟩)
    (List.range s.clauses.length) (s.clauses, s.variable_cnt, false) ⟨h2, h3⟩
  exact ⟨h1, this⟩

theorem pure_literal_elimination_frame (T : Nat) (cs0 : List Clause) (s : State)
    (h : s.step = T + 1 ∧ Settled (T + 1) s.clauses ∧
      s.clauses.map (Clause.restore (T + 1)) = cs0) :
    (pure_literal_elimination s).2.step = T + 1 ∧
      Settled (T + 1) (pure_literal_elimination s).2.clauses ∧
      (pure_literal_elimination s).2.clauses.map (Clause.restore (T + 1)) = cs0 := by
  obtain ⟨h1, h2, h3⟩ := h
  obtain ⟨_, _, _, hs⟩ := pure_clauses_shape s.step s.clauses s.variable_cnt s.pure_literals false
  have hs' := forall2_imp (fun _ _ h => clauseStep_of_pure h) hs
  rw [h1] at hs'
  obtain ⟨k1, k2⟩ := settled_step hs' h2
  refine ⟨h1, ?_, ?_⟩
  · simp only [pure_literal_elimination]; rw [h1]; exact k1
  · simp only [pure_literal_elimination]; rw [h1, k2]; exact h3

theorem negate_first_shape (S : Nat) (ls : List Literal) : ∀ (ls' : List Literal),
    negate_first S ls = some ls' →
    List.Forall₂ (fun l l' => l' = l ∨ l' = l.negate) ls ls' := by
  induction ls with
  | nil => intro ls' h; simp [negate_first] at h
  | cons l rest ih =>
    intro ls' h
    simp only [negate_first] at h
    split at h
    · simp only [Option.some.injEq] at h
      subst h
      refine List.Forall₂.cons (Or.inr rfl) ?_
      generalize rest = r
      induction r with
      | nil => exact List.Forall₂.nil
      | cons x xs ihx => exact List.Forall₂.cons (Or.inl rfl) ihx
    · cases hr : negate_first S rest with
      | none => rw [hr] at h; simp at h
      | some r =>
        rw [hr] at h
        simp only [Option.map_some', Option.some.injEq] at h
        subst h
        exact List.Forall₂.cons (Or.inl rfl) (ih r hr)

theorem negate_front_shape (s s4 : State) (h : negate_front s = some s4) :
    ∃ c cs ls, s.clauses = c :: cs ∧ negate_first s.step c.literals = some ls ∧
      s4 = { s with clauses := { c with literals := ls } :: cs } := by
  unfold negate_front at h
  cases hc : s.clauses with
  | nil => rw [hc] at h; simp at h
  | cons c cs =>
    rw [hc] at h
    simp only at h
    cases hn : negate_first s.step c.literals with
    | none => rw [hn] at h; simp at h
    | some ls =>
      rw [hn] at h
      simp only [Option.some.injEq] at h
      exact ⟨c, cs, ls, rfl, hn, h.symm⟩

theorem negate_front_settled (S : Nat) (s s4 : State) (h : negate_front s = some s4)
    (hs : Settled S s.clauses) :
    Settled S s4.clauses ∧ s4.step = s.step ∧ s4.variable_cnt = s.variable_cnt ∧
      s4.clauses.tail = s.clauses.tail ∧ s4.pure_literals = s.pure_literals ∧
      s4.solution = s.solution := by
  obtain ⟨c, cs, ls, h1, h2, h3⟩ := negate_front_shape s s4 h
  subst h3
  refine ⟨?_, rfl, rfl, by simp [h1], rfl, rfl⟩
  intro d hd
  simp only [List.mem_cons] at hd
  rw [h1] at hs
  rcases hd with hd | hd
  · subst hd
    obtain ⟨k1, k2⟩ := hs c (List.mem_cons_self _ _)
    refine ⟨k1, ?_⟩
    intro l hl
    obtain ⟨x, hx, hr⟩ := forall2_mem_right (negate_first_shape _ _ _ h2) l hl
    rcases hr with hr | hr
    · rw [hr]; exact k2 x hx
    · rw [hr]; exact k2 x hx
  · exact hs d (List.mem_cons_of_mem _ hd)

theorem epilogue_frame (save : List Int) (r : state_t) (s : State) :
    (epilogue save r s).step = s.step - 1 ∧
    (epilogue save r s).clauses = s.clauses.map (Clause.restore s.step) ∧
    (epilogue save r s).variable_cnt = save := by
  unfold epilogue
  split <;> exact ⟨rfl, rfl, rfl⟩

/-- Frame restoration for one call: when nothing is stamped deeper than the
step of the caller, `solve_impl` gives back the step counter, the clause list
with all its windows, and the occurrence table. -/
theorem solve_impl_frame (fuel : Nat) : ∀ (s : State) (r : state_t) (s' : State),
    Settled s.step s.clauses → solve_impl fuel s = Run.ok (r, s') →
    s'.step = s.step ∧ s'.clauses = s.clauses ∧ s'.variable_cnt = s.variable_cnt := by
  induction fuel with
  | zero => intro s r s' _ h; simp [solve_impl] at h
  | succ k ih =>
    intro s r s' hs h
    obtain ⟨s1, sat, s2, h1, h2, hcase⟩ := solve_impl_inv k s r s' h
    have f0 : ({ s with step := s.step + 1 } : State).step = s.step + 1 ∧
        Settled (s.step + 1) ({ s with step := s.step + 1 } : State).clauses ∧
        ({ s with step := s.step + 1 } : State).clauses.map (Clause.restore (s.step + 1)) =
          s.clauses :=
      ⟨rfl, settled_mono (Nat.le_succ _) hs, restore_settled s.step s.clauses hs⟩
    have f1 := unit_loop_induct _ (unit_propagation_frame s.step s.clauses) _ _ _ h1 f0
    have f2 := pure_loop_induct _ (pure_literal_elimination_frame s.step s.clauses) _ _ _ _ h2 f1
    obtain ⟨g1, g2, g3⟩ := f2
    rcases hcase with ⟨_, _, hs'⟩ | ⟨_, var, _, r1, s3, h3, hcase⟩
    · obtain ⟨e1, e2, e3⟩ := epilogue_frame s.variable_cnt r s2
      rw [hs', e1, e2, e3, g1, g3]
      exact ⟨rfl, rfl, rfl⟩
    · have hpush : Settled (push_decision s2 var).step (push_decision s2 var).clauses := by
        intro c hc
        simp only [push_decision, List.mem_cons] at hc ⊢
        rcases hc with hc | hc
        · subst hc
          exact ⟨Or.inl rfl, fun l hl => by simp at hl; subst hl; exact Or.inl rfl⟩
        · rw [g1]; exact g2 c hc
      obtain ⟨i1, i2, i3⟩ := ih _ _ _ hpush h3
      rcases hcase with ⟨_, _, hs'⟩ | ⟨_, s4, h4, s5, h5, hs'⟩
      · obtain ⟨e1, e2, e3⟩ := epilogue_frame s.variable_cnt state_t.SAT (pop_front s3)
        rw [hs', e1, e2, e3]
        simp only [pop_front, i1, i2, push_decision, List.tail_cons, g1, g3]
        simp
      · have hs3 : Settled s3.step s3.clauses := by rw [i1, i2]; exact hpush
        obtain ⟨n1, n2, _, n4, _, _⟩ := negate_front_settled _ s3 s4 h4 hs3
        obtain ⟨j1, j2, _⟩ := ih _ _ _ (by rw [n2]; exact n1) h5
        obtain ⟨e1, e2, e3⟩ := epilogue_frame s.variable_cnt r (pop_front s5)
        rw [hs', e1, e2, e3]
        simp only [pop_front, j1, j2, n2, n4, i1, i2, push_decision, List.tail_cons, g1, g3]
        simp


/-! ## Reachable calls (claim C4) -/

theorem wellFormed_settled (s : State) (h : WellFormed s) : Settled 0 s.clauses := by
  intro c hc
  obtain ⟨_, h2, h3⟩ := h.1 c hc
  exact ⟨Or.inl h2, fun l hl => Or.inl (h3 l hl).2⟩

theorem push_decision_settled (s2 : State) (var : Nat)
    (h : Settled s2.step s2.clauses) :
    Settled (push_decision s2 var).step (push_decision s2 var).clauses := by
  intro c hc
  simp only [push_decision, List.mem_cons] at hc ⊢
  rcases hc with hc | hc
  · subst hc
    exact ⟨Or.inl rfl, fun l hl => by simp at hl; subst hl; exact Or.inl rfl⟩
  · exact h c hc

theorem prologue_settled (s s1 s2 : State) (n m : Nat) (sat : Bool)
    (hs : Settled s.step s.clauses)
    (h1 : unit_loop n { s with step := s.step + 1 } = Run.ok s1)
    (h2 : pure_loop m s1 = Run.ok (sat, s2)) :
    s2.step = s.step + 1 ∧ Settled (s.step + 1) s2.clauses ∧
      s2.clauses.map (Clause.restore (s.step + 1)) = s.clauses := by
  have f0 : ({ s with step := s.step + 1 } : State).step = s.step + 1 ∧
      Settled (s.step + 1) ({ s with step := s.step + 1 } : State).clauses ∧
      ({ s with step := s.step + 1 } : State).clauses.map (Clause.restore (s.step + 1)) =
        s.clauses :=
    ⟨rfl, settled_mono (Nat.le_succ _) hs, restore_settled s.step s.clauses hs⟩
  have f1 := unit_loop_induct _ (unit_propagation_frame s.step s.clauses) _ _ _ h1 f0
  exact pure_loop_induct _ (pure_literal_elimination_frame s.step s.clauses) _ _ _ _ h2 f1

theorem called_settled (s0 : State) (h0 : WellFormed s0) (s : State) (h : Called s0 s) :
    Settled s.step s.clauses := by
  induction h with
  | root => exact wellFormed_settled s0 h0
  | first s s1 s2 n m sat var _ h1 h2 _ _ ih =>
    obtain ⟨g1, g2, _⟩ := prologue_settled s s1 s2 n m sat ih h1 h2
    exact push_decision_settled s2 var (by rw [g1]; exact g2)
  | second s s1 s2 s3 s4 n m k sat var r1 _ h1 h2 _ _ h3 _ h4 ih =>
    obtain ⟨g1, g2, _⟩ := prologue_settled s s1 s2 n m sat ih h1 h2
    have hp := push_decision_settled s2 var (by rw [g1]; exact g2)
    obtain ⟨i1, i2, _⟩ := solve_impl_frame k _ _ _ hp h3
    obtain ⟨n1, n2, _⟩ := negate_front_settled s3.step s3 s4 h4 (by rw [i1, i2]; exact hp)
    rw [n2]; exact n1

/-- Claim C4: for every call of `solve_impl` made while `solve()` runs on a
well-formed formula, when the call returns, with whatever verdict, the step
counter, the clause list with every window of every clause and literal, and
the occurrence table are what they were when the call was entered. -/
theorem C4_frame_restoration (s0 : State) (h0 : WellFormed s0) (s : State)
    (hc : Called s0 s) (fuel : Nat) (r : state_t) (s' : State)
    (h : solve_impl fuel s = Run.ok (r, s')) :
    s'.step = s.step ∧ s'.clauses = s.clauses ∧ s'.variable_cnt = s.variable_cnt :=
  solve_impl_frame fuel s r s' (called_settled s0 h0 s hc) h

theorem wellFormed_four : WellFormed { four_root with step := 0 } := by
  refine ⟨by decide, by decide, ?_⟩
  intro v hv
  have : v < 3 := hv
  interval_cases v <;> decide


/-- Claim C4 on the first recursive call of the search on the four-clause
formula over x1, x2. -/
theorem C4_frame_restoration_witness :
    WellFormed { four_root with step := 0 } ∧
    Called { four_root with step := 0 } (push_decision four_root 1) ∧
    solve_impl 2 (push_decision four_root 1) =
      Run.ok (state_t.UNSAT, push_decision four_root 1) ∧
    (push_decision four_root 1).step = 1 :=
  have hc : Called { four_root with step := 0 } (push_decision four_root 1) :=
    Called.first { four_root with step := 0 } four_root four_root 1 1 false 1 Called.root
      (by decide) (by decide) (by decide) (by decide)
  have hr : solve_impl 2 (push_decision four_root 1) =
      Run.ok (state_t.UNSAT, push_decision four_root 1) := by decide
  ⟨wellFormed_four, hc, hr,
    (C4_frame_restoration _ wellFormed_four _ hc 2 state_t.UNSAT _ hr).1⟩

/-! ## Existence one step deeper -/

theorem lit_exists_succ (S : Nat) (l : Literal) (hS : S + 1 < MAX_STEP)
    (hb : l.lifetime_start ≤ S) (he : l.lifetime_end = MAX_STEP ∨ l.lifetime_end ≤ S) :
    l.exists_ (S + 1) = l.exists_ S := by
  simp only [Literal.exists_]
  rcases he with he | he
  · have h1 : S < l.lifetime_end := by omega
    have h2 : S + 1 < l.lifetime_end := by omega
    have h3 : l.lifetime_start ≤ S + 1 := by omega
    simp [h1, h2, h3, hb]
  · have h1 : ¬ S < l.lifetime_end := by omega
    have h2 : ¬ S + 1 < l.lifetime_end := by omega
    simp [h1, h2]

theorem clause_exists_succ (S : Nat) (c : Clause) (hS : S + 1 < MAX_STEP)
    (hb : c.lifetime_start ≤ S) (he : c.lifetime_end = MAX_STEP ∨ c.lifetime_end ≤ S) :
    c.exists_ (S + 1) = c.exists_ S := by
  simp only [Clause.exists_]
  rcases he with he | he
  · have h1 : S < c.lifetime_end := by omega
    have h2 : S + 1 < c.lifetime_end := by omega
    have h3 : c.lifetime_start ≤ S + 1 := by omega
    simp [h1, h2, h3, hb]
  · have h1 : ¬ S < c.lifetime_end := by omega
    have h2 : ¬ S + 1 < c.lifetime_end := by omega
    simp [h1, h2]

theorem live_count_succ (S v : Nat) (ls : List Literal) (hS : S + 1 < MAX_STEP)
    (hb : ∀ l ∈ ls, l.lifetime_start ≤ S)
    (he : ∀ l ∈ ls, l.lifetime_end = MAX_STEP ∨ l.lifetime_end ≤ S) :
    live_count (S + 1) v ls = live_count S v ls := by
  unfold live_count
  apply List.countP_congr
  intro l hl
  rw [lit_exists_succ S l hS (hb l hl) (he l hl)]

theorem occurrences_succ (S v : Nat) (cs : List Clause) (hS : S + 1 < MAX_STEP)
    (hb : Born S cs) (he : Settled S cs) :
    occurrences (S + 1) v cs = occurrences S v cs := by
  induction cs with
  | nil => rfl
  | cons c rest ih =>
    have hrest := ih (fun c hx => hb c (List.mem_cons_of_mem _ hx))
      (fun c hx => he c (List.mem_cons_of_mem _ hx))
    obtain ⟨b1, b2⟩ := hb c (List.mem_cons_self _ _)
    obtain ⟨e1, e2⟩ := he c (List.mem_cons_self _ _)
    simp only [occurrences, clause_count, hrest, clause_exists_succ S c hS b1 e1,
      live_count_succ S v c.literals hS b2 e2]

theorem models_succ (S : Nat) (a : Nat → Bool) (cs : List Clause) (hS : S + 1 < MAX_STEP)
    (hb : Born S cs) (he : Settled S cs) (h : Models S a cs) : Models (S + 1) a cs := by
  intro c hc hce
  obtain ⟨b1, b2⟩ := hb c hc
  obtain ⟨e1, e2⟩ := he c hc
  rw [clause_exists_succ S c hS b1 e1] at hce
  obtain ⟨l, hl, hle, hh⟩ := h c hc hce
  exact ⟨l, hl, by rw [lit_exists_succ S l hS (b2 l hl) (e2 l hl)]; exact hle, hh⟩


/-! ## Models through a frame -/

theorem born_step {S T : Nat} {cs cs' : List Clause}
    (h : List.Forall₂ (ClauseStep S) cs cs') (hb : Born T cs) : Born T cs' := by
  intro c' hc'
  obtain ⟨c, hc, h1, _, h3, _⟩ := forall2_mem_right h c' hc'
  obtain ⟨b1, b2⟩ := hb c hc
  refine ⟨by rw [h1]; exact b1, ?_⟩
  intro l' hl'
  obtain ⟨l, hl, hr⟩ := forall2_mem_right h3 l' hl'
  rcases hr with hr | ⟨_, hr⟩
  · rw [hr]; exact b2 l hl
  · rw [hr]; exact b2 l hl

theorem unique_of_filter_one {α : Type} (p : α → Bool) (ls : List α) (u l : α)
    (h1 : (ls.filter p).length = 1) (h2 : ls.find? p = some u) (hl : l ∈ ls)
    (hp : p l = true) : l = u := by
  induction ls with
  | nil => cases hl
  | cons x xs ih =>
    cases hx : p x with
    | true =>
      simp only [List.filter_cons, hx, if_true, List.length_cons, Nat.add_eq_right,
        List.length_eq_zero] at h1
      simp only [List.find?_cons, hx, Option.some.injEq] at h2
      rcases List.mem_cons.mp hl with h | h
      · rw [h, h2]
      · have : l ∈ xs.filter p := List.mem_filter.mpr ⟨h, hp⟩
        rw [h1] at this
        cases this
    | false =>
      simp only [List.filter_cons, hx, Bool.false_eq_true, if_false] at h1
      simp only [List.find?_cons, hx] at h2
      rcases List.mem_cons.mp hl with h | h
      · rw [h, hx] at hp; exact absurd hp (by decide)
      · exact ih h1 h2 h

theorem holds_not (a : Nat → Bool) (l u : Literal) (h : l.eq u.not = true)
    (hu : u.holds a = true) : l.holds a = false := by
  simp only [Literal.eq, Literal.not, Bool.and_eq_true, beq_iff_eq] at h
  simp only [Literal.holds] at hu ⊢
  rw [h.1, h.2]
  revert hu
  cases a u.val <;> cases u.negated <;> simp

theorem clauseProp_models {S : Nat} {a : Nat → Bool} {u : Literal} {uid : Nat}
    {cs cs' : List Clause} (hu : u.holds a = true)
    (h : List.Forall₂ (ClauseProp S u uid) cs cs') (hm : Models S a cs) : Models S a cs' := by
  intro c' hc' hce'
  obtain ⟨c, hc, h1, _, h3, h4, _⟩ := forall2_mem_right h c' hc'
  have hce : c.exists_ S = true := by
    rcases h4 with h4 | ⟨_, h4, _⟩
    · simp only [Clause.exists_] at hce' ⊢
      rw [← h1, ← h4]; exact hce'
    · simp only [Clause.exists_, h4, Bool.and_eq_true, decide_eq_true_eq] at hce'
      omega
  obtain ⟨l, hl, hle, hh⟩ := hm c hc hce
  obtain ⟨l', hl', hr⟩ := forall2_mem_left h3 l hl
  rcases hr with hr | ⟨_, hr, _⟩
  · exact ⟨l', hl', by rw [hr]; exact hle, by rw [hr]; exact hh⟩
  · rw [holds_not a l u hr hu] at hh
    exact absurd hh (by decide)

theorem unit_visit_models (S : Nat) (a : Nat → Bool) (st : List Clause × List Int × Bool)
    (i : Nat) (h : Models S a st.1) : Models S a (unit_visit S st i).1 := by
  unfold unit_visit
  cases hg : st.1.get? i with
  | none => exact h
  | some clause =>
    simp only
    cases hcond : (clause.exists_ S && decide (clause.count S = 1)) with
    | false => exact h
    | true =>
      simp only [if_true]
      cases hb : clause.begin S with
      | none => exact h
      | some unit_lit =>
        simp only
        simp only [Bool.and_eq_true, decide_eq_true_eq] at hcond
        obtain ⟨l, hl, hle, hh⟩ := h clause (List.get?_mem hg) hcond.1
        have : l = unit_lit :=
          unique_of_filter_one (Literal.exists_ S) clause.literals unit_lit l hcond.2 hb hl hle
        rw [this] at hh
        exact clauseProp_models hh
          (unit_others_shape S unit_lit clause.id st.1 st.2.1 st.2.2).1 h

theorem pureStep_models {S : Nat} {a : Nat → Bool} {stk : List (Literal × Nat)}
    {cs cs' : List Clause} (h : List.Forall₂ (PureStep S stk) cs cs') (hm : Models S a cs) :
    Models S a cs' := by
  intro c' hc' hce'
  obtain ⟨c, hc, hr⟩ := forall2_mem_right h c' hc'
  rcases hr with hr | ⟨_, hr, _⟩
  · rw [hr] at hce' ⊢; exact hm c hc hce'
  · rw [hr, clause_exists_remove] at hce'
    exact absurd hce' (by decide)

theorem has_empty_clause_not_models (s : State) (a : Nat → Bool)
    (h : has_empty_clause s = true) : ¬ Models s.step a s.clauses := by
  intro hm
  simp only [has_empty_clause, List.any_eq_true, Bool.and_eq_true] at h
  obtain ⟨c, hc, hce, hemp⟩ := h
  obtain ⟨l, hl, hle, _⟩ := hm c hc hce
  simp only [Clause.empty, Clause.begin, Option.isNone_iff_eq_none, List.find?_eq_none] at hemp
  exact hemp l hl hle


/-! ## The loops of a frame -/

theorem unit_propagation_born (T : Nat) (s : State) (h : Born T s.clauses) :
    Born T (unit_propagation s).2.clauses :=
  foldl_invariant (fun st : List Clause × List Int × Bool => Born T st.1)
    (unit_visit s.step) (fun a b ha => born_step (unit_visit_step s.step a b) ha)
    (List.range s.clauses.length) (s.clauses, s.variable_cnt, false) h

theorem unit_propagation_models (a : Nat → Bool) (s : State) (h : Models s.step a s.clauses) :
    Models s.step a (unit_propagation s).2.clauses :=
  foldl_invariant (fun st : List Clause × List Int × Bool => Models s.step a st.1)
    (unit_visit s.step) (fun x b hx => unit_visit_models s.step a x b hx)
    (List.range s.clauses.length) (s.clauses, s.variable_cnt, false) h

theorem unit_propagation_ok (T : Nat) (s : State) (h : FrameOk T s) :
    FrameOk T (unit_propagation s).2 := by
  obtain ⟨h1, h2, h3, h4⟩ := h
  refine ⟨h1, unit_propagation_born _ s h2, ?_, ?_⟩
  · exact (unit_propagation_frame T _ s ⟨h1, h3, rfl⟩).2.1
  · have := unit_propagation_occ s (by unfold OccInv; rw [h1]; exact h4)
    unfold OccInv at this
    have hs : (unit_propagation s).2.step = T + 1 := h1
    rw [hs] at this
    exact this

theorem pure_literal_elimination_born (T : Nat) (s : State) (h : Born T s.clauses) :
    Born T (pure_literal_elimination s).2.clauses := by
  obtain ⟨_, _, _, hs⟩ := pure_clauses_shape s.step s.clauses s.variable_cnt s.pure_literals false
  exact born_step (forall2_imp (fun _ _ h => clauseStep_of_pure h) hs) h

theorem pure_literal_elimination_models (a : Nat → Bool) (s : State)
    (h : Models s.step a s.clauses) :
    Models s.step a (pure_literal_elimination s).2.clauses := by
  obtain ⟨_, _, _, hs⟩ := pure_clauses_shape s.step s.clauses s.variable_cnt s.pure_literals false
  exact pureStep_models hs h

theorem pure_literal_elimination_ok (T : Nat) (s : State) (h : FrameOk T s) :
    FrameOk T (pure_literal_elimination s).2 := by
  obtain ⟨h1, h2, h3, h4⟩ := h
  refine ⟨h1, pure_literal_elimination_born _ s h2, ?_, ?_⟩
  · exact (pure_literal_elimination_frame T _ s ⟨h1, h3, rfl⟩).2.1
  · have := pure_literal_elimination_occ s (by unfold OccInv; rw [h1]; exact h4)
    unfold OccInv at this
    have hs : (pure_literal_elimination s).2.step = T + 1 := h1
    rw [hs] at this
    exact this

theorem born_mono {S T : Nat} (hST : S ≤ T) {cs : List Clause} (h : Born S cs) : Born T cs := by
  intro c hc
  obtain ⟨h1, h2⟩ := h c hc
  exact ⟨by omega, fun l hl => by have := h2 l hl; omega⟩

/-- The state at the end of the two loops of a frame. -/
theorem prologue_ok (s s1 s2 : State) (n m : Nat) (sat : Bool)
    (hb : Born s.step s.clauses) (hs : Settled s.step s.clauses)
    (ho : OccAt (s.step + 1) s.clauses s.variable_cnt)
    (h1 : unit_loop n { s with step := s.step + 1 } = Run.ok s1)
    (h2 : pure_loop m s1 = Run.ok (sat, s2)) :
    FrameOk s.step s2 := by
  have f0 : FrameOk s.step { s with step := s.step + 1 } :=
    ⟨rfl, born_mono (Nat.le_succ _) hb, settled_mono (Nat.le_succ _) hs, ho⟩
  have f1 := unit_loop_induct _ (unit_propagation_ok s.step) _ _ _ h1 f0
  exact pure_loop_induct _ (pure_literal_elimination_ok s.step) _ _ _ _ h2 f1

theorem prologue_models (a : Nat → Bool) (s s1 s2 : State) (n m : Nat) (sat : Bool)
    (hm : Models (s.step + 1) a s.clauses)
    (h1 : unit_loop n { s with step := s.step + 1 } = Run.ok s1)
    (h2 : pure_loop m s1 = Run.ok (sat, s2)) :
    Models (s.step + 1) a s2.clauses := by
  have f0 : ({ s with step := s.step + 1 } : State).step = s.step + 1 ∧
      Models (s.step + 1) a ({ s with step := s.step + 1 } : State).clauses := ⟨rfl, hm⟩
  have f1 := unit_loop_induct
    (fun x => x.step = s.step + 1 ∧ Models (s.step + 1) a x.clauses)
    (fun x hx => ⟨hx.1, by
      have := unit_propagation_models a x (by rw [hx.1]; exact hx.2)
      rw [hx.1] at this; exact this⟩) _ _ _ h1 f0
  have f2 := pure_loop_induct
    (fun x => x.step = s.step + 1 ∧ Models (s.step + 1) a x.clauses)
    (fun x hx => ⟨hx.1, by
      have := pure_literal_elimination_models a x (by rw [hx.1]; exact hx.2)
      rw [hx.1] at this; exact this⟩) _ _ _ _ h2 f1
  exact f2.2

/-! ## The decision clause -/

theorem select_variable_lt (s : State) (var : Nat) (h : select_variable s = some var) :
    var < s.variable_cnt.length ∧ 1 ≤ var ∧ 0 < tblGet s.variable_cnt var := by
  unfold select_variable at h
  have hm := List.mem_of_find?_eq_some h
  have hp := List.find?_some h
  have hm2 := List.mem_of_mem_drop hm
  simp only [List.mem_range] at hm2
  simp only [decide_eq_true_eq] at hp
  refine ⟨hm2, ?_, hp⟩
  by_contra hv
  have hv0 : var = 0 := by omega
  subst hv0
  cases hl : s.variable_cnt.length with
  | zero => omega
  | succ n =>
    rw [hl, List.range_succ_eq_map] at hm
    simp at hm

theorem push_decision_clauses (s : State) (var : Nat) :
    (push_decision s var).clauses = decision s.step var false s.clause_cnt :: s.clauses ∧
    (push_decision s var).step = s.step ∧
    (push_decision s var).variable_cnt = tblAdd s.variable_cnt var 1 ∧
    (push_decision s var).pure_literals = s.pure_literals ∧
    (push_decision s var).solution = s.solution := ⟨rfl, rfl, rfl, rfl, rfl⟩

theorem negate_front_decision (s s4 : State) (var id : Nat) (cs : List Clause)
    (hc : s.clauses = decision s.step var false id :: cs) (hS : s.step < MAX_STEP)
    (h : negate_front s = some s4) :
    s4 = { s with clauses := decision s.step var true id :: cs } := by
  unfold negate_front at h
  rw [hc] at h
  have he : Literal.exists_ s.step ⟨var, false, s.step, MAX_STEP⟩ = true := by
    simp [Literal.exists_, hS]
  simp only [decision, negate_first, he, if_true, Option.some.injEq] at h
  rw [← h]
  rfl

theorem decision_exists (S var id : Nat) (neg : Bool) (hS : S + 1 < MAX_STEP) :
    (decision S var neg id).exists_ (S + 1) = true ∧
    Literal.exists_ (S + 1) ⟨var, neg, S, MAX_STEP⟩ = true := by
  simp [decision, Clause.exists_, Literal.exists_, hS]

theorem occAt_decision (S var id : Nat) (neg : Bool) (cs : List Clause) (cnt : List Int)
    (hS : S + 1 < MAX_STEP) (hb : Born S cs) (hs : Settled S cs) (ho : OccAt S cs cnt)
    (hv : var < cnt.length) :
    OccAt (S + 1) (decision S var neg id :: cs) (tblAdd cnt var 1) := by
  intro v
  obtain ⟨e1, e2⟩ := decision_exists S var id neg hS
  rw [occurrences_cons, occurrences_succ S v cs hS hb hs, tblGet_tblAdd, ho v]
  simp only [clause_count, e1, if_true]
  simp only [decision, live_count, List.countP_cons, List.countP_nil, e2, Bool.true_and,
    decide_eq_true_eq]
  by_cases hvv : var = v
  · simp [hvv, hv]; subst hvv; simp [hv]; omega
  · simp [hvv]

theorem models_decision (S var id : Nat) (neg : Bool) (a : Nat → Bool) (cs : List Clause)
    (hS : S + 1 < MAX_STEP) (hm : Models (S + 1) a cs) (ha : (a var != neg) = true) :
    Models (S + 1) a (decision S var neg id :: cs) := by
  intro c hc hce
  rcases List.mem_cons.mp hc with h | h
  · subst h
    exact ⟨⟨var, neg, S, MAX_STEP⟩, by simp [decision], (decision_exists S var id neg hS).2, ha⟩
  · exact hm c h hce

theorem born_decision (S var id : Nat) (neg : Bool) (cs : List Clause) (hb : Born S cs) :
    Born S (decision S var neg id :: cs) := by
  intro c hc
  rcases List.mem_cons.mp hc with h | h
  · subst h
    exact ⟨le_refl _, fun l hl => by simp [decision] at hl; subst hl; exact le_refl _⟩
  · exact hb c h

theorem settled_decision (S var id : Nat) (neg : Bool) (cs : List Clause) (hs : Settled S cs) :
    Settled S (decision S var neg id :: cs) := by
  intro c hc
  rcases List.mem_cons.mp hc with h | h
  · subst h
    exact ⟨Or.inl rfl, fun l hl => by simp [decision] at hl; subst hl; exact Or.inl rfl⟩
  · exact hs c h


/-! ## Refutations are correct (claim C1) -/

theorem detect_unsat (sat : Bool) (s : State) (h : detect sat s = state_t.UNSAT) :
    has_empty_clause s = true := by
  unfold detect at h
  cases sat with
  | true => simp at h
  | false =>
    cases he : has_empty_clause s with
    | true => rfl
    | false => rw [he] at h; simp at h

/-- Soundness of the verdict UNSAT for one call, and the fact that a call never
returns UNKNOWN. -/
theorem solve_impl_sound (fuel : Nat) : ∀ (s : State) (r : state_t) (s' : State),
    s.step + fuel < MAX_STEP → Born s.step s.clauses → Settled s.step s.clauses →
    OccAt (s.step + 1) s.clauses s.variable_cnt →
    solve_impl fuel s = Run.ok (r, s') →
    r ≠ state_t.UNKNOWN ∧ (r = state_t.UNSAT → ∀ a, ¬ Models (s.step + 1) a s.clauses) := by
  induction fuel with
  | zero => intro s r s' _ _ _ _ h; simp [solve_impl] at h
  | succ k ih =>
    intro s r s' hfuel hb hs ho h
    obtain ⟨s1, sat, s2, h1, h2, hcase⟩ := solve_impl_inv k s r s' h
    obtain ⟨g1, g2, g3, g4⟩ := prologue_ok s s1 s2 _ _ sat hb hs ho h1 h2
    rcases hcase with ⟨hd, hr, _⟩ | ⟨_, var, hv, r1, s3, h3, hcase⟩
    · refine ⟨by rw [hr]; exact hd, ?_⟩
      intro hu a hm
      have hm2 := prologue_models a s s1 s2 _ _ sat hm h1 h2
      rw [hr] at hu
      have := has_empty_clause_not_models s2 a (detect_unsat sat s2 hu)
      rw [g1] at this
      exact this hm2
    · cases k with
      | zero => simp [solve_impl] at h3
      | succ j =>
        have hS : s.step + 1 + 1 < MAX_STEP := by omega
        obtain ⟨hvlt, _, _⟩ := select_variable_lt s2 var hv
        obtain ⟨p1, p2, p3, _, _⟩ := push_decision_clauses s2 var
        have pb : Born (push_decision s2 var).step (push_decision s2 var).clauses := by
          rw [p1, p2]; exact born_decision _ _ _ _ _ (by rw [g1]; exact g2)
        have ps : Settled (push_decision s2 var).step (push_decision s2 var).clauses := by
          rw [p1, p2]; exact settled_decision _ _ _ _ _ (by rw [g1]; exact g3)
        have po : OccAt ((push_decision s2 var).step + 1) (push_decision s2 var).clauses
            (push_decision s2 var).variable_cnt := by
          rw [p1, p2, p3, g1]
          exact occAt_decision _ _ _ _ _ _ hS g2 g3 g4 hvlt
        obtain ⟨i1, i2⟩ := ih _ r1 s3 (by rw [p2, g1]; omega) pb ps po h3
        rcases hcase with ⟨_, hr, _⟩ | ⟨hr1, s4, h4, s5, h5, _⟩
        · exact ⟨by rw [hr]; decide, fun hu => by rw [hr] at hu; exact absurd hu (by decide)⟩
        · obtain ⟨f1, f2, f3⟩ := solve_impl_frame _ _ _ _ ps h3
          have hc3 : s3.clauses = decision s3.step var false s2.clause_cnt :: s2.clauses := by
            rw [f2, f1, p1, p2]
          have hs3 : s3.step = s.step + 1 := by rw [f1, p2, g1]
          have h4' := negate_front_decision s3 s4 var _ _ hc3 (by rw [hs3]; omega) h4
          have q1 : s4.clauses = decision (s.step + 1) var true s2.clause_cnt :: s2.clauses := by
            rw [h4', hs3]
          have q2 : s4.step = s.step + 1 := by rw [h4']; exact hs3
          have q3 : s4.variable_cnt = tblAdd s2.variable_cnt var 1 := by
            rw [h4']; simp only; rw [f3, p3]
          have qb : Born s4.step s4.clauses := by
            rw [q1, q2]; exact born_decision _ _ _ _ _ g2
          have qs : Settled s4.step s4.clauses := by
            rw [q1, q2]; exact settled_decision _ _ _ _ _ g3
          have qo : OccAt (s4.step + 1) s4.clauses s4.variable_cnt := by
            rw [q1, q2, q3]
            exact occAt_decision _ _ _ _ _ _ hS g2 g3 g4 hvlt
          obtain ⟨j1, j2⟩ := ih _ r s5 (by rw [q2]; omega) qb qs qo h5
          refine ⟨j1, ?_⟩
          intro hu a hm
          have hm2 := prologue_models a s s1 s2 _ _ sat hm h1 h2
          have hm3 := models_succ _ a _ hS g2 g3 hm2
          have hr1u : r1 = state_t.UNSAT := by
            cases r1 with
            | UNKNOWN => exact absurd rfl i1
            | UNSAT => rfl
            | SAT => exact absurd rfl hr1
          cases ha : a var with
          | true =>
            have := i2 hr1u a
            rw [p1, p2, g1] at this
            exact this (models_decision _ _ _ _ a _ hS hm3 (by rw [ha]; rfl))
          | false =>
            have := j2 hu a
            rw [q1, q2] at this
            exact this (models_decision _ _ _ _ a _ hS hm3 (by rw [ha]; rfl))

theorem literal_count_zero (v : Nat) (cs : List Clause)
    (h : ∀ c ∈ cs, ∀ l ∈ c.literals, l.val ≠ v) : literal_count v cs = 0 := by
  induction cs with
  | nil => rfl
  | cons c rest ih =>
    simp only [literal_count]
    rw [ih (fun c hx => h c (List.mem_cons_of_mem _ hx))]
    have : c.literals.countP (fun l => decide (l.val = v)) = 0 := by
      rw [List.countP_eq_zero]
      intro l hl
      simp [h c (List.mem_cons_self _ _) l hl]
    omega

theorem occurrences_fresh (v : Nat) (cs : List Clause)
    (h : ∀ c ∈ cs, c.lifetime_start = 0 ∧ c.lifetime_end = MAX_STEP ∧
      ∀ l ∈ c.literals, l.lifetime_start = 0 ∧ l.lifetime_end = MAX_STEP) :
    occurrences 1 v cs = literal_count v cs := by
  induction cs with
  | nil => rfl
  | cons c rest ih =>
    obtain ⟨h1, h2, h3⟩ := h c (List.mem_cons_self _ _)
    simp only [occurrences, literal_count, ih (fun c hx => h c (List.mem_cons_of_mem _ hx))]
    have hc : c.exists_ 1 = true := by simp [Clause.exists_, h1, h2, MAX_STEP]
    simp only [clause_count, hc, if_true, live_count]
    congr 1
    apply List.countP_congr
    intro l hl
    obtain ⟨k1, k2⟩ := h3 l hl
    simp [Literal.exists_, k1, k2, MAX_STEP]

theorem wellFormed_start (s : State) (h : WellFormed s) :
    Born 0 s.clauses ∧ Settled 0 s.clauses ∧ OccAt 1 s.clauses s.variable_cnt := by
  refine ⟨?_, wellFormed_settled s h, ?_⟩
  · intro c hc
    obtain ⟨h1, _, h3⟩ := h.1 c hc
    exact ⟨by omega, fun l hl => by have := (h3 l hl).1; omega⟩
  · intro v
    rw [occurrences_fresh v s.clauses h.1]
    by_cases hv : v < s.variable_cnt.length
    · exact h.2.2 v hv
    · rw [tblGet_of_le _ _ (by omega), literal_count_zero]
      · rfl
      · intro c hc l hl hlv
        have := h.2.1 c hc l hl
        omega

theorem models_fresh (a : Nat → Bool) (cs : List Clause)
    (h : ∀ c ∈ cs, c.lifetime_start = 0 ∧ c.lifetime_end = MAX_STEP ∧
      ∀ l ∈ c.literals, l.lifetime_start = 0 ∧ l.lifetime_end = MAX_STEP)
    (hm : Satisfies a cs) : Models 1 a cs := by
  intro c hc _
  obtain ⟨l, hl, hh⟩ := hm c hc
  obtain ⟨_, _, h3⟩ := h c hc
  obtain ⟨k1, k2⟩ := h3 l hl
  exact ⟨l, hl, by simp [Literal.exists_, k1, k2, MAX_STEP], hh⟩

theorem solve_inv (fuel : Nat) (s s' : State) (h : solve fuel s = Run.ok s') :
    ∃ r s1, solve_impl fuel { s with step := 0 } = Run.ok (r, s1) ∧
      s' = { s1 with solution_state := r } := by
  unfold solve at h
  cases h1 : solve_impl fuel { s with step := 0 } with
  | ok p =>
    rw [h1] at h
    simp only [Run.ok.injEq] at h
    exact ⟨p.1, p.2, rfl, h.symm⟩
  | fatal => rw [h1] at h; simp at h
  | undefined => rw [h1] at h; simp at h
  | outOfFuel => rw [h1] at h; simp at h

/-- Claim C1: on a well-formed formula, when `solve()` records the verdict
UNSATISFIABLE, no total assignment of the variables satisfies every clause of
the formula.  The fuel bounds the depth of the recursion, which has to stay
below `MAX_STEP` for the 32-bit step counter not to wrap. -/
theorem C1_refutation_correct (s : State) (hwf : WellFormed s) (fuel : Nat)
    (hfuel : fuel < MAX_STEP) (s' : State) (h : solve fuel s = Run.ok s')
    (hu : s'.solution_state = state_t.UNSAT) :
    ¬ ∃ a : Nat → Bool, Satisfies a s.clauses := by
  obtain ⟨r, s1, h1, h2⟩ := solve_inv fuel s s' h
  rw [h2] at hu
  simp only at hu
  obtain ⟨hb, hs, ho⟩ := wellFormed_start s hwf
  have := (solve_impl_sound fuel { s with step := 0 } r s1 (by simpa using hfuel) hb hs ho h1).2 hu
  rintro ⟨a, ha⟩
  exact this a (models_fresh a s.clauses hwf.1 ha)

theorem wellFormed_contradiction : WellFormed contradiction_state := by
  refine ⟨by decide, by decide, ?_⟩
  intro v hv
  have : v < 2 := hv
  interval_cases v <;> decide

/-- Claim C1 on the formula `(x1) ∧ (¬x1)` with fuel 3. -/
theorem C1_refutation_correct_witness :
    from_file contradiction_file = Run.ok contradiction_state ∧
    verdict (solve 3 contradiction_state) = some state_t.UNSAT ∧
    ¬ ∃ a : Nat → Bool, Satisfies a contradiction_state.clauses :=
  have h : solve 3 contradiction_state =
      Run.ok { contradiction_state with solution_state := state_t.UNSAT } := by decide
  ⟨by decide, by rw [h]; rfl,
    C1_refutation_correct contradiction_state wellFormed_contradiction 3 (by decide) _ h rfl⟩


/-! ## Every clause is accounted for -/

theorem lit_eq_refl (l : Literal) : l.eq l = true := by simp [Literal.eq]

theorem lit_eq_trans {a b c : Literal} (h1 : a.eq b = true) (h2 : b.eq c = true) :
    a.eq c = true := by
  simp only [Literal.eq, Bool.and_eq_true, beq_iff_eq] at *
  exact ⟨h1.1.trans h2.1, h1.2.trans h2.2⟩

theorem lit_eq_remove (S : Nat) (l k : Literal) : (l.remove S).eq k = l.eq k := rfl

theorem filter_one_unique {α : Type} (p : α → Bool) (ls : List α) (a b : α)
    (h1 : (ls.filter p).length = 1) (ha : a ∈ ls) (hb : b ∈ ls) (hpa : p a = true)
    (hpb : p b = true) : a = b := by
  obtain ⟨x, hx⟩ := List.length_eq_one.mp h1
  have h2 : a ∈ ls.filter p := List.mem_filter.mpr ⟨ha, hpa⟩
  have h3 : b ∈ ls.filter p := List.mem_filter.mpr ⟨hb, hpb⟩
  rw [hx] at h2 h3
  simp only [List.mem_singleton] at h2 h3
  rw [h2, h3]

theorem litProp_sublist {S : Nat} {u : Literal} {ls ls' : List Literal}
    (h : List.Forall₂ (LitProp S u) ls ls') :
    List.Sublist (ls'.filter (Literal.exists_ S)) (ls.filter (Literal.exists_ S)) := by
  induction h with
  | nil => exact List.Sublist.slnil
  | cons hab _ ih =>
    rename_i a b xs ys _
    rcases hab with hab | ⟨h1, _, h3⟩
    · subst hab
      simp only [List.filter_cons]
      split
      · exact List.Sublist.cons₂ _ ih
      · exact ih
    · subst h3
      simp only [List.filter_cons, lit_exists_remove, h1, if_true, Bool.false_eq_true, if_false]
      exact List.Sublist.cons _ ih

theorem clause_empty_iff (S : Nat) (c : Clause) :
    c.empty S = true ↔ c.literals.filter (Literal.exists_ S) = [] := by
  simp only [Clause.empty, Clause.begin, Option.isNone_iff_eq_none, List.find?_eq_none,
    List.filter_eq_nil_iff]

theorem litProp_hit {S : Nat} {u : Literal} {ls ls' : List Literal}
    (h : List.Forall₂ (LitProp S u) ls ls') (k : Literal) :
    (∃ l ∈ ls, l.eq k = true) → ∃ l ∈ ls', l.eq k = true := by
  rintro ⟨l, hl, he⟩
  obtain ⟨l', hl', hr⟩ := forall2_mem_left h l hl
  rcases hr with hr | ⟨_, _, hr⟩
  · exact ⟨l', hl', by rw [hr]; exact he⟩
  · exact ⟨l', hl', by rw [hr, lit_eq_remove]; exact he⟩

/-- One sweep of `unit_propagation` for the unit literal of an existing unit
clause keeps every clause accounted for. -/
theorem clauseProp_covered {S : Nat} {u : Literal} {U : Clause} {cs cs' : List Clause}
    {stk : List (Literal × Nat)} (hU : U ∈ cs) (hUe : U.exists_ S = true)
    (hUc : U.count S = 1) (hu : u ∈ U.literals) (hue : u.exists_ S = true)
    (h : List.Forall₂ (ClauseProp S u U.id) cs cs') (hcov : Covered S cs stk) :
    Covered S cs' stk := by
  by_cases hemp : ∃ c ∈ cs', c.exists_ S = true ∧ c.empty S = true
  · exact Or.inl hemp
  right
  have hU' : U ∈ cs' := by
    obtain ⟨U', hU', hr⟩ := forall2_mem_left h U hU
    rw [hr.2.2.2.2 (Or.inr rfl)] at hU'
    exact hU'
  rcases hcov with ⟨c, hc, hce, hcemp⟩ | hcov
  · exfalso
    apply hemp
    obtain ⟨c', hc', h1, _, h3, h4, _⟩ := forall2_mem_left h c hc
    rw [clause_empty_iff] at hcemp
    have hsub := litProp_sublist h3
    rw [hcemp, List.sublist_nil] at hsub
    refine ⟨c', hc', ?_, (clause_empty_iff S c').mpr hsub⟩
    rcases h4 with h4 | ⟨_, _, l, hl, hle, _⟩
    · simp only [Clause.exists_] at hce ⊢
      rw [h1, h4]; exact hce
    · have : l ∈ c.literals.filter (Literal.exists_ S) := List.mem_filter.mpr ⟨hl, hle⟩
      rw [hcemp] at this
      cases this
  · intro c' hc'
    obtain ⟨c, hc, h1, _, h3, h4, _⟩ := forall2_mem_right h c' hc'
    have removed : (c.exists_ S = true ∧ c'.lifetime_end = S ∧
        ∃ l ∈ c.literals, l.exists_ S = true ∧ l.eq u = true) → UnitFor S cs' c' := by
      rintro ⟨_, _, l, hl, _, hlu⟩
      obtain ⟨l', hl', he⟩ := litProp_hit h3 u ⟨l, hl, hlu⟩
      exact ⟨U, hU', hUe, hUc, u, hu, hue, l', hl', he⟩
    rcases hcov c hc with hce | hhit | ⟨V, hV, hVe, hVc, k, hk, hke, hl⟩
    · rcases h4 with h4 | h4
      · left
        simp only [Clause.exists_] at hce ⊢
        rw [h1, h4]; exact hce
      · exact Or.inr (Or.inr (removed h4))
    · right; left
      obtain ⟨l, hl, p, hp, he⟩ := hhit
      obtain ⟨l', hl', he'⟩ := litProp_hit h3 p ⟨l, hl, he⟩
      exact ⟨l', hl', p, hp, he'⟩
    · right; right
      obtain ⟨V', hV', v1, _, v3, v4, _⟩ := forall2_mem_left h V hV
      rcases v4 with v4 | ⟨_, _, x, hx, hxe, hxu⟩
      · have hVe' : V'.exists_ S = true := by
          simp only [Clause.exists_] at hVe ⊢
          rw [v1, v4]; exact hVe
        have hsub := litProp_sublist v3
        obtain ⟨y, hy⟩ := List.length_eq_one.mp hVc
        have hky : k = y := by
          have : k ∈ V.literals.filter (Literal.exists_ S) := List.mem_filter.mpr ⟨hk, hke⟩
          rw [hy] at this
          simpa using this
        rw [hy, List.sublist_singleton] at hsub
        rcases hsub with hsub | hsub
        · exact absurd ⟨V', hV', hVe', (clause_empty_iff S V').mpr hsub⟩ hemp
        · have hk' : k ∈ V'.literals.filter (Literal.exists_ S) := by
            rw [hsub, hky]; simp
          obtain ⟨hk1, hk2⟩ := List.mem_filter.mp hk'
          obtain ⟨l', hl', he'⟩ := litProp_hit h3 k hl
          exact ⟨V', hV', hVe', by simp [Clause.count, hsub], k, hk1, hk2, l', hl', he'⟩
      · have hxk : x = k := filter_one_unique _ V.literals x k hVc hx hk hxe hke
        obtain ⟨l, hl, hlk⟩ := hl
        have hlu : l.eq u = true := lit_eq_trans hlk (by rw [← hxk]; exact hxu)
        obtain ⟨l', hl', he'⟩ := litProp_hit h3 u ⟨l, hl, hlu⟩
        exact ⟨U, hU', hUe, hUc, u, hu, hue, l', hl', he'⟩

theorem unit_visit_covered (S : Nat) (stk : List (Literal × Nat))
    (st : List Clause × List Int × Bool) (i : Nat) (h : Covered S st.1 stk) :
    Covered S (unit_visit S st i).1 stk := by
  unfold unit_visit
  cases hg : st.1.get? i with
  | none => exact h
  | some clause =>
    simp only
    cases hcond : (clause.exists_ S && decide (clause.count S = 1)) with
    | false => exact h
    | true =>
      simp only [if_true]
      cases hb : clause.begin S with
      | none => exact h
      | some unit_lit =>
        simp only
        simp only [Bool.and_eq_true, decide_eq_true_eq] at hcond
        have hm := List.mem_of_find?_eq_some hb
        have hp := List.find?_some hb
        exact clauseProp_covered (List.get?_mem hg) hcond.1 hcond.2 hm hp
          (unit_others_shape S unit_lit clause.id st.1 st.2.1 st.2.2).1 h

theorem hit_mono {sol sol' : List Literal} {c : Clause} (h : c.hit sol)
    (hs : ∀ p ∈ sol, p ∈ sol') : c.hit sol' := by
  obtain ⟨l, hl, p, hp, he⟩ := h
  exact ⟨l, hl, p, hs p hp, he⟩

/-- One sweep of `pure_literal_elimination` keeps every clause accounted for. -/
theorem pureStep_covered {S : Nat} {cs cs' : List Clause} {stk stk' : List (Literal × Nat)}
    (hstk : ∀ q ∈ stk, q ∈ stk')
    (h : List.Forall₂ (PureStep S stk') cs cs') (hcov : Covered S cs stk) :
    Covered S cs' stk' := by
  have hmap : ∀ p ∈ stk.map Prod.fst, p ∈ stk'.map Prod.fst := by
    intro p hp
    obtain ⟨q, hq, hqp⟩ := List.mem_map.mp hp
    exact List.mem_map.mpr ⟨q, hstk q hq, hqp⟩
  have pushed : ∀ c : Clause, (∃ l ∈ c.literals, l.exists_ S = true ∧ (l, S) ∈ stk') →
      (c.remove S).hit (stk'.map Prod.fst) := by
    rintro c ⟨l, hl, _, hq⟩
    exact ⟨l, hl, l, List.mem_map.mpr ⟨(l, S), hq, rfl⟩, lit_eq_refl l⟩
  rcases hcov with ⟨c, hc, hce, hcemp⟩ | hcov
  · left
    obtain ⟨c', hc', hr⟩ := forall2_mem_left h c hc
    rcases hr with hr | ⟨_, _, l, hl, hle, _⟩
    · rw [hr] at hc'; exact ⟨c, hc', hce, hcemp⟩
    · rw [clause_empty_iff] at hcemp
      have : l ∈ c.literals.filter (Literal.exists_ S) := List.mem_filter.mpr ⟨hl, hle⟩
      rw [hcemp] at this
      cases this
  · right
    intro c' hc'
    obtain ⟨c, hc, hr⟩ := forall2_mem_right h c' hc'
    rcases hcov c hc with hce | hhit | ⟨V, hV, hVe, hVc, k, hk, hke, hl⟩
    · rcases hr with hr | ⟨_, hr, hp⟩
      · rw [hr]; exact Or.inl hce
      · rw [hr]; exact Or.inr (Or.inl (pushed c hp))
    · right; left
      rcases hr with hr | ⟨_, hr, _⟩
      · rw [hr]; exact hit_mono hhit hmap
      · rw [hr]; exact hit_mono hhit hmap
    · right
      have hlit : c'.literals = c.literals := by
        rcases hr with hr | ⟨_, hr, _⟩
        · rw [hr]
        · rw [hr]; rfl
      obtain ⟨V', hV', hrV⟩ := forall2_mem_left h V hV
      rcases hrV with hrV | ⟨_, _, x, hx, hxe, hxq⟩
      · right
        rw [hrV] at hV'
        exact ⟨V, hV', hVe, hVc, k, hk, hke, by rw [hlit]; exact hl⟩
      · left
        have hxk : x = k := filter_one_unique _ V.literals x k hVc hx hk hxe hke
        obtain ⟨l, hl, hlk⟩ := hl
        refine ⟨l, by rw [hlit]; exact hl, x, List.mem_map.mpr ⟨(x, S), hxq, rfl⟩, ?_⟩
        rw [hxk]; exact hlk


/-! ## The stack through a frame -/

theorem unit_propagation_covered (S : Nat) (stk : List (Literal × Nat)) (s : State)
    (h : s.step = S ∧ s.pure_literals = stk ∧ Covered S s.clauses stk) :
    (unit_propagation s).2.step = S ∧ (unit_propagation s).2.pure_literals = stk ∧
      Covered S (unit_propagation s).2.clauses stk := by
  obtain ⟨h1, h2, h3⟩ := h
  refine ⟨h1, h2, ?_⟩
  have := foldl_invariant (fun st : List Clause × List Int × Bool => Covered S st.1 stk)
    (unit_visit s.step) (fun a b ha => by rw [h1]; exact unit_visit_covered S stk a b ha)
    (List.range s.clauses.length) (s.clauses, s.variable_cnt, false) h3
  exact this

/-- What the two loops of a frame at step `S` do to the stack and to the
coverage of the clauses: entries are only pushed, all stamped `S`, and the
solution list is not touched. -/
theorem pure_literal_elimination_covered (S : Nat) (stk0 : List (Literal × Nat))
    (sol : List Literal) (s : State)
    (h : s.step = S ∧ s.solution = sol ∧ (∃ new, s.pure_literals = new ++ stk0 ∧
      ∀ q ∈ new, q.2 = S) ∧ Covered S s.clauses s.pure_literals) :
    (pure_literal_elimination s).2.step = S ∧ (pure_literal_elimination s).2.solution = sol ∧
      (∃ new, (pure_literal_elimination s).2.pure_literals = new ++ stk0 ∧
        ∀ q ∈ new, q.2 = S) ∧
      Covered S (pure_literal_elimination s).2.clauses
        (pure_literal_elimination s).2.pure_literals := by
  obtain ⟨h1, h2, ⟨new, h3, h4⟩, h5⟩ := h
  subst h1
  obtain ⟨n2, k1, k2, k3⟩ :=
    pure_clauses_shape s.step s.clauses s.variable_cnt s.pure_literals false
  refine ⟨rfl, h2, ⟨n2 ++ new, ?_, ?_⟩, ?_⟩
  · simp only [pure_literal_elimination]; rw [k1, h3]; simp
  · intro q hq
    rcases List.mem_append.mp hq with hq | hq
    · exact (k2 q hq).1
    · exact h4 q hq
  · simp only [pure_literal_elimination]
    exact pureStep_covered (by intro q hq; rw [k1]; exact List.mem_append_right _ hq) k3 h5

theorem unit_loop_covered (S : Nat) (stk : List (Literal × Nat)) (sol : List Literal)
    (n : Nat) (s s' : State) (h : unit_loop n s = Run.ok s')
    (hs : s.step = S ∧ s.pure_literals = stk ∧ s.solution = sol ∧ Covered S s.clauses stk) :
    s'.step = S ∧ s'.pure_literals = stk ∧ s'.solution = sol ∧ Covered S s'.clauses stk :=
  unit_loop_induct
    (fun x => x.step = S ∧ x.pure_literals = stk ∧ x.solution = sol ∧ Covered S x.clauses stk)
    (fun x hx => by
      obtain ⟨a, b, c⟩ := unit_propagation_covered S stk x ⟨hx.1, hx.2.1, hx.2.2.2⟩
      exact ⟨a, b, hx.2.2.1, c⟩) n s s' h hs

theorem dropWhile_pushed (S : Nat) (new stk0 : List (Literal × Nat))
    (hnew : ∀ q ∈ new, q.2 = S) (hold : ∀ q ∈ stk0, q.2 < S) :
    (new ++ stk0).dropWhile (fun p => decide (S ≤ p.2)) = stk0 := by
  induction new with
  | nil =>
    cases stk0 with
    | nil => rfl
    | cons q rest =>
      have := hold q (List.mem_cons_self _ _)
      have hq : ¬ S ≤ q.2 := by omega
      simp [List.dropWhile_cons, hq]
  | cons q rest ih =>
    have := hnew q (List.mem_cons_self _ _)
    simp only [List.cons_append, List.dropWhile_cons, this, le_refl, decide_True, if_true]
    exact ih (fun x hx => hnew x (List.mem_cons_of_mem _ hx))

theorem epilogue_sat (save : List Int) (s : State) :
    (epilogue save state_t.SAT s).pure_literals = [] ∧
    (epilogue save state_t.SAT s).solution = s.solution ++ s.pure_literals.map Prod.fst := by
  simp [epilogue]

theorem epilogue_other (save : List Int) (r : state_t) (s : State) (hr : r ≠ state_t.SAT) :
    (epilogue save r s).pure_literals =
      s.pure_literals.dropWhile (fun p => decide (s.step ≤ p.2)) ∧
    (epilogue save r s).solution = s.solution := by
  simp [epilogue, hr]

theorem hit_restore (S : Nat) (sol : List Literal) (c : Clause) (h : c.hit sol) :
    (c.restore S).hit sol := by
  obtain ⟨l, hl, p, hp, he⟩ := h
  refine ⟨l.restore S, ?_, p, hp, ?_⟩
  · simp only [Clause.restore, List.mem_map]
    exact ⟨l, hl, rfl⟩
  · simp only [Literal.restore]
    split
    · exact he
    · exact he

theorem hit_of_map_restore (S : Nat) (sol : List Literal) (cs cs0 : List Clause)
    (hmap : cs.map (Clause.restore S) = cs0) (h : ∀ c ∈ cs, c.hit sol) :
    ∀ c ∈ cs0, c.hit sol := by
  intro c hc
  rw [← hmap] at hc
  obtain ⟨d, hd, hdc⟩ := List.mem_map.mp hc
  rw [← hdc]
  exact hit_restore S sol d (h d hd)

theorem count_succ (S : Nat) (c : Clause) (hS : S + 1 < MAX_STEP)
    (hb : ∀ l ∈ c.literals, l.lifetime_start ≤ S)
    (he : ∀ l ∈ c.literals, l.lifetime_end = MAX_STEP ∨ l.lifetime_end ≤ S) :
    c.count (S + 1) = c.count S := by
  unfold Clause.count
  congr 1
  apply List.filter_congr
  intro l hl
  exact lit_exists_succ S l hS (hb l hl) (he l hl)

/-- Coverage carries over to the first state of a recursive call. -/
theorem covered_decision (S var id : Nat) (neg : Bool) (cs : List Clause)
    (stk : List (Literal × Nat)) (hS : S + 1 < MAX_STEP) (hb : Born S cs) (hs : Settled S cs)
    (hne : ¬ ∃ c ∈ cs, c.exists_ S = true ∧ c.empty S = true) (h : Covered S cs stk) :
    Covered (S + 1) (decision S var neg id :: cs) stk := by
  right
  rcases h with h | h
  · exact absurd h hne
  intro c hc
  rcases List.mem_cons.mp hc with hcd | hcd
  · subst hcd
    exact Or.inl (decision_exists S var id neg hS).1
  · obtain ⟨b1, _⟩ := hb c hcd
    obtain ⟨e1, _⟩ := hs c hcd
    rcases h c hcd with h1 | h1 | ⟨V, hV, hVe, hVc, k, hk, hke, hl⟩
    · left; rw [clause_exists_succ S c hS b1 e1]; exact h1
    · exact Or.inr (Or.inl h1)
    · right; right
      obtain ⟨v1, v2⟩ := hb V hV
      obtain ⟨w1, w2⟩ := hs V hV
      refine ⟨V, List.mem_cons_of_mem _ hV, ?_, ?_, k, hk, ?_, hl⟩
      · rw [clause_exists_succ S V hS v1 w1]; exact hVe
      · rw [count_succ S V hS v2 w2]; exact hVc
      · rw [lit_exists_succ S k hS (v2 k hk) (w2 k hk)]; exact hke

theorem detect_unknown (sat : Bool) (s : State) (h : detect sat s = state_t.UNKNOWN) :
    sat = false ∧ ¬ ∃ c ∈ s.clauses, c.exists_ s.step = true ∧ c.empty s.step = true := by
  unfold detect at h
  cases sat with
  | true => simp at h
  | false =>
    refine ⟨rfl, ?_⟩
    cases he : has_empty_clause s with
    | true => rw [he] at h; simp at h
    | false =>
      rintro ⟨c, hc, hce, hcemp⟩
      have : has_empty_clause s = true := by
        simp only [has_empty_clause, List.any_eq_true, Bool.and_eq_true]
        exact ⟨c, hc, hce, hcemp⟩
      rw [he] at this
      exact absurd this (by decide)

theorem detect_sat (sat : Bool) (s : State) (h : detect sat s = state_t.SAT) : sat = true := by
  unfold detect at h
  cases sat with
  | true => rfl
  | false =>
    simp only [Bool.false_eq_true, if_false] at h
    split at h <;> simp at h

theorem covered_of_empty (s : State) (stk : List (Literal × Nat)) (he : empty s = true)
    (h : Covered s.step s.clauses stk) : ∀ c ∈ s.clauses, c.hit (stk.map Prod.fst) := by
  simp only [empty, Option.isNone_iff_eq_none, List.find?_eq_none] at he
  rcases h with ⟨c, hc, hce, _⟩ | h
  · exact absurd hce (he c hc)
  · intro c hc
    rcases h c hc with h1 | h1 | ⟨V, hV, hVe, _⟩
    · exact absurd h1 (he c hc)
    · exact h1
    · exact absurd hVe (he V hV)


theorem prologue_born (s s1 s2 : State) (n m : Nat) (sat : Bool)
    (hb : Born s.step s.clauses)
    (h1 : unit_loop n { s with step := s.step + 1 } = Run.ok s1)
    (h2 : pure_loop m s1 = Run.ok (sat, s2)) : Born (s.step + 1) s2.clauses := by
  have f0 : Born (s.step + 1) ({ s with step := s.step + 1 } : State).clauses :=
    born_mono (Nat.le_succ _) hb
  have f1 := unit_loop_induct (fun x => Born (s.step + 1) x.clauses)
    (fun x hx => unit_propagation_born _ x hx) _ _ _ h1 f0
  exact pure_loop_induct (fun x => Born (s.step + 1) x.clauses)
    (fun x hx => pure_literal_elimination_born _ x hx) _ _ _ _ h2 f1

/-- The stack and the coverage of the clauses at the end of the two loops of a
frame entered in state `s`. -/
theorem prologue_covered (s s1 s2 : State) (n m : Nat) (sat : Bool)
    (hc : Covered (s.step + 1) s.clauses s.pure_literals)
    (h1 : unit_loop n { s with step := s.step + 1 } = Run.ok s1)
    (h2 : pure_loop m s1 = Run.ok (sat, s2)) :
    s2.solution = s.solution ∧
      (∃ new, s2.pure_literals = new ++ s.pure_literals ∧ ∀ q ∈ new, q.2 = s.step + 1) ∧
      Covered (s.step + 1) s2.clauses s2.pure_literals := by
  obtain ⟨a1, a2, a3, a4⟩ := unit_loop_covered (s.step + 1) s.pure_literals s.solution n _ s1 h1
    ⟨rfl, rfl, rfl, hc⟩
  have f2 := pure_loop_induct _
    (pure_literal_elimination_covered (s.step + 1) s.pure_literals s.solution) _ _ _ _ h2
    ⟨a1, a3, ⟨[], by simp [a2], by simp⟩, by rw [a2]; exact a4⟩
  exact f2.2

/-- What a call of `solve_impl` does to the pending stack and the solution
list: a call that returns SAT has emptied the stack into the solution list,
which then meets every clause of the call; any other call leaves both as they
were. -/
theorem solve_impl_witness (fuel : Nat) : ∀ (s : State) (r : state_t) (s' : State),
    s.step + fuel < MAX_STEP → Born s.step s.clauses → Settled s.step s.clauses →
    (∀ q ∈ s.pure_literals, q.2 ≤ s.step) →
    Covered (s.step + 1) s.clauses s.pure_literals →
    solve_impl fuel s = Run.ok (r, s') →
    (r = state_t.SAT → s'.pure_literals = [] ∧ ∀ c ∈ s.clauses, c.hit s'.solution) ∧
    (r ≠ state_t.SAT → s'.pure_literals = s.pure_literals ∧ s'.solution = s.solution) := by
  induction fuel with
  | zero => intro s r s' _ _ _ _ _ h; simp [solve_impl] at h
  | succ k ih =>
    intro s r s' hfuel hb hs hstk hcov h
    obtain ⟨s1, sat, s2, h1, h2, hcase⟩ := solve_impl_inv k s r s' h
    obtain ⟨g1, g3, gmap⟩ := prologue_settled s s1 s2 _ _ sat hs h1 h2
    have g2 := prologue_born s s1 s2 _ _ sat hb h1 h2
    obtain ⟨c1, ⟨new, c2, c3⟩, c4⟩ := prologue_covered s s1 s2 _ _ sat hcov h1 h2
    have hdrop : s2.pure_literals.dropWhile (fun p => decide (s.step + 1 ≤ p.2)) =
        s.pure_literals := by
      rw [c2]
      exact dropWhile_pushed _ _ _ c3 (fun q hq => by have := hstk q hq; omega)
    have hstk2 : ∀ q ∈ s2.pure_literals, q.2 ≤ s.step + 1 := by
      intro q hq
      rw [c2] at hq
      rcases List.mem_append.mp hq with hq | hq
      · rw [c3 q hq]
      · have := hstk q hq; omega
    rcases hcase with ⟨hd, hr, hs'⟩ | ⟨hd, var, hv, r1, s3, h3, hcase⟩
    · constructor
      · intro hsat
        rw [hsat] at hr hs'
        have hsat2 := detect_sat sat s2 hr.symm
        rw [hsat2] at h2
        have hemp := pure_loop_sat _ _ _ h2
        have hall := covered_of_empty s2 s2.pure_literals hemp (by rw [g1]; exact c4)
        obtain ⟨e1, e2⟩ := epilogue_sat s.variable_cnt s2
        rw [hs']
        refine ⟨e1, ?_⟩
        rw [e2]
        exact hit_of_map_restore _ _ _ _ gmap
          (fun c hc => hit_mono (hall c hc) (fun p hp => List.mem_append_right _ hp))
      · intro hns
        obtain ⟨e1, e2⟩ := epilogue_other s.variable_cnt r s2 hns
        rw [hs', e1, e2, g1, hdrop, c1]
        exact ⟨rfl, rfl⟩
    · cases k with
      | zero => simp [solve_impl] at h3
      | succ j =>
        have hS : s.step + 1 + 1 < MAX_STEP := by omega
        obtain ⟨_, hne⟩ := detect_unknown sat s2 hd
        rw [g1] at hne
        obtain ⟨p1, p2, _, p4, p5⟩ := push_decision_clauses s2 var
        have pb : Born (push_decision s2 var).step (push_decision s2 var).clauses := by
          rw [p1, p2]; exact born_decision _ _ _ _ _ (by rw [g1]; exact g2)
        have ps : Settled (push_decision s2 var).step (push_decision s2 var).clauses := by
          rw [p1, p2]; exact settled_decision _ _ _ _ _ (by rw [g1]; exact g3)
        have pc : Covered ((push_decision s2 var).step + 1) (push_decision s2 var).clauses
            (push_decision s2 var).pure_literals := by
          rw [p1, p2, p4, g1]
          exact covered_decision _ _ _ _ _ _ hS g2 g3 hne c4
        obtain ⟨i1, i2⟩ := ih _ r1 s3 (by rw [p2, g1]; omega) pb ps
          (by rw [p4, p2, g1]; exact hstk2) pc h3
        obtain ⟨f1, f2, _⟩ := solve_impl_frame _ _ _ _ ps h3
        rcases hcase with ⟨hr1, hr, hs'⟩ | ⟨hr1, s4, h4, s5, h5, hs'⟩
        · constructor
          · intro _
            obtain ⟨k1, k2⟩ := i1 hr1
            obtain ⟨e1, e2⟩ := epilogue_sat s.variable_cnt (pop_front s3)
            rw [hs']
            refine ⟨e1, ?_⟩
            rw [e2]
            apply hit_of_map_restore _ _ _ _ gmap
            intro c hc
            have hc' : c ∈ (push_decision s2 var).clauses := by
              rw [p1]; exact List.mem_cons_of_mem _ hc
            exact hit_mono (k2 c hc') (fun p hp => List.mem_append_left _ hp)
          · intro hns; exact absurd hr hns
        · obtain ⟨k1, k2⟩ := i2 hr1
          have hc3 : s3.clauses = decision s3.step var false s2.clause_cnt :: s2.clauses := by
            rw [f2, f1, p1, p2]
          have hs3 : s3.step = s.step + 1 := by rw [f1, p2, g1]
          have h4' := negate_front_decision s3 s4 var _ _ hc3 (by rw [hs3]; omega) h4
          have q1 : s4.clauses = decision (s.step + 1) var true s2.clause_cnt :: s2.clauses := by
            rw [h4', hs3]
          have q2 : s4.step = s.step + 1 := by rw [h4']; exact hs3
          have q4 : s4.pure_literals = s2.pure_literals := by
            rw [h4']; simp only; rw [k1, p4]
          have q5 : s4.solution = s2.solution := by
            rw [h4']; simp only; rw [k2, p5]
          have qb : Born s4.step s4.clauses := by
            rw [q1, q2]; exact born_decision _ _ _ _ _ g2
          have qs : Settled s4.step s4.clauses := by
            rw [q1, q2]; exact settled_decision _ _ _ _ _ g3
          have qc : Covered (s4.step + 1) s4.clauses s4.pure_literals := by
            rw [q1, q2, q4]
            exact covered_decision _ _ _ _ _ _ hS g2 g3 hne c4
          obtain ⟨j1, j2⟩ := ih _ r s5 (by rw [q2]; omega) qb qs
            (by rw [q4, q2]; exact hstk2) qc h5
          obtain ⟨t1, _, _⟩ := solve_impl_frame _ _ _ _ qs h5
          constructor
          · intro hsat
            obtain ⟨m1, m2⟩ := j1 hsat
            rw [hsat] at hs'
            obtain ⟨e1, e2⟩ := epilogue_sat s.variable_cnt (pop_front s5)
            rw [hs']
            refine ⟨e1, ?_⟩
            rw [e2]
            apply hit_of_map_restore _ _ _ _ gmap
            intro c hc
            have hc' : c ∈ s4.clauses := by
              rw [q1]; exact List.mem_cons_of_mem _ hc
            exact hit_mono (m2 c hc') (fun p hp => List.mem_append_left _ hp)
          · intro hns
            obtain ⟨m1, m2⟩ := j2 hns
            obtain ⟨e1, e2⟩ := epilogue_other s.variable_cnt r (pop_front s5) hns
            rw [hs', e1, e2]
            have hst : (pop_front s5).step = s.step + 1 := by
              simp only [pop_front]; rw [t1, q2]
            have hpl : (pop_front s5).pure_literals = s2.pure_literals := by
              simp only [pop_front]; rw [m1, q4]
            have hso : (pop_front s5).solution = s.solution := by
              simp only [pop_front]; rw [m2, q5, c1]
            rw [hst, hpl, hso, hdrop]
            exact ⟨rfl, rfl⟩


/-! ## The witness is sound (claim C2) -/

theorem covered_fresh (cs : List Clause)
    (h : ∀ c ∈ cs, c.lifetime_start = 0 ∧ c.lifetime_end = MAX_STEP ∧
      ∀ l ∈ c.literals, l.lifetime_start = 0 ∧ l.lifetime_end = MAX_STEP) :
    Covered 1 cs [] := by
  right
  intro c hc
  obtain ⟨h1, h2, _⟩ := h c hc
  left
  simp [Clause.exists_, h1, h2, MAX_STEP]

theorem holds_of_eq (a : Nat → Bool) (l p : Literal) (h : l.eq p = true)
    (hp : p.holds a = true) : l.holds a = true := by
  simp only [Literal.eq, Bool.and_eq_true, beq_iff_eq] at h
  simp only [Literal.holds] at hp ⊢
  rw [h.1, h.2]; exact hp

/-- Claim C2: on a well-formed formula, solved by a `CNF` object whose pending
stack is empty as the constructor leaves it, when `solve()` records the
verdict SATISFIABLE every clause of the formula holds a literal, same variable
and same polarity, that is in the solution list; hence every total assignment
that makes the literals of the solution list true satisfies every clause,
whatever it does on the other variables.  The fuel bounds the depth of the
recursion, which has to stay below `MAX_STEP` for the step counter not to
wrap. -/
theorem C2_witness_sound (s : State) (hwf : WellFormed s) (hstk : s.pure_literals = [])
    (fuel : Nat) (hfuel : fuel < MAX_STEP) (s' : State) (h : solve fuel s = Run.ok s')
    (hsat : s'.solution_state = state_t.SAT) :
    (∀ c ∈ s.clauses, ∃ l ∈ c.literals, ∃ p ∈ s'.solution,
      p.val = l.val ∧ p.negated = l.negated) ∧
    (∀ a : Nat → Bool, (∀ p ∈ s'.solution, p.holds a = true) → Satisfies a s.clauses) := by
  obtain ⟨r, s1, h1, h2⟩ := solve_inv fuel s s' h
  rw [h2] at hsat
  simp only at hsat
  obtain ⟨hb, hs, _⟩ := wellFormed_start s hwf
  have hc : Covered (({ s with step := 0 } : State).step + 1)
      ({ s with step := 0 } : State).clauses ({ s with step := 0 } : State).pure_literals := by
    simp only [hstk]
    exact covered_fresh s.clauses hwf.1
  have := (solve_impl_witness fuel { s with step := 0 } r s1 (by simpa using hfuel) hb hs
    (by simp [hstk]) hc h1).1 hsat
  have hsol : s'.solution = s1.solution := by rw [h2]
  rw [hsol]
  constructor
  · intro c hc
    obtain ⟨l, hl, p, hp, he⟩ := this.2 c hc
    simp only [Literal.eq, Bool.and_eq_true, beq_iff_eq] at he
    exact ⟨l, hl, p, hp, he.1.symm, he.2.symm⟩
  · intro a ha c hc
    obtain ⟨l, hl, p, hp, he⟩ := this.2 c hc
    exact ⟨l, hl, holds_of_eq a l p he (ha p hp)⟩

theorem wellFormed_pair : WellFormed pair_state := by
  refine ⟨by decide, by decide, ?_⟩
  intro v hv
  have : v < 3 := hv
  interval_cases v <;> decide

/-- Claim C2 on the formula `(x1 ∨ x2)` with fuel 3: the solution list is
`x2, x1`, and the clause holds a literal of it. -/
theorem C2_witness_sound_witness :
    from_file pair_file = Run.ok pair_state ∧
    verdict (solve 3 pair_state) = some state_t.SAT ∧
    (produced (solve 3 pair_state)).map Literal.value = [2, 1] ∧
    ∃ l ∈ [(⟨1, false, 0, MAX_STEP⟩ : Literal), ⟨2, false, 0, MAX_STEP⟩],
      ∃ p ∈ produced (solve 3 pair_state), p.val = l.val ∧ p.negated = l.negated :=
  have h : solve 3 pair_state =
      Run.ok { pair_state with
        solution := [⟨2, false, 0, MAX_STEP⟩, ⟨1, false, 0, MAX_STEP⟩]
        solution_state := state_t.SAT } := by decide
  ⟨by decide, by rw [h]; rfl, by rw [h]; rfl, by
    rw [h]
    exact (C2_witness_sound pair_state wellFormed_pair rfl 3 (by decide) _ h rfl).1
      ⟨[⟨1, false, 0, MAX_STEP⟩, ⟨2, false, 0, MAX_STEP⟩], 0, MAX_STEP, 0⟩
      (List.mem_singleton.mpr rfl)⟩

/-! ## The loops terminate -/

theorem count_append_live (S : Nat) (a b : List Literal) :
    ((a ++ b).filter (Literal.exists_ S)).length =
      (a.filter (Literal.exists_ S)).length + (b.filter (Literal.exists_ S)).length := by
  simp [List.filter_append]

theorem unit_scan_size (S : Nat) (u : Literal) (todo : List Literal) :
    ∀ (done : List Literal) (cnt : List Int) (m : Bool),
    (((unit_scan S u done todo cnt m).1.filter (Literal.exists_ S)).length +
        (if (unit_scan S u done todo cnt m).2.2.2 = true then 0 else 1) ≤
      ((done ++ todo).filter (Literal.exists_ S)).length + 1) ∧
    ((unit_scan S u done todo cnt m).2.2.1 = true → m = true ∨
      ((unit_scan S u done todo cnt m).1.filter (Literal.exists_ S)).length +
        (if (unit_scan S u done todo cnt m).2.2.2 = true then 0 else 1) <
      ((done ++ todo).filter (Literal.exists_ S)).length + 1) := by
  induction todo with
  | nil => intro done cnt m; simp [unit_scan]
  | cons l rest ih =>
    intro done cnt m
    simp only [unit_scan]
    rcases Bool.eq_false_or_eq_true (l.exists_ S) with hl | hl
    · simp only [hl, if_true]
      rcases Bool.eq_false_or_eq_true (l.eq u.not) with hn | hn
      · simp only [hn, if_true]
        obtain ⟨h1, _⟩ := ih (done ++ [l.remove S]) (tblAdd cnt u.val (-1)) true
        simp only [count_append_live, List.filter_cons, lit_exists_remove, hl, if_true,
          List.length_cons, List.filter_nil, List.length_nil, Bool.false_eq_true,
          if_false] at h1 ⊢
        constructor
        · omega
        · intro _; right; omega
      · simp only [hn, Bool.false_eq_true, if_false]
        rcases Bool.eq_false_or_eq_true (l.eq u) with he | he
        · simp only [he, if_true]
          constructor
          · omega
          · intro _; right; omega
        · simp only [he, Bool.false_eq_true, if_false]
          have := ih (done ++ [l]) cnt m
          simpa using this
    · simp only [hl, Bool.false_eq_true, if_false]
      have := ih (done ++ [l]) cnt m
      simpa using this

/-- The weight of one clause in `live_size`. -/
theorem live_size_cons (S : Nat) (c : Clause) (cs : List Clause) :
    live_size S (c :: cs) = (if c.exists_ S then 1 else 0) + c.count S + live_size S cs := rfl

theorem unit_other_size (S : Nat) (u : Literal) (uid : Nat) (c : Clause) (cnt : List Int)
    (m : Bool) :
    (((if (unit_other S u uid c cnt m).1.exists_ S then 1 else 0) +
        (unit_other S u uid c cnt m).1.count S ≤
      (if c.exists_ S then 1 else 0) + c.count S)) ∧
    ((unit_other S u uid c cnt m).2.2 = true → m = true ∨
      ((if (unit_other S u uid c cnt m).1.exists_ S then 1 else 0) +
        (unit_other S u uid c cnt m).1.count S <
      (if c.exists_ S then 1 else 0) + c.count S)) := by
  unfold unit_other
  cases hc : c.exists_ S with
  | false => simp [hc]
  | true =>
    simp only [if_true]
    by_cases hid : c.id = uid
    · simp [hid, hc]
    · simp only [hid, if_false]
      obtain ⟨h1, h2⟩ := unit_scan_size S u c.literals [] cnt m
      rw [List.nil_append] at h1 h2
      cases hr : (unit_scan S u [] c.literals cnt m).2.2.2 with
      | true =>
        rw [hr] at h1 h2
        have hx : Clause.exists_ S
            { literals := (unit_scan S u [] c.literals cnt m).1,
              lifetime_start := c.lifetime_start, lifetime_end := S, id := c.id } = false := by
          simp [Clause.exists_]
        simp only [if_true, hx, Bool.false_eq_true, if_false, Clause.count,
          Clause.remove, add_zero] at h1 h2 ⊢
        constructor
        · omega
        · intro hm
          rcases h2 hm with h | h
          · exact Or.inl h
          · right; omega
      | false =>
        rw [hr] at h1 h2
        have hc' : Clause.exists_ S { c with literals := (unit_scan S u [] c.literals cnt m).1 }
            = true := hc
        simp only [Bool.false_eq_true, if_false, hc', if_true, Clause.count] at h1 h2 ⊢
        constructor
        · omega
        · intro hm
          rcases h2 hm with h | h
          · exact Or.inl h
          · right; omega

theorem unit_others_size (S : Nat) (u : Literal) (uid : Nat) (cs : List Clause) :
    ∀ (cnt : List Int) (m : Bool),
    live_size S (unit_others S u uid cs cnt m).1 ≤ live_size S cs ∧
    ((unit_others S u uid cs cnt m).2.2 = true → m = true ∨
      live_size S (unit_others S u uid cs cnt m).1 < live_size S cs) := by
  induction cs with
  | nil => intro cnt m; simp [unit_others]
  | cons c rest ih =>
    intro cnt m
    simp only [unit_others, live_size_cons]
    obtain ⟨h1, h2⟩ := unit_other_size S u uid c cnt m
    obtain ⟨h3, h4⟩ := ih (unit_other S u uid c cnt m).2.1 (unit_other S u uid c cnt m).2.2
    constructor
    · omega
    · intro hm
      rcases h4 hm with h | h
      · rcases h2 h with h' | h'
        · exact Or.inl h'
        · right; omega
      · right; omega

theorem unit_visit_size (S : Nat) (st : List Clause × List Int × Bool) (i : Nat) :
    live_size S (unit_visit S st i).1 ≤ live_size S st.1 ∧
    ((unit_visit S st i).2.2 = true → st.2.2 = true ∨
      live_size S (unit_visit S st i).1 < live_size S st.1) := by
  unfold unit_visit
  cases st.1.get? i with
  | none => exact ⟨le_refl _, fun h => Or.inl h⟩
  | some clause =>
    simp only
    cases (clause.exists_ S && decide (clause.count S = 1)) with
    | false => exact ⟨le_refl _, fun h => Or.inl h⟩
    | true =>
      simp only [if_true]
      cases clause.begin S with
      | none => exact ⟨le_refl _, fun h => Or.inl h⟩
      | some unit_lit => exact unit_others_size S unit_lit clause.id st.1 st.2.1 st.2.2

theorem unit_propagation_size (s : State) :
    live_size s.step (unit_propagation s).2.clauses ≤ live_size s.step s.clauses ∧
    ((unit_propagation s).1 = true →
      live_size s.step (unit_propagation s).2.clauses < live_size s.step s.clauses) := by
  have := foldl_invariant
    (fun st : List Clause × List Int × Bool =>
      live_size s.step st.1 ≤ live_size s.step s.clauses ∧
      (st.2.2 = true → live_size s.step st.1 < live_size s.step s.clauses))
    (unit_visit s.step)
    (fun a b ha => by
      obtain ⟨h1, h2⟩ := unit_visit_size s.step a b
      refine ⟨by omega, fun hm => ?_⟩
      rcases h2 hm with h | h
      · have := ha.2 h; omega
      · omega)
    (List.range s.clauses.length) (s.clauses, s.variable_cnt, false)
    ⟨le_refl _, fun h => by simp at h⟩
  exact this

theorem unit_loop_total (n : Nat) : ∀ (s : State), live_size s.step s.clauses < n →
    ∃ s', unit_loop n s = Run.ok s' := by
  induction n with
  | zero => intro s h; omega
  | succ k ih =>
    intro s h
    rw [unit_loop]
    cases hm : (unit_propagation s).1 with
    | false => exact ⟨_, rfl⟩
    | true =>
      simp only [if_true]
      have := (unit_propagation_size s).2 hm
      exact ih _ (by
        have hs : (unit_propagation s).2.step = s.step := rfl
        rw [hs]; omega)


theorem pure_visit_size (S : Nat) (c : Clause) (cnt : List Int) (stk : List (Literal × Nat))
    (m : Bool) :
    ((if (pure_visit S c cnt stk m).1.exists_ S then 1 else 0) +
        (pure_visit S c cnt stk m).1.count S ≤ (if c.exists_ S then 1 else 0) + c.count S) ∧
    ((pure_visit S c cnt stk m).2.2.2 = true → m = true ∨
      (if (pure_visit S c cnt stk m).1.exists_ S then 1 else 0) +
        (pure_visit S c cnt stk m).1.count S < (if c.exists_ S then 1 else 0) + c.count S) := by
  unfold pure_visit
  rcases Bool.eq_false_or_eq_true (c.exists_ S) with hc | hc
  · simp only [hc, if_true]
    rcases Bool.eq_false_or_eq_true (pure_scan S cnt c.literals stk false).2 with hr | hr
    · simp only [hr, if_true, clause_exists_remove, Bool.false_eq_true, if_false]
      have : (c.remove S).count S = c.count S := rfl
      rw [this]
      exact ⟨by omega, fun _ => Or.inr (by omega)⟩
    · simp only [hr, Bool.false_eq_true, if_false, hc, if_true]
      exact ⟨le_refl _, fun h => Or.inl h⟩
  · simp only [hc, Bool.false_eq_true, if_false]
    exact ⟨le_refl _, fun h => Or.inl h⟩

theorem pure_clauses_size (S : Nat) (cs : List Clause) :
    ∀ (cnt : List Int) (stk : List (Literal × Nat)) (m : Bool),
    live_size S (pure_clauses S cs cnt stk m).1 ≤ live_size S cs ∧
    ((pure_clauses S cs cnt stk m).2.2.2 = true → m = true ∨
      live_size S (pure_clauses S cs cnt stk m).1 < live_size S cs) := by
  induction cs with
  | nil => intro cnt stk m; simp [pure_clauses]
  | cons c rest ih =>
    intro cnt stk m
    simp only [pure_clauses, live_size_cons]
    obtain ⟨h1, h2⟩ := pure_visit_size S c cnt stk m
    obtain ⟨h3, h4⟩ := ih (pure_visit S c cnt stk m).2.1 (pure_visit S c cnt stk m).2.2.1
      (pure_visit S c cnt stk m).2.2.2
    constructor
    · omega
    · intro hm
      rcases h4 hm with h | h
      · rcases h2 h with h' | h'
        · exact Or.inl h'
        · right; omega
      · right; omega

theorem pure_literal_elimination_size (s : State) :
    live_size s.step (pure_literal_elimination s).2.clauses ≤ live_size s.step s.clauses ∧
    ((pure_literal_elimination s).1 = true →
      live_size s.step (pure_literal_elimination s).2.clauses < live_size s.step s.clauses) := by
  obtain ⟨h1, h2⟩ := pure_clauses_size s.step s.clauses s.variable_cnt s.pure_literals false
  refine ⟨h1, fun hm => ?_⟩
  rcases h2 hm with h | h
  · exact absurd h (by decide)
  · exact h

theorem pure_loop_total (n : Nat) : ∀ (s : State), live_size s.step s.clauses < n →
    ∃ r, pure_loop n s = Run.ok r := by
  induction n with
  | zero => intro s h; omega
  | succ k ih =>
    intro s h
    rw [pure_loop]
    rcases Bool.eq_false_or_eq_true (pure_literal_elimination s).1 with hm | hm
    · simp only [hm, if_true]
      rcases Bool.eq_false_or_eq_true (empty (pure_literal_elimination s).2) with he | he
      · simp only [he, if_true]; exact ⟨_, rfl⟩
      · simp only [he, Bool.false_eq_true, if_false]
        have := (pure_literal_elimination_size s).2 hm
        exact ih _ (by
          have hs : (pure_literal_elimination s).2.step = s.step := rfl
          rw [hs]; omega)
    · simp only [hm, Bool.false_eq_true, if_false]; exact ⟨_, rfl⟩

theorem unit_loop_mono_le (n m : Nat) (hnm : n ≤ m) (s s' : State)
    (h : unit_loop n s = Run.ok s') : unit_loop m s = Run.ok s' := by
  induction m with
  | zero =>
    have : n = 0 := by omega
    subst this; exact h
  | succ k ih =>
    by_cases hk : n ≤ k
    · exact unit_loop_mono k s s' (ih hk)
    · have : n = k + 1 := by omega
      subst this; exact h

theorem pure_loop_mono_le (n m : Nat) (hnm : n ≤ m) (s : State) (r : Bool × State)
    (h : pure_loop n s = Run.ok r) : pure_loop m s = Run.ok r := by
  induction m with
  | zero =>
    have : n = 0 := by omega
    subst this; exact h
  | succ k ih =>
    by_cases hk : n ≤ k
    · exact pure_loop_mono k s r (ih hk)
    · have : n = k + 1 := by omega
      subst this; exact h


/-! ## Sweeps that report no change -/

theorem val_ne_of_not_eq (l u : Literal) (h1 : l.eq u.not = false) (h2 : l.eq u = false) :
    l.val ≠ u.val := by
  intro hv
  simp only [Literal.eq, Literal.not, hv, beq_self_eq_true, Bool.true_and] at h1 h2
  revert h1 h2
  cases l.negated <;> cases u.negated <;> simp

theorem unit_scan_quiet (S : Nat) (u : Literal) (todo : List Literal) :
    ∀ (done : List Literal) (cnt : List Int) (m : Bool),
    (unit_scan S u done todo cnt m).2.2.1 = false →
    m = false ∧ unit_scan S u done todo cnt m = (done ++ todo, cnt, false, false) ∧
      ∀ l ∈ todo, l.exists_ S = true → l.val ≠ u.val := by
  induction todo with
  | nil =>
    intro done cnt m h
    simp only [unit_scan] at h
    subst h
    simp [unit_scan]
  | cons l rest ih =>
    intro done cnt m h
    simp only [unit_scan] at h ⊢
    rcases Bool.eq_false_or_eq_true (l.exists_ S) with hl | hl
    · simp only [hl, if_true] at h ⊢
      rcases Bool.eq_false_or_eq_true (l.eq u.not) with hn | hn
      · simp only [hn, if_true] at h
        obtain ⟨h1, _⟩ := ih _ _ _ h
        exact absurd h1 (by decide)
      · simp only [hn, Bool.false_eq_true, if_false] at h ⊢
        rcases Bool.eq_false_or_eq_true (l.eq u) with he | he
        · simp only [he, if_true] at h
          exact absurd h (by decide)
        · simp only [he, Bool.false_eq_true, if_false] at h ⊢
          obtain ⟨h1, h2, h3⟩ := ih _ _ _ h
          refine ⟨h1, by rw [h2]; simp, ?_⟩
          intro x hx hxe
          rcases List.mem_cons.mp hx with hx | hx
          · subst hx; exact val_ne_of_not_eq x u hn he
          · exact h3 x hx hxe
    · simp only [hl, Bool.false_eq_true, if_false] at h ⊢
      obtain ⟨h1, h2, h3⟩ := ih _ _ _ h
      refine ⟨h1, by rw [h2]; simp, ?_⟩
      intro x hx hxe
      rcases List.mem_cons.mp hx with hx | hx
      · subst hx; rw [hl] at hxe; exact absurd hxe (by decide)
      · exact h3 x hx hxe

theorem unit_other_quiet (S : Nat) (u : Literal) (uid : Nat) (c : Clause) (cnt : List Int)
    (m : Bool) (h : (unit_other S u uid c cnt m).2.2 = false) :
    m = false ∧ unit_other S u uid c cnt m = (c, cnt, false) ∧
      (c.exists_ S = true → c.id ≠ uid →
        ∀ l ∈ c.literals, l.exists_ S = true → l.val ≠ u.val) := by
  unfold unit_other at h ⊢
  rcases Bool.eq_false_or_eq_true (c.exists_ S) with hc | hc
  · simp only [hc, if_true] at h ⊢
    by_cases hid : c.id = uid
    · simp only [hid, if_true] at h ⊢
      subst h
      exact ⟨rfl, rfl, fun _ hne => absurd rfl hne⟩
    · simp only [hid, if_false] at h ⊢
      obtain ⟨h1, h2, h3⟩ := unit_scan_quiet S u c.literals [] cnt m h
      rw [h2]
      simp only [List.nil_append, Bool.false_eq_true, if_false]
      exact ⟨h1, trivial, fun _ _ => h3⟩
  · simp only [hc, Bool.false_eq_true, if_false] at h ⊢
    subst h
    exact ⟨rfl, rfl, fun hx => absurd hx (by decide)⟩

theorem unit_others_quiet (S : Nat) (u : Literal) (uid : Nat) (cs : List Clause) :
    ∀ (cnt : List Int) (m : Bool), (unit_others S u uid cs cnt m).2.2 = false →
    m = false ∧ unit_others S u uid cs cnt m = (cs, cnt, false) ∧
      ∀ c ∈ cs, c.exists_ S = true → c.id ≠ uid →
        ∀ l ∈ c.literals, l.exists_ S = true → l.val ≠ u.val := by
  induction cs with
  | nil => intro cnt m h; simp only [unit_others] at h; subst h; simp [unit_others]
  | cons c rest ih =>
    intro cnt m h
    simp only [unit_others] at h ⊢
    obtain ⟨h1, h2, h3⟩ := ih _ _ h
    obtain ⟨k1, k2, k3⟩ := unit_other_quiet S u uid c cnt m h1
    refine ⟨k1, ?_, ?_⟩
    · rw [h2, k2]
    · intro x hx
      rcases List.mem_cons.mp hx with hx | hx
      · subst hx; exact k3
      · exact h3 x hx

theorem unit_visit_quiet (S : Nat) (st : List Clause × List Int × Bool) (i : Nat)
    (h : (unit_visit S st i).2.2 = false) :
    unit_visit S st i = st ∧
      ∀ W, st.1.get? i = some W → W.exists_ S = true → W.count S = 1 →
        ∀ u, W.begin S = some u → ∀ c ∈ st.1, c.exists_ S = true → c.id ≠ W.id →
          ∀ l ∈ c.literals, l.exists_ S = true → l.val ≠ u.val := by
  unfold unit_visit at h ⊢
  cases hg : st.1.get? i with
  | none => exact ⟨rfl, fun W hW => by cases hW⟩
  | some clause =>
    rw [hg] at h
    simp only at h ⊢
    rcases Bool.eq_false_or_eq_true (clause.exists_ S && decide (clause.count S = 1))
      with hcond | hcond
    · simp only [hcond, if_true] at h ⊢
      cases hb : clause.begin S with
      | none =>
        refine ⟨rfl, ?_⟩
        intro W hW _ _ u hu
        simp only [Option.some.injEq] at hW
        subst hW
        rw [hb] at hu; cases hu
      | some unit_lit =>
        rw [hb] at h
        simp only at h ⊢
        obtain ⟨h1, h2, h3⟩ := unit_others_quiet S unit_lit clause.id st.1 st.2.1 st.2.2 h
        refine ⟨?_, ?_⟩
        · rw [h2]
          obtain ⟨a, b, c⟩ := st
          simp only at h1
          subst h1
          rfl
        · intro W hW _ _ u hu
          simp only [Option.some.injEq] at hW
          subst hW
          rw [hb] at hu
          simp only [Option.some.injEq] at hu
          subst hu
          exact h3
    · simp only [hcond, Bool.false_eq_true, if_false] at h ⊢
      refine ⟨trivial, ?_⟩
      intro W hW hWe hWc
      simp only [Option.some.injEq] at hW
      subst hW
      simp [hWe, hWc] at hcond

theorem foldl_quiet (S : Nat) (is : List Nat) : ∀ (st : List Clause × List Int × Bool),
    (is.foldl (unit_visit S) st).2.2 = false →
    is.foldl (unit_visit S) st = st ∧
      ∀ i ∈ is, ∀ W, st.1.get? i = some W → W.exists_ S = true → W.count S = 1 →
        ∀ u, W.begin S = some u → ∀ c ∈ st.1, c.exists_ S = true → c.id ≠ W.id →
          ∀ l ∈ c.literals, l.exists_ S = true → l.val ≠ u.val := by
  induction is with
  | nil => intro st _; exact ⟨rfl, fun i hi => by cases hi⟩
  | cons i rest ih =>
    intro st h
    simp only [List.foldl_cons] at h ⊢
    obtain ⟨h1, h2⟩ := ih _ h
    rw [h1] at h
    obtain ⟨k1, k2⟩ := unit_visit_quiet S st i h
    refine ⟨by rw [h1, k1], ?_⟩
    intro j hj
    rcases List.mem_cons.mp hj with hj | hj
    · subst hj; exact k2
    · have := h2 j hj
      rw [k1] at this
      exact this

theorem unit_propagation_quiet (s : State) (h : (unit_propagation s).1 = false) :
    (unit_propagation s).2 = s ∧ Quiet s.step s.clauses := by
  obtain ⟨h1, h2⟩ := foldl_quiet s.step (List.range s.clauses.length)
    (s.clauses, s.variable_cnt, false) h
  constructor
  · simp only [unit_propagation]
    rw [h1]
  · intro W hW hWe hWc u hu
    obtain ⟨i, hi⟩ := List.mem_iff_get?.mp hW
    have hlt : i < s.clauses.length := by
      by_contra hge
      rw [List.get?_eq_none.mpr (by omega)] at hi
      cases hi
    exact h2 i (List.mem_range.mpr hlt) W hi hWe hWc u hu

theorem unit_loop_quiet (n : Nat) : ∀ (s s' : State), unit_loop n s = Run.ok s' →
    Quiet s'.step s'.clauses := by
  induction n with
  | zero => intro s s' h; simp [unit_loop] at h
  | succ k ih =>
    intro s s' h
    rw [unit_loop] at h
    rcases Bool.eq_false_or_eq_true (unit_propagation s).1 with hm | hm
    · simp only [hm, if_true] at h
      exact ih _ _ h
    · simp only [hm, Bool.false_eq_true, if_false, Run.ok.injEq] at h
      obtain ⟨h1, h2⟩ := unit_propagation_quiet s hm
      rw [← h, h1]
      exact h2


theorem pure_scan_quiet (S : Nat) (cnt : List Int) (ls : List Literal) :
    ∀ (stk : List (Literal × Nat)) (p : Bool), (pure_scan S cnt ls stk p).2 = false →
    p = false ∧ (pure_scan S cnt ls stk p).1 = stk ∧
      ∀ l ∈ ls, l.exists_ S = true → tblGet cnt l.val ≠ 1 := by
  induction ls with
  | nil => intro stk p h; exact ⟨h, rfl, fun l hl => by cases hl⟩
  | cons l rest ih =>
    intro stk p h
    simp only [pure_scan] at h ⊢
    rcases Bool.eq_false_or_eq_true (l.exists_ S && decide (tblGet cnt l.val = 1)) with hc | hc
    · simp only [hc, if_true] at h
      rw [pure_scan_true] at h
      exact absurd h (by decide)
    · simp only [hc, Bool.false_eq_true, if_false] at h ⊢
      obtain ⟨h1, h2, h3⟩ := ih _ _ h
      refine ⟨h1, h2, ?_⟩
      intro x hx hxe
      rcases List.mem_cons.mp hx with hx | hx
      · subst hx
        simp only [hxe, Bool.true_and, decide_eq_false_iff_not] at hc
        exact hc
      · exact h3 x hx hxe

theorem pure_visit_quiet (S : Nat) (c : Clause) (cnt : List Int) (stk : List (Literal × Nat))
    (m : Bool) (h : (pure_visit S c cnt stk m).2.2.2 = false) :
    m = false ∧ pure_visit S c cnt stk m = (c, cnt, stk, false) ∧
      (c.exists_ S = true → ∀ l ∈ c.literals, l.exists_ S = true → tblGet cnt l.val ≠ 1) := by
  unfold pure_visit at h ⊢
  rcases Bool.eq_false_or_eq_true (c.exists_ S) with hc | hc
  · simp only [hc, if_true] at h ⊢
    rcases Bool.eq_false_or_eq_true (pure_scan S cnt c.literals stk false).2 with hr | hr
    · simp only [hr, if_true] at h
      exact absurd h (by decide)
    · simp only [hr, Bool.false_eq_true, if_false] at h ⊢
      obtain ⟨_, h2, h3⟩ := pure_scan_quiet S cnt c.literals stk false hr
      subst h
      rw [h2]
      exact ⟨rfl, rfl, fun _ => h3⟩
  · simp only [hc, Bool.false_eq_true, if_false] at h ⊢
    subst h
    exact ⟨rfl, rfl, fun hx => absurd hx (by decide)⟩

theorem pure_clauses_quiet (S : Nat) (cs : List Clause) :
    ∀ (cnt : List Int) (stk : List (Literal × Nat)) (m : Bool),
    (pure_clauses S cs cnt stk m).2.2.2 = false →
    m = false ∧ pure_clauses S cs cnt stk m = (cs, cnt, stk, false) ∧ PureQuiet S cs cnt := by
  induction cs with
  | nil =>
    intro cnt stk m h
    simp only [pure_clauses] at h
    subst h
    exact ⟨rfl, rfl, fun c hc => by cases hc⟩
  | cons c rest ih =>
    intro cnt stk m h
    simp only [pure_clauses] at h ⊢
    obtain ⟨h1, h2, h3⟩ := ih _ _ _ h
    obtain ⟨k1, k2, k3⟩ := pure_visit_quiet S c cnt stk m h1
    rw [k2] at h2 h3
    simp only at h2 h3
    refine ⟨k1, ?_, ?_⟩
    · rw [k2]; simp only; rw [h2]
    · intro x hx
      rcases List.mem_cons.mp hx with hx | hx
      · subst hx; exact k3
      · exact h3 x hx

theorem pure_literal_elimination_quiet (s : State)
    (h : (pure_literal_elimination s).1 = false) :
    (pure_literal_elimination s).2 = s ∧ PureQuiet s.step s.clauses s.variable_cnt := by
  obtain ⟨_, h2, h3⟩ :=
    pure_clauses_quiet s.step s.clauses s.variable_cnt s.pure_literals false h
  refine ⟨?_, h3⟩
  simp only [pure_literal_elimination]
  rw [h2]

/-- When the elimination loop is left without `break`, nothing is pure any
more, and the formula is not empty unless it was so on entry. -/
theorem pure_loop_quiet (n : Nat) : ∀ (s s2 : State), pure_loop n s = Run.ok (false, s2) →
    PureQuiet s2.step s2.clauses s2.variable_cnt ∧ (empty s = false → empty s2 = false) := by
  induction n with
  | zero => intro s s2 h; simp [pure_loop] at h
  | succ k ih =>
    intro s s2 h
    rw [pure_loop] at h
    rcases Bool.eq_false_or_eq_true (pure_literal_elimination s).1 with hm | hm
    · simp only [hm, if_true] at h
      rcases Bool.eq_false_or_eq_true (empty (pure_literal_elimination s).2) with he | he
      · simp only [he, if_true, Run.ok.injEq, Prod.mk.injEq] at h
        exact absurd h.1 (by decide)
      · simp only [he, Bool.false_eq_true, if_false] at h
        obtain ⟨h1, h2⟩ := ih _ _ h
        exact ⟨h1, fun _ => h2 he⟩
    · simp only [hm, Bool.false_eq_true, if_false, Run.ok.injEq, Prod.mk.injEq] at h
      obtain ⟨h1, h2⟩ := pure_literal_elimination_quiet s hm
      rw [← h.2, h1]
      exact ⟨h2, fun he => he⟩


/-! ## The decided variable leaves the table -/

theorem clauseProp_decided {S var : Nat} {u : Literal} {U : Clause} {cs cs' : List Clause}
    (hU : U ∈ cs) (hUe : U.exists_ S = true) (hUc : U.count S = 1) (hu : u ∈ U.literals)
    (hue : u.exists_ S = true)
    (h : List.Forall₂ (ClauseProp S u U.id) cs cs') (hd : Decided S var cs) :
    Decided S var cs' := by
  have hU' : U ∈ cs' := by
    obtain ⟨U', hU', hr⟩ := forall2_mem_left h U hU
    rw [hr.2.2.2.2 (Or.inr rfl)] at hU'
    exact hU'
  rcases hd with ⟨c, hc, hce, hcemp⟩ | ⟨V, hV, hVe, hVc, k, hk, hke, hkv⟩
  · left
    obtain ⟨c', hc', h1, _, h3, h4, _⟩ := forall2_mem_left h c hc
    rw [clause_empty_iff] at hcemp
    have hsub := litProp_sublist h3
    rw [hcemp, List.sublist_nil] at hsub
    refine ⟨c', hc', ?_, (clause_empty_iff S c').mpr hsub⟩
    rcases h4 with h4 | ⟨_, _, l, hl, hle, _⟩
    · simp only [Clause.exists_] at hce ⊢
      rw [h1, h4]; exact hce
    · have : l ∈ c.literals.filter (Literal.exists_ S) := List.mem_filter.mpr ⟨hl, hle⟩
      rw [hcemp] at this
      cases this
  · obtain ⟨V', hV', v1, _, v3, v4, _⟩ := forall2_mem_left h V hV
    rcases v4 with v4 | ⟨_, _, x, hx, hxe, hxu⟩
    · have hVe' : V'.exists_ S = true := by
        simp only [Clause.exists_] at hVe ⊢
        rw [v1, v4]; exact hVe
      have hsub := litProp_sublist v3
      obtain ⟨y, hy⟩ := List.length_eq_one.mp hVc
      have hky : k = y := by
        have : k ∈ V.literals.filter (Literal.exists_ S) := List.mem_filter.mpr ⟨hk, hke⟩
        rw [hy] at this
        simpa using this
      rw [hy, List.sublist_singleton] at hsub
      rcases hsub with hsub | hsub
      · exact Or.inl ⟨V', hV', hVe', (clause_empty_iff S V').mpr hsub⟩
      · have hk' : k ∈ V'.literals.filter (Literal.exists_ S) := by
          rw [hsub, hky]; simp
        obtain ⟨hk1, hk2⟩ := List.mem_filter.mp hk'
        exact Or.inr ⟨V', hV', hVe', by simp [Clause.count, hsub], k, hk1, hk2, hkv⟩
    · have hxk : x = k := filter_one_unique _ V.literals x k hVc hx hk hxe hke
      right
      refine ⟨U, hU', hUe, hUc, u, hu, hue, ?_⟩
      rw [← hkv, ← hxk]
      exact (lit_eq_val hxu).symm

theorem unit_visit_decided (S var : Nat) (st : List Clause × List Int × Bool) (i : Nat)
    (h : Decided S var st.1) : Decided S var (unit_visit S st i).1 := by
  unfold unit_visit
  cases hg : st.1.get? i with
  | none => exact h
  | some clause =>
    simp only
    cases hcond : (clause.exists_ S && decide (clause.count S = 1)) with
    | false => exact h
    | true =>
      simp only [if_true]
      cases hb : clause.begin S with
      | none => exact h
      | some unit_lit =>
        simp only
        simp only [Bool.and_eq_true, decide_eq_true_eq] at hcond
        exact clauseProp_decided (List.get?_mem hg) hcond.1 hcond.2
          (List.mem_of_find?_eq_some hb) (List.find?_some hb)
          (unit_others_shape S unit_lit clause.id st.1 st.2.1 st.2.2).1 h

theorem unit_propagation_decided (var : Nat) (s : State) (h : Decided s.step var s.clauses) :
    Decided s.step var (unit_propagation s).2.clauses :=
  foldl_invariant (fun st : List Clause × List Int × Bool => Decided s.step var st.1)
    (unit_visit s.step) (fun a b ha => unit_visit_decided s.step var a b ha)
    (List.range s.clauses.length) (s.clauses, s.variable_cnt, false) h

theorem clauseStep_ids {S : Nat} {cs cs' : List Clause}
    (h : List.Forall₂ (ClauseStep S) cs cs') : cs'.map Clause.id = cs.map Clause.id := by
  induction h with
  | nil => rfl
  | cons hab _ ih => simp [hab.2.1, ih]

theorem unit_propagation_ids (s : State) :
    (unit_propagation s).2.clauses.map Clause.id = s.clauses.map Clause.id := by
  have := foldl_invariant
    (fun st : List Clause × List Int × Bool => st.1.map Clause.id = s.clauses.map Clause.id)
    (unit_visit s.step)
    (fun a b ha => (clauseStep_ids (unit_visit_step s.step a b)).trans ha)
    (List.range s.clauses.length) (s.clauses, s.variable_cnt, false) rfl
  exact this

theorem pure_literal_elimination_ids (s : State) :
    (pure_literal_elimination s).2.clauses.map Clause.id = s.clauses.map Clause.id := by
  obtain ⟨_, _, _, hs⟩ := pure_clauses_shape s.step s.clauses s.variable_cnt s.pure_literals false
  exact clauseStep_ids (forall2_imp (fun _ _ h => clauseStep_of_pure h) hs)

theorem dropped_refl (S : Nat) (cs : List Clause) : List.Forall₂ (Dropped S) cs cs := by
  induction cs with
  | nil => exact List.Forall₂.nil
  | cons c rest ih => exact List.Forall₂.cons (Or.inl rfl) ih

theorem dropped_pure {S : Nat} {stk : List (Literal × Nat)} {cs cs' cs'' : List Clause}
    (h1 : List.Forall₂ (Dropped S) cs cs') (h2 : List.Forall₂ (PureStep S stk) cs' cs'') :
    List.Forall₂ (Dropped S) cs cs'' := by
  induction h1 generalizing cs'' with
  | nil => cases h2; exact List.Forall₂.nil
  | cons hab _ ih =>
    cases h2 with
    | cons hbc hrest =>
      refine List.Forall₂.cons ?_ (ih hrest)
      rcases hbc with hbc | ⟨k1, k2, l, hl, hle, _⟩
      · rw [hbc]; exact hab
      · rcases hab with hab | ⟨a1, a2, _⟩
        · rw [hab] at k1 k2 hl
          exact Or.inr ⟨k1, k2, l, hl, hle⟩
        · rw [a2, clause_exists_remove] at k1
          exact absurd k1 (by decide)

theorem pure_loop_dropped (S : Nat) (cs1 : List Clause) (n : Nat) (s s' : State) (b : Bool)
    (h : pure_loop n s = Run.ok (b, s'))
    (hs : s.step = S ∧ List.Forall₂ (Dropped S) cs1 s.clauses) :
    s'.step = S ∧ List.Forall₂ (Dropped S) cs1 s'.clauses :=
  pure_loop_induct (fun x => x.step = S ∧ List.Forall₂ (Dropped S) cs1 x.clauses)
    (fun x hx => by
      obtain ⟨_, _, _, hp⟩ :=
        pure_clauses_shape x.step x.clauses x.variable_cnt x.pure_literals false
      rw [hx.1] at hp
      have hc : (pure_literal_elimination x).2.clauses =
          (pure_clauses S x.clauses x.variable_cnt x.pure_literals false).1 := by
        simp only [pure_literal_elimination, hx.1]
      exact ⟨hx.1, by rw [hc]; exact dropped_pure hx.2 hp⟩) n s s' b h hs

theorem nodup_ids_eq {cs : List Clause} (h : (cs.map Clause.id).Nodup) {a b : Clause}
    (ha : a ∈ cs) (hb : b ∈ cs) (hab : a.id = b.id) : a = b :=
  List.inj_on_of_nodup_map h ha hb hab

theorem occurrences_zero (S v : Nat) (cs : List Clause)
    (h : ∀ c ∈ cs, c.exists_ S = true → ∀ l ∈ c.literals, l.exists_ S = true → l.val ≠ v) :
    occurrences S v cs = 0 := by
  induction cs with
  | nil => rfl
  | cons c rest ih =>
    rw [occurrences_cons, ih (fun c hx => h c (List.mem_cons_of_mem _ hx))]
    have : clause_count S v c = 0 := by
      unfold clause_count
      split
      · rename_i hc
        unfold live_count
        rw [List.countP_eq_zero]
        intro l hl
        have := h c (List.mem_cons_self _ _) hc l hl
        by_cases hle : l.exists_ S = true
        · simp [hle, this hle]
        · simp [hle]
      · rfl
    omega

theorem occurrences_single (S v : Nat) (V : Clause) (cs : List Clause)
    (hn : (cs.map Clause.id).Nodup) (hV : V ∈ cs)
    (h : ∀ c ∈ cs, c.id ≠ V.id → c.exists_ S = true →
      ∀ l ∈ c.literals, l.exists_ S = true → l.val ≠ v) :
    occurrences S v cs = clause_count S v V := by
  induction cs with
  | nil => cases hV
  | cons c rest ih =>
    rw [occurrences_cons]
    simp only [List.map_cons, List.nodup_cons] at hn
    rcases List.mem_cons.mp hV with hVc | hVr
    · subst hVc
      rw [occurrences_zero S v rest]
      · rfl
      · intro d hd
        have hne : d.id ≠ V.id := by
          intro he
          exact hn.1 (by rw [← he]; exact List.mem_map_of_mem _ hd)
        exact h d (List.mem_cons_of_mem _ hd) hne
    · have hne : c.id ≠ V.id := by
        intro he
        exact hn.1 (by rw [he]; exact List.mem_map_of_mem _ hVr)
      rw [ih hn.2 hVr (fun d hd => h d (List.mem_cons_of_mem _ hd))]
      have : clause_count S v c = 0 := by
        have := occurrences_zero S v [c] (by
          intro d hd
          simp only [List.mem_singleton] at hd
          subst hd
          exact h d (List.mem_cons_self _ _) hne)
        simpa [occurrences] using this
      omega

theorem clause_count_unit (S : Nat) (V : Clause) (k : Literal) (hVe : V.exists_ S = true)
    (hVc : V.count S = 1) (hk : k ∈ V.literals) (hke : k.exists_ S = true) :
    clause_count S k.val V = 1 := by
  simp only [clause_count, hVe, if_true, live_count]
  obtain ⟨y, hy⟩ := List.length_eq_one.mp hVc
  have hky : k = y := by
    have : k ∈ V.literals.filter (Literal.exists_ S) := List.mem_filter.mpr ⟨hk, hke⟩
    rw [hy] at this
    simpa using this
  have : V.literals.countP (fun l => l.exists_ S && decide (l.val = k.val)) =
      (V.literals.filter (Literal.exists_ S)).countP (fun l => decide (l.val = k.val)) := by
    rw [List.countP_filter]
    apply List.countP_congr
    intro l _
    simp [Bool.and_comm]
  rw [this, hy, ← hky]
  simp


theorem begin_of_unit (S : Nat) (V : Clause) (k : Literal) (hVc : V.count S = 1)
    (hk : k ∈ V.literals) (hke : k.exists_ S = true) : V.begin S = some k := by
  unfold Clause.begin
  cases hf : V.literals.find? (Literal.exists_ S) with
  | none =>
    rw [List.find?_eq_none] at hf
    exact absurd hke (hf k hk)
  | some x =>
    have hx := List.mem_of_find?_eq_some hf
    have hxe := List.find?_some hf
    rw [filter_one_unique _ V.literals x k hVc hx hk hxe hke]

theorem prologue_ids (s s1 s2 : State) (n m : Nat) (sat : Bool)
    (h1 : unit_loop n { s with step := s.step + 1 } = Run.ok s1)
    (h2 : pure_loop m s1 = Run.ok (sat, s2)) :
    s1.clauses.map Clause.id = s.clauses.map Clause.id ∧
    s2.clauses.map Clause.id = s.clauses.map Clause.id ∧
    s2.clause_cnt = s.clause_cnt := by
  have f1 := unit_loop_induct
    (fun x => x.clauses.map Clause.id = s.clauses.map Clause.id ∧ x.clause_cnt = s.clause_cnt)
    (fun x hx => ⟨(unit_propagation_ids x).trans hx.1, hx.2⟩) _ _ _ h1 ⟨rfl, rfl⟩
  have f2 := pure_loop_induct
    (fun x => x.clauses.map Clause.id = s.clauses.map Clause.id ∧ x.clause_cnt = s.clause_cnt)
    (fun x hx => ⟨(pure_literal_elimination_ids x).trans hx.1, hx.2⟩) _ _ _ _ h2 f1
  exact ⟨f1.1, f2.1, f2.2⟩

theorem unit_loop_decided (S var : Nat) (n : Nat) (s s' : State)
    (h : unit_loop n s = Run.ok s') (hs : s.step = S ∧ Decided S var s.clauses) :
    s'.step = S ∧ Decided S var s'.clauses :=
  unit_loop_induct (fun x => x.step = S ∧ Decided S var x.clauses)
    (fun x hx => ⟨hx.1, by
      have := unit_propagation_decided var x (by rw [hx.1]; exact hx.2)
      rw [hx.1] at this; exact this⟩) n s s' h hs

/-- In a frame that has a decision on `var` and reaches step 4, the occurrence
of `var` is zero when the branch variable is selected. -/
theorem branch_count_zero (s s1 s2 : State) (n m : Nat) (var : Nat)
    (hb : Born s.step s.clauses) (hs : Settled s.step s.clauses)
    (ho : OccAt (s.step + 1) s.clauses s.variable_cnt)
    (hid : (s.clauses.map Clause.id).Nodup)
    (hd : Decided (s.step + 1) var s.clauses)
    (h1 : unit_loop n { s with step := s.step + 1 } = Run.ok s1)
    (h2 : pure_loop m s1 = Run.ok (false, s2))
    (hne : ¬ ∃ c ∈ s2.clauses, c.exists_ (s.step + 1) = true ∧ c.empty (s.step + 1) = true) :
    tblGet s2.variable_cnt var = 0 := by
  obtain ⟨_, _, _, o2⟩ := prologue_ok s s1 s2 n m false hb hs ho h1 h2
  obtain ⟨i1, i2, _⟩ := prologue_ids s s1 s2 n m false h1 h2
  obtain ⟨d1, d2⟩ := unit_loop_decided (s.step + 1) var n _ s1 h1 ⟨rfl, hd⟩
  have q1 := unit_loop_quiet n _ s1 h1
  rw [d1] at q1
  obtain ⟨e1, e2⟩ := pure_loop_dropped (s.step + 1) s1.clauses m s1 s2 false h2
    ⟨d1, dropped_refl _ _⟩
  have q2 := (pure_loop_quiet m s1 s2 h2).1
  rw [e1] at q2
  have hn2 : (s2.clauses.map Clause.id).Nodup := by rw [i2]; exact hid
  rcases d2 with ⟨c, hc, hce, hcemp⟩ | ⟨V, hV, hVe, hVc, k, hk, hke, hkv⟩
  · exfalso
    apply hne
    obtain ⟨c', hc', hr⟩ := forall2_mem_left e2 c hc
    rcases hr with hr | ⟨_, _, l, hl, hle⟩
    · rw [hr] at hc'; exact ⟨c, hc', hce, hcemp⟩
    · rw [clause_empty_iff] at hcemp
      have : l ∈ c.literals.filter (Literal.exists_ (s.step + 1)) :=
        List.mem_filter.mpr ⟨hl, hle⟩
      rw [hcemp] at this
      cases this
  · have hbegin := begin_of_unit _ V k hVc hk hke
    have others : ∀ c2 ∈ s2.clauses, c2.id ≠ V.id → c2.exists_ (s.step + 1) = true →
        ∀ l ∈ c2.literals, l.exists_ (s.step + 1) = true → l.val ≠ var := by
      intro c2 hc2 hne2 hc2e
      obtain ⟨c, hc, hr⟩ := forall2_mem_right e2 c2 hc2
      rcases hr with hr | ⟨_, hr, _⟩
      · rw [hr] at hne2 hc2e ⊢
        rw [← hkv]
        exact q1 V hV hVe hVc k hbegin c hc hc2e hne2
      · rw [hr, clause_exists_remove] at hc2e
        exact absurd hc2e (by decide)
    obtain ⟨V2, hV2, hr⟩ := forall2_mem_left e2 V hV
    rcases hr with hr | ⟨_, hr, _⟩
    · exfalso
      rw [hr] at hV2
      have hocc := occurrences_single (s.step + 1) var V s2.clauses hn2 hV2 others
      rw [← hkv, clause_count_unit _ V k hVe hVc hk hke] at hocc
      have hcnt := o2 k.val
      rw [hocc] at hcnt
      exact q2 V hV2 hVe k hk hke hcnt
    · have hV2id : V2.id = V.id := by rw [hr]; rfl
      have hzero := occurrences_zero (s.step + 1) var s2.clauses (by
        intro c2 hc2 hc2e
        apply others c2 hc2 _ hc2e
        intro he
        have : c2 = V2 := nodup_ids_eq hn2 hc2 hV2 (by rw [he, hV2id])
        rw [this, hr, clause_exists_remove] at hc2e
        exact absurd hc2e (by decide))
      have hcnt := o2 var
      rw [hzero] at hcnt
      exact hcnt


/-! ## Every call returns -/

theorem countP_lt_of_imp {α : Type} (p q : α → Bool) (l : List α)
    (h : ∀ x ∈ l, p x = true → q x = true) (hx : ∃ x ∈ l, q x = true ∧ p x = false) :
    l.countP p < l.countP q := by
  induction l with
  | nil => obtain ⟨x, hx, _⟩ := hx; cases hx
  | cons a rest ih =>
    have hrest : ∀ x ∈ rest, p x = true → q x = true :=
      fun x hx => h x (List.mem_cons_of_mem _ hx)
    have hle : rest.countP p ≤ rest.countP q := List.countP_mono_left hrest
    obtain ⟨x, hxm, hq, hp⟩ := hx
    simp only [List.countP_cons]
    rcases List.mem_cons.mp hxm with hxa | hxr
    · subst hxa
      simp only [hq, hp, if_true, Bool.false_eq_true, if_false]
      omega
    · have := ih hrest ⟨x, hxr, hq, hp⟩
      have ha := h a (List.mem_cons_self _ _)
      rcases Bool.eq_false_or_eq_true (p a) with hpa | hpa
      · simp only [hpa, ha hpa, if_true]; omega
      · simp only [hpa, Bool.false_eq_true, if_false]
        split <;> omega

theorem positives_le (N : Nat) (a b : List Int) (h : ∀ v, tblGet a v ≤ tblGet b v) :
    positives N a ≤ positives N b := by
  unfold positives
  apply List.countP_mono_left
  intro v _ hv
  simp only [decide_eq_true_eq] at hv ⊢
  have := h v
  omega

theorem positives_lt (N : Nat) (a b : List Int) (h : ∀ v, tblGet a v ≤ tblGet b v)
    (var : Nat) (hN : var < N) (hb : 0 < tblGet b var) (ha : tblGet a var = 0) :
    positives N a < positives N b := by
  unfold positives
  apply countP_lt_of_imp
  · intro v _ hv
    simp only [decide_eq_true_eq] at hv ⊢
    have := h v
    omega
  · exact ⟨var, List.mem_range.mpr hN, by simpa using hb, by simp [ha]⟩

theorem positives_tblAdd (N : Nat) (cnt : List Int) (var : Nat) (h : 0 < tblGet cnt var) :
    positives N (tblAdd cnt var 1) = positives N cnt ∧
    ∀ v, 0 < tblGet (tblAdd cnt var 1) v ↔ 0 < tblGet cnt v := by
  have key : ∀ v, 0 < tblGet (tblAdd cnt var 1) v ↔ 0 < tblGet cnt v := by
    intro v
    rw [tblGet_tblAdd]
    split
    · rename_i hv
      rw [← hv.1]
      constructor
      · intro _; exact h
      · intro _; omega
    · exact Iff.rfl
  refine ⟨?_, key⟩
  unfold positives
  apply List.countP_congr
  intro v _
  simp only [decide_eq_true_eq]
  exact key v

theorem litStep_live_count {S v : Nat} {ls ls' : List Literal}
    (h : List.Forall₂ (LitStep S) ls ls') : live_count S v ls' ≤ live_count S v ls := by
  induction h with
  | nil => exact le_refl _
  | cons hab _ ih =>
    rename_i a b xs ys _
    rw [live_count_cons, live_count_cons]
    rcases hab with hab | ⟨_, hab⟩
    · rw [hab]; omega
    · rw [hab, lit_exists_remove]
      simp only [Bool.false_eq_true, false_and, if_false]
      omega

theorem clauseStep_occurrences {S v : Nat} {cs cs' : List Clause}
    (h : List.Forall₂ (ClauseStep S) cs cs') : occurrences S v cs' ≤ occurrences S v cs := by
  induction h with
  | nil => exact le_refl _
  | cons hab _ ih =>
    rename_i a b xs ys _
    rw [occurrences_cons, occurrences_cons]
    obtain ⟨h1, _, h3, h4⟩ := hab
    have hl := litStep_live_count (v := v) h3
    have : clause_count S v b ≤ clause_count S v a := by
      unfold clause_count
      rcases h4 with h4 | ⟨h4, h5⟩
      · have : b.exists_ S = a.exists_ S := by
          simp only [Clause.exists_, h1, h4]
        rw [this]
        split
        · exact hl
        · exact le_refl _
      · have : b.exists_ S = false := by
          simp [Clause.exists_, h5]
        rw [this]
        simp
    omega

theorem unit_propagation_occ_le (v : Nat) (s : State) :
    occurrences s.step v (unit_propagation s).2.clauses ≤ occurrences s.step v s.clauses := by
  have := foldl_invariant
    (fun st : List Clause × List Int × Bool =>
      occurrences s.step v st.1 ≤ occurrences s.step v s.clauses)
    (unit_visit s.step)
    (fun a b ha => le_trans (clauseStep_occurrences (unit_visit_step s.step a b)) ha)
    (List.range s.clauses.length) (s.clauses, s.variable_cnt, false) (le_refl _)
  exact this

theorem pure_literal_elimination_occ_le (v : Nat) (s : State) :
    occurrences s.step v (pure_literal_elimination s).2.clauses ≤
      occurrences s.step v s.clauses := by
  obtain ⟨_, _, _, hs⟩ := pure_clauses_shape s.step s.clauses s.variable_cnt s.pure_literals false
  exact clauseStep_occurrences (forall2_imp (fun _ _ h => clauseStep_of_pure h) hs)

theorem prologue_occ_le (v : Nat) (s s1 s2 : State) (n m : Nat) (sat : Bool)
    (h1 : unit_loop n { s with step := s.step + 1 } = Run.ok s1)
    (h2 : pure_loop m s1 = Run.ok (sat, s2)) :
    occurrences (s.step + 1) v s2.clauses ≤ occurrences (s.step + 1) v s.clauses := by
  have f1 := unit_loop_induct
    (fun x => x.step = s.step + 1 ∧
      occurrences (s.step + 1) v x.clauses ≤ occurrences (s.step + 1) v s.clauses)
    (fun x hx => ⟨hx.1, by
      have := unit_propagation_occ_le v x
      rw [hx.1] at this
      exact le_trans this hx.2⟩) _ _ _ h1 ⟨rfl, le_refl _⟩
  have f2 := pure_loop_induct
    (fun x => x.step = s.step + 1 ∧
      occurrences (s.step + 1) v x.clauses ≤ occurrences (s.step + 1) v s.clauses)
    (fun x hx => ⟨hx.1, by
      have := pure_literal_elimination_occ_le v x
      rw [hx.1] at this
      exact le_trans this hx.2⟩) _ _ _ _ h2 f1
  exact f2.2


theorem unit_visit_live (S : Nat) (st : List Clause × List Int × Bool) (i : Nat)
    (h : ∃ c ∈ st.1, c.exists_ S = true) : ∃ c ∈ (unit_visit S st i).1, c.exists_ S = true := by
  unfold unit_visit
  cases hg : st.1.get? i with
  | none => exact h
  | some clause =>
    simp only
    cases hcond : (clause.exists_ S && decide (clause.count S = 1)) with
    | false => exact h
    | true =>
      simp only [if_true]
      cases hb : clause.begin S with
      | none => exact h
      | some unit_lit =>
        simp only
        simp only [Bool.and_eq_true, decide_eq_true_eq] at hcond
        obtain ⟨U', hU', hr⟩ := forall2_mem_left
          (unit_others_shape S unit_lit clause.id st.1 st.2.1 st.2.2).1 clause (List.get?_mem hg)
        rw [hr.2.2.2.2 (Or.inr rfl)] at hU'
        exact ⟨clause, hU', hcond.1⟩

theorem empty_eq_false_iff (s : State) :
    empty s = false ↔ ∃ c ∈ s.clauses, c.exists_ s.step = true := by
  unfold empty
  cases hf : s.clauses.find? (Clause.exists_ s.step) with
  | none =>
    simp only [Option.isNone_none, Bool.true_eq_false, false_iff]
    rw [List.find?_eq_none] at hf
    rintro ⟨c, hc, hce⟩
    exact hf c hc hce
  | some x =>
    simp only [Option.isNone_some, true_iff]
    exact ⟨x, List.mem_of_find?_eq_some hf, List.find?_some hf⟩

theorem unit_loop_live (S n : Nat) (s s' : State) (h : unit_loop n s = Run.ok s')
    (hs : s.step = S ∧ ∃ c ∈ s.clauses, c.exists_ S = true) :
    s'.step = S ∧ ∃ c ∈ s'.clauses, c.exists_ S = true :=
  unit_loop_induct (fun x => x.step = S ∧ ∃ c ∈ x.clauses, c.exists_ S = true)
    (fun x hx => ⟨hx.1, by
      have := foldl_invariant
        (fun st : List Clause × List Int × Bool => ∃ c ∈ st.1, c.exists_ S = true)
        (unit_visit x.step) (fun a b ha => by rw [hx.1]; exact unit_visit_live S a b ha)
        (List.range x.clauses.length) (x.clauses, x.variable_cnt, false) hx.2
      exact this⟩) n s s' h hs

theorem select_variable_some (s : State) (v : Nat) (h1 : 1 ≤ v)
    (h2 : v < s.variable_cnt.length) (h3 : 0 < tblGet s.variable_cnt v) :
    ∃ var, select_variable s = some var := by
  cases hf : select_variable s with
  | some var => exact ⟨var, rfl⟩
  | none =>
    exfalso
    unfold select_variable at hf
    rw [List.find?_eq_none] at hf
    have hm : v ∈ (List.range s.variable_cnt.length).drop 1 := by
      rw [List.mem_iff_getElem?]
      refine ⟨v - 1, ?_⟩
      rw [List.getElem?_drop, List.getElem?_range (by omega)]
      congr 1; omega
    have := hf v hm
    simp only [decide_eq_true_eq] at this
    exact this h3

theorem negate_front_some (s : State) (var id : Nat) (cs : List Clause)
    (hc : s.clauses = decision s.step var false id :: cs) (hS : s.step < MAX_STEP) :
    ∃ s4, negate_front s = some s4 := by
  unfold negate_front
  rw [hc]
  have he : Literal.exists_ s.step ⟨var, false, s.step, MAX_STEP⟩ = true := by
    simp [Literal.exists_, hS]
  simp only [decision, negate_first, he, if_true]
  exact ⟨_, rfl⟩

theorem solve_impl_not_unknown (fuel : Nat) : ∀ (s : State) (r : state_t) (s' : State),
    solve_impl fuel s = Run.ok (r, s') → r ≠ state_t.UNKNOWN := by
  induction fuel with
  | zero => intro s r s' h; simp [solve_impl] at h
  | succ k ih =>
    intro s r s' h
    obtain ⟨s1, sat, s2, _, _, hcase⟩ := solve_impl_inv k s r s' h
    rcases hcase with ⟨hd, hr, _⟩ | ⟨_, var, _, r1, s3, _, hcase⟩
    · rw [hr]; exact hd
    · rcases hcase with ⟨_, hr, _⟩ | ⟨_, s4, _, s5, h5, _⟩
      · rw [hr]; decide
      · exact ih _ _ _ h5

theorem epilogue_clause_cnt (save : List Int) (r : state_t) (s : State) :
    (epilogue save r s).clause_cnt = s.clause_cnt := by
  unfold epilogue
  split <;> rfl

theorem solve_impl_clause_cnt (fuel : Nat) : ∀ (s : State) (r : state_t) (s' : State),
    solve_impl fuel s = Run.ok (r, s') → s.clause_cnt ≤ s'.clause_cnt := by
  induction fuel with
  | zero => intro s r s' h; simp [solve_impl] at h
  | succ k ih =>
    intro s r s' h
    obtain ⟨s1, sat, s2, h1, h2, hcase⟩ := solve_impl_inv k s r s' h
    obtain ⟨_, _, hcc⟩ := prologue_ids s s1 s2 _ _ sat h1 h2
    rcases hcase with ⟨_, _, hs'⟩ | ⟨_, var, _, r1, s3, h3, hcase⟩
    · rw [hs', epilogue_clause_cnt, hcc]
    · have i1 := ih _ _ _ h3
      have hp : (push_decision s2 var).clause_cnt = s2.clause_cnt + 1 := rfl
      rcases hcase with ⟨_, _, hs'⟩ | ⟨_, s4, h4, s5, h5, hs'⟩
      · rw [hs', epilogue_clause_cnt]
        simp only [pop_front]
        omega
      · have i2 := ih _ _ _ h5
        obtain ⟨c, cs, ls, _, _, h4'⟩ := negate_front_shape s3 s4 h4
        have : s4.clause_cnt = s3.clause_cnt := by rw [h4']
        rw [hs', epilogue_clause_cnt]
        simp only [pop_front]
        omega

theorem idsOk_decision (s : State) (var : Nat) (neg : Bool) (cc : Nat)
    (h : IdsOk s) (hcc : s.clause_cnt < cc) :
    (List.map Clause.id (decision s.step var neg s.clause_cnt :: s.clauses)).Nodup ∧
    ∀ c ∈ decision s.step var neg s.clause_cnt :: s.clauses, c.id < cc := by
  obtain ⟨h1, h2⟩ := h
  constructor
  · simp only [List.map_cons, List.nodup_cons]
    refine ⟨?_, h1⟩
    intro hm
    obtain ⟨c, hc, hid⟩ := List.mem_map.mp hm
    have := h2 c hc
    simp only [decision] at hid
    omega
  · intro c hc
    rcases List.mem_cons.mp hc with hc | hc
    · subst hc; exact hcc
    · have := h2 c hc; omega

theorem unitOver_decision (S var id : Nat) (neg : Bool) (cs : List Clause)
    (hS : S + 1 < MAX_STEP) : UnitOver (S + 1) var (decision S var neg id :: cs) := by
  obtain ⟨e1, e2⟩ := decision_exists S var id neg hS
  refine ⟨decision S var neg id, List.mem_cons_self _ _, e1, ?_,
    ⟨var, neg, S, MAX_STEP⟩, by simp [decision], e2, rfl⟩
  simp [Clause.count, decision, e2]

theorem posVals_decision (S var id : Nat) (neg : Bool) (cs : List Clause) (hv : 1 ≤ var)
    (h : PosVals cs) : PosVals (decision S var neg id :: cs) := by
  intro c hc l hl
  rcases List.mem_cons.mp hc with hc | hc
  · subst hc
    simp only [decision, List.mem_singleton] at hl
    subst hl; exact hv
  · exact h c hc l hl

theorem clauseStep_posVals {S : Nat} {cs cs' : List Clause}
    (h : List.Forall₂ (ClauseStep S) cs cs') (hp : PosVals cs) : PosVals cs' := by
  intro c' hc' l' hl'
  obtain ⟨c, hc, _, _, h3, _⟩ := forall2_mem_right h c' hc'
  obtain ⟨l, hl, hr⟩ := forall2_mem_right h3 l' hl'
  rcases hr with hr | ⟨_, hr⟩
  · rw [hr]; exact hp c hc l hl
  · rw [hr]; exact hp c hc l hl

theorem prologue_posVals (s s1 s2 : State) (n m : Nat) (sat : Bool) (hp : PosVals s.clauses)
    (h1 : unit_loop n { s with step := s.step + 1 } = Run.ok s1)
    (h2 : pure_loop m s1 = Run.ok (sat, s2)) : PosVals s2.clauses := by
  have f1 := unit_loop_induct (fun x => PosVals x.clauses)
    (fun x hx => foldl_invariant (fun st : List Clause × List Int × Bool => PosVals st.1)
      (unit_visit x.step) (fun a b ha => clauseStep_posVals (unit_visit_step x.step a b) ha)
      (List.range x.clauses.length) (x.clauses, x.variable_cnt, false) hx) _ _ _ h1 hp
  exact pure_loop_induct (fun x => PosVals x.clauses)
    (fun x hx => by
      obtain ⟨_, _, _, hs⟩ :=
        pure_clauses_shape x.step x.clauses x.variable_cnt x.pure_literals false
      exact clauseStep_posVals (forall2_imp (fun _ _ h => clauseStep_of_pure h) hs) hx)
    _ _ _ _ h2 f1


theorem positives_pos (N : Nat) (cnt : List Int) (v : Nat) (hv : v < N)
    (h : 0 < tblGet cnt v) : 0 < positives N cnt := by
  unfold positives
  rw [List.countP_pos_iff]
  exact ⟨v, List.mem_range.mpr hv, by simpa using h⟩

theorem positives_le_bound (N : Nat) (cnt : List Int) : positives N cnt ≤ N := by
  unfold positives
  have := List.countP_le_length (fun v => decide (0 < tblGet cnt v)) (l := List.range N)
  simpa using this

theorem idsOk_prologue (s s1 s2 : State) (n m : Nat) (sat : Bool) (h : IdsOk s)
    (h1 : unit_loop n { s with step := s.step + 1 } = Run.ok s1)
    (h2 : pure_loop m s1 = Run.ok (sat, s2)) : IdsOk s2 := by
  obtain ⟨_, i2, i3⟩ := prologue_ids s s1 s2 n m sat h1 h2
  refine ⟨by rw [i2]; exact h.1, ?_⟩
  intro c hc
  have : c.id ∈ s2.clauses.map Clause.id := List.mem_map_of_mem _ hc
  rw [i2] at this
  obtain ⟨c0, hc0, hid⟩ := List.mem_map.mp this
  rw [i3, ← hid]
  exact h.2 c0 hc0

/-- The branch step finds a variable: after the loops of a frame that still has
an existing clause and no falsified one, some variable from 1 on has positive
occurrence. -/
theorem prologue_select (s s1 s2 : State) (n m : Nat)
    (hb : Born s.step s.clauses) (hs : Settled s.step s.clauses)
    (ho : OccAt (s.step + 1) s.clauses s.variable_cnt) (hp : PosVals s.clauses)
    (hlive : ∃ c ∈ s.clauses, c.exists_ (s.step + 1) = true)
    (h1 : unit_loop n { s with step := s.step + 1 } = Run.ok s1)
    (h2 : pure_loop m s1 = Run.ok (false, s2))
    (hne : ¬ ∃ c ∈ s2.clauses, c.exists_ s2.step = true ∧ c.empty s2.step = true) :
    ∃ var, select_variable s2 = some var := by
  obtain ⟨g1, _, _, g4⟩ := prologue_ok s s1 s2 n m false hb hs ho h1 h2
  obtain ⟨l1, l2⟩ := unit_loop_live (s.step + 1) n _ s1 h1 ⟨rfl, hlive⟩
  have he1 : empty s1 = false := (empty_eq_false_iff s1).mpr (by rw [l1]; exact l2)
  have he2 := (pure_loop_quiet m s1 s2 h2).2 he1
  obtain ⟨c, hc, hce⟩ := (empty_eq_false_iff s2).mp he2
  have hcne : c.empty s2.step = false := by
    cases hx : c.empty s2.step with
    | false => rfl
    | true => exact absurd ⟨c, hc, hce, hx⟩ hne
  simp only [Clause.empty, Clause.begin] at hcne
  cases hf : c.literals.find? (Literal.exists_ s2.step) with
  | none => rw [hf] at hcne; simp at hcne
  | some l =>
    have hl := List.mem_of_find?_eq_some hf
    have hle := List.find?_some hf
    rw [g1] at hce hle
    have hpos := occurrences_pos (s.step + 1) l c s2.clauses hc hce hl hle
    have hcnt := g4 l.val
    have hin := occAt_inTable g4 c hc hce l hl hle
    have hpv := prologue_posVals s s1 s2 n m false hp h1 h2 c hc l hl
    exact select_variable_some s2 l.val hpv hin (by omega)

theorem live_size_succ (S : Nat) (cs : List Clause) (hS : S + 1 < MAX_STEP)
    (hb : Born S cs) (hs : Settled S cs) : live_size (S + 1) cs = live_size S cs := by
  induction cs with
  | nil => rfl
  | cons c rest ih =>
    obtain ⟨b1, b2⟩ := hb c (List.mem_cons_self _ _)
    obtain ⟨e1, e2⟩ := hs c (List.mem_cons_self _ _)
    rw [live_size_cons, live_size_cons,
      ih (fun c hx => hb c (List.mem_cons_of_mem _ hx))
        (fun c hx => hs c (List.mem_cons_of_mem _ hx)),
      clause_exists_succ S c hS b1 e1, count_succ S c hS b2 e2]

theorem live_size_decision (S var id : Nat) (neg : Bool) (cs : List Clause)
    (hS : S + 1 < MAX_STEP) :
    live_size (S + 1) (decision S var neg id :: cs) = 2 + live_size (S + 1) cs := by
  obtain ⟨e1, e2⟩ := decision_exists S var id neg hS
  have hc : (decision S var neg id).count (S + 1) = 1 := by
    simp [Clause.count, decision, e2]
  rw [live_size_cons, e1, hc]
  simp

theorem prologue_size_le (s s1 s2 : State) (n m : Nat) (sat : Bool)
    (h1 : unit_loop n { s with step := s.step + 1 } = Run.ok s1)
    (h2 : pure_loop m s1 = Run.ok (sat, s2)) :
    s1.step = s.step + 1 ∧
    live_size (s.step + 1) s1.clauses ≤ live_size (s.step + 1) s.clauses ∧
    live_size (s.step + 1) s2.clauses ≤ live_size (s.step + 1) s.clauses := by
  have f1 := unit_loop_induct
    (fun x => x.step = s.step + 1 ∧
      live_size (s.step + 1) x.clauses ≤ live_size (s.step + 1) s.clauses)
    (fun x hx => ⟨hx.1, by
      have := (unit_propagation_size x).1
      rw [hx.1] at this
      exact le_trans this hx.2⟩) _ _ _ h1 ⟨rfl, le_refl _⟩
  have f2 := pure_loop_induct
    (fun x => x.step = s.step + 1 ∧
      live_size (s.step + 1) x.clauses ≤ live_size (s.step + 1) s.clauses)
    (fun x hx => ⟨hx.1, by
      have := (pure_literal_elimination_size x).1
      rw [hx.1] at this
      exact le_trans this hx.2⟩) _ _ _ _ h2 f1
  exact ⟨f1.1, f1.2, f2.2⟩

/-- One frame of the search returns if its recursive calls do. -/
theorem solve_impl_total_step (N n : Nat)
    (ih : 1 ≤ n → ∀ (t : State) (dv : Option Nat), EntryOk t →
      (∀ var, dv = some var → UnitOver (t.step + 1) var t.clauses) →
      (∀ v, 0 < tblGet t.variable_cnt v → v < N) →
      positives N t.variable_cnt + (if dv = none then 1 else 0) ≤ n →
      t.step + n + 1 < MAX_STEP →
      ∃ fuel r t', fuel ≤ live_size (t.step + 1) t.clauses + 3 * n ∧
        solve_impl fuel t = Run.ok (r, t'))
    (s : State) (dv : Option Nat) (hentry : EntryOk s)
    (hdv : ∀ var, dv = some var → UnitOver (s.step + 1) var s.clauses)
    (hbelow : ∀ v, 0 < tblGet s.variable_cnt v → v < N)
    (hmeasure : positives N s.variable_cnt + (if dv = none then 1 else 0) ≤ n + 1)
    (hbound : s.step + n + 2 < MAX_STEP) :
    ∃ fuel r s', fuel ≤ live_size (s.step + 1) s.clauses + 3 * n + 3 ∧
      solve_impl fuel s = Run.ok (r, s') := by
  obtain ⟨hb, hs, ho, hid, hpv, hlive⟩ := hentry
  obtain ⟨s1, h1⟩ := unit_loop_total (live_size (s.step + 1) s.clauses + 1)
    { s with step := s.step + 1 } (Nat.lt_succ_self _)
  obtain ⟨⟨sat, s2⟩, h2⟩ := pure_loop_total (live_size s1.step s1.clauses + 1) s1
    (Nat.lt_succ_self _)
  have loops : ∀ F, live_size (s.step + 1) s.clauses + 1 ≤ F + 1 →
      live_size s1.step s1.clauses + 1 ≤ F + 1 →
      unit_loop (F + 1) { s with step := s.step + 1 } = Run.ok s1 ∧
      pure_loop (F + 1) s1 = Run.ok (sat, s2) :=
    fun F ha hb => ⟨unit_loop_mono_le _ _ ha _ _ h1, pure_loop_mono_le _ _ hb _ _ h2⟩
  obtain ⟨z1, z2, z3⟩ := prologue_size_le s s1 s2 _ _ sat h1 h2
  rw [z1] at loops
  by_cases hd : detect sat s2 = state_t.UNKNOWN
  · obtain ⟨hsat, hne⟩ := detect_unknown sat s2 hd
    subst hsat
    obtain ⟨g1, g2, g3, g4⟩ := prologue_ok s s1 s2 _ _ false hb hs ho h1 h2
    obtain ⟨var2, hv⟩ := prologue_select s s1 s2 _ _ hb hs ho hpv hlive h1 h2 hne
    obtain ⟨hvlt, hv1, hvpos⟩ := select_variable_lt s2 var2 hv
    have hmono : ∀ v, tblGet s2.variable_cnt v ≤ tblGet s.variable_cnt v := by
      intro v
      have := prologue_occ_le v s s1 s2 _ _ false h1 h2
      rw [g4 v, ho v]
      exact_mod_cast this
    have hbelow2 : ∀ v, 0 < tblGet s2.variable_cnt v → v < N :=
      fun v hv => hbelow v (lt_of_lt_of_le hv (hmono v))
    have hmeas2 : positives N s2.variable_cnt ≤ n := by
      cases hdv' : dv with
      | none =>
        rw [hdv'] at hmeasure
        simp only [if_true] at hmeasure
        have := positives_le N _ _ hmono
        omega
      | some var =>
        rw [hdv'] at hmeasure
        simp only [reduceCtorEq, if_false] at hmeasure
        obtain ⟨V, hV, hVe, hVc, k, hk, hke, hkv⟩ := hdv var hdv'
        have hpos : 0 < tblGet s.variable_cnt var := by
          have := occurrences_pos (s.step + 1) k V s.clauses hV hVe hk hke
          rw [ho var, ← hkv]
          exact_mod_cast this
        rw [g1] at hne
        have hzero := branch_count_zero s s1 s2 _ _ var hb hs ho hid.1
          (Or.inr ⟨V, hV, hVe, hVc, k, hk, hke, hkv⟩) h1 h2 hne
        have := positives_lt N _ _ hmono var (hbelow var hpos) hpos hzero
        omega
    have hn1 : 1 ≤ n := by
      have := positives_pos N s2.variable_cnt var2 (hbelow2 var2 hvpos) hvpos
      omega
    have hS : s.step + 1 + 1 < MAX_STEP := by omega
    have hid2 := idsOk_prologue s s1 s2 _ _ false hid h1 h2
    have hpv2 := prologue_posVals s s1 s2 _ _ false hpv h1 h2
    obtain ⟨p1, p2, p3, _, _⟩ := push_decision_clauses s2 var2
    have pcc : (push_decision s2 var2).clause_cnt = s2.clause_cnt + 1 := rfl
    obtain ⟨t1, t2⟩ := positives_tblAdd N s2.variable_cnt var2 hvpos
    have pb : Born (push_decision s2 var2).step (push_decision s2 var2).clauses := by
      rw [p1, p2]; exact born_decision _ _ _ _ _ (by rw [g1]; exact g2)
    have ps : Settled (push_decision s2 var2).step (push_decision s2 var2).clauses := by
      rw [p1, p2]; exact settled_decision _ _ _ _ _ (by rw [g1]; exact g3)
    have entry1 : EntryOk (push_decision s2 var2) := by
      refine ⟨pb, ps, ?_, ?_, ?_, ?_⟩
      · rw [p1, p2, p3, g1]
        exact occAt_decision _ _ _ _ _ _ hS g2 g3 g4 hvlt
      · have := idsOk_decision s2 var2 false (s2.clause_cnt + 1) hid2 (Nat.lt_succ_self _)
        exact ⟨by rw [p1]; exact this.1, by rw [p1, pcc]; exact this.2⟩
      · rw [p1]; exact posVals_decision _ _ _ _ _ hv1 hpv2
      · rw [p1, p2, g1]
        exact ⟨_, List.mem_cons_self _ _, (decision_exists _ var2 _ false hS).1⟩
    obtain ⟨f1, r1, s3, hf1, h3⟩ := ih hn1 (push_decision s2 var2) (some var2) entry1
      (fun var hvar => by
        simp only [Option.some.injEq] at hvar
        subst hvar
        rw [p1, p2, g1]
        exact unitOver_decision _ _ _ _ _ hS)
      (fun v hv => hbelow2 v (by rw [p3] at hv; exact (t2 v).mp hv))
      (by rw [p3, t1]; simp only [reduceCtorEq, if_false]; omega)
      (by rw [p2, g1]; omega)
    have hsz : live_size (s.step + 1 + 1) s2.clauses ≤ live_size (s.step + 1) s.clauses := by
      rw [live_size_succ _ _ hS g2 g3]; exact z3
    rw [p1, p2, g1, live_size_decision _ _ _ _ _ hS] at hf1
    by_cases hr1 : r1 = state_t.SAT
    · subst hr1
      obtain ⟨l1, l2⟩ := loops (max (max (live_size (s.step + 1) s.clauses)
        (live_size (s.step + 1) s1.clauses)) f1) (by omega) (by omega)
      exact ⟨_, _, _, by omega, solve_impl_first _ s s1 s2 s3 false var2 l1 l2 hd hv
        (solve_impl_mono_le f1 _ (by omega) _ _ h3)⟩
    · obtain ⟨f1', f2', f3'⟩ := solve_impl_frame _ _ _ _ ps h3
      have hcc3 := solve_impl_clause_cnt _ _ _ _ h3
      have hc3 : s3.clauses = decision s3.step var2 false s2.clause_cnt :: s2.clauses := by
        rw [f2', f1', p1, p2]
      have hs3 : s3.step = s.step + 1 := by rw [f1', p2, g1]
      obtain ⟨s4, h4⟩ := negate_front_some s3 var2 _ _ hc3 (by rw [hs3]; omega)
      have h4' := negate_front_decision s3 s4 var2 _ _ hc3 (by rw [hs3]; omega) h4
      have q1 : s4.clauses = decision (s.step + 1) var2 true s2.clause_cnt :: s2.clauses := by
        rw [h4', hs3]
      have q2 : s4.step = s.step + 1 := by rw [h4']; exact hs3
      have q3 : s4.variable_cnt = tblAdd s2.variable_cnt var2 1 := by
        rw [h4']; simp only; rw [f3', p3]
      have qcc : s2.clause_cnt < s4.clause_cnt := by
        have : s4.clause_cnt = s3.clause_cnt := by rw [h4']
        rw [pcc] at hcc3
        omega
      have entry2 : EntryOk s4 := by
        refine ⟨?_, ?_, ?_, ?_, ?_, ?_⟩
        · rw [q1, q2]; exact born_decision _ _ _ _ _ g2
        · rw [q1, q2]; exact settled_decision _ _ _ _ _ g3
        · rw [q1, q2, q3]
          exact occAt_decision _ _ _ _ _ _ hS g2 g3 g4 hvlt
        · have := idsOk_decision s2 var2 true s4.clause_cnt hid2 qcc
          rw [g1] at this
          exact ⟨by rw [q1]; exact this.1, by rw [q1]; exact this.2⟩
        · rw [q1]; exact posVals_decision _ _ _ _ _ hv1 hpv2
        · rw [q1, q2]
          exact ⟨_, List.mem_cons_self _ _, (decision_exists _ var2 _ true hS).1⟩
      obtain ⟨f2, r, s5, hf2, h5⟩ := ih hn1 s4 (some var2) entry2
        (fun var hvar => by
          simp only [Option.some.injEq] at hvar
          subst hvar
          rw [q1, q2]
          exact unitOver_decision _ _ _ _ _ hS)
        (fun v hv => hbelow2 v (by rw [q3] at hv; exact (t2 v).mp hv))
        (by rw [q3, t1]; simp only [reduceCtorEq, if_false]; omega)
        (by rw [q2]; omega)
      rw [q1, q2, live_size_decision _ _ _ _ _ hS] at hf2
      obtain ⟨l1, l2⟩ := loops (max (max (live_size (s.step + 1) s.clauses)
        (live_size (s.step + 1) s1.clauses)) (max f1 f2)) (by omega) (by omega)
      exact ⟨_, _, _, by omega, solve_impl_second _ s s1 s2 s3 s4 s5 false var2 r1 r l1 l2 hd hv
        (solve_impl_mono_le f1 _ (by omega) _ _ h3) hr1 h4
        (solve_impl_mono_le f2 _ (by omega) _ _ h5)⟩
  · obtain ⟨l1, l2⟩ := loops (max (live_size (s.step + 1) s.clauses)
      (live_size (s.step + 1) s1.clauses)) (by omega) (by omega)
    exact ⟨_, _, _, by omega, solve_impl_leaf _ s s1 s2 sat l1 l2 hd⟩

/-- Every call entered in a state that satisfies the entry invariant returns,
provided the step counter has room for as many levels as there are variables
with positive occurrence. -/
theorem solve_impl_total (N : Nat) (n : Nat) : ∀ (s : State) (dv : Option Nat),
    EntryOk s →
    (∀ var, dv = some var → UnitOver (s.step + 1) var s.clauses) →
    (∀ v, 0 < tblGet s.variable_cnt v → v < N) →
    positives N s.variable_cnt + (if dv = none then 1 else 0) ≤ n + 1 →
    s.step + n + 2 < MAX_STEP →
    ∃ fuel r s', fuel ≤ live_size (s.step + 1) s.clauses + 3 * n + 3 ∧
      solve_impl fuel s = Run.ok (r, s') := by
  induction n with
  | zero =>
    intro s dv hentry hdv hbelow hmeasure hbound
    exact solve_impl_total_step N 0 (fun h => absurd h (by omega)) s dv hentry hdv
      hbelow hmeasure hbound
  | succ k ih =>
    intro s dv hentry hdv hbelow hmeasure hbound
    exact solve_impl_total_step N (k + 1)
      (fun _ t dv' a b c d e => by
        obtain ⟨fuel, r, t', hf, ht⟩ := ih t dv' a b c d (by omega)
        exact ⟨fuel, r, t', by omega, ht⟩) s dv
      hentry hdv hbelow hmeasure hbound

/-- Totality away from the empty formula: on a well-formed formula with at
least one clause, distinct clause identities and variable ids from 1, `solve()`
returns for a fuel bounded by the size of the formula, and the verdict it
records is SATISFIABLE or UNSATISFIABLE. -/
theorem solve_total (s : State) (hwf : WellFormed s) (hids : IdsOk s)
    (hpos : PosVals s.clauses) (hne : s.clauses ≠ [])
    (hlen : s.variable_cnt.length + 3 < MAX_STEP) :
    ∃ fuel s', fuel ≤ live_size 1 s.clauses + 3 * s.variable_cnt.length + 3 ∧
      solve fuel s = Run.ok s' ∧
      (s'.solution_state = state_t.SAT ∨ s'.solution_state = state_t.UNSAT) := by
  obtain ⟨hb, hs, ho⟩ := wellFormed_start s hwf
  have hlive : ∃ c ∈ s.clauses, c.exists_ 1 = true := by
    cases hc : s.clauses with
    | nil => exact absurd hc hne
    | cons c rest =>
      obtain ⟨h1, h2, _⟩ := hwf.1 c (by rw [hc]; exact List.mem_cons_self _ _)
      exact ⟨c, List.mem_cons_self _ _, by simp [Clause.exists_, h1, h2, MAX_STEP]⟩
  obtain ⟨fuel, r, s1, hfuel, h⟩ := solve_impl_total s.variable_cnt.length s.variable_cnt.length
    { s with step := 0 } none ⟨hb, hs, ho, hids, hpos, hlive⟩
    (fun var hvar => by cases hvar)
    (fun v hv => by
      by_contra hge
      have : tblGet s.variable_cnt v = 0 := tblGet_of_le _ _ (by omega)
      simp only at hv
      omega)
    (by
      have := positives_le_bound s.variable_cnt.length s.variable_cnt
      simp only [if_true]
      omega)
    (by simp only; omega)
  refine ⟨fuel, { s1 with solution_state := r }, hfuel, ?_, ?_⟩
  · simp only [solve, h]
  · have := solve_impl_not_unknown fuel _ r s1 h
    cases r with
    | UNKNOWN => exact absurd rfl this
    | UNSAT => exact Or.inr rfl
    | SAT => exact Or.inl rfl


/-! ## The repeated literal and the branching heuristic (claims C11, C12) -/

/-- Claim C11, as stated, fails on `(x1 ∨ x1)`: the occurrence of x1 in the
table `from_file` returns is not 1, `pure_literal_elimination` at the root
reports no change and leaves the clause in existence, and the solver goes on
to branch on x1. -/
theorem C11_repeated_literal_counted_twice :
    from_file repeated_literal = Run.ok repeated_state ∧
    tblGet repeated_state.variable_cnt 1 ≠ 1 ∧
    (pure_literal_elimination repeated_root).1 = false ∧
    (∃ c ∈ (pure_literal_elimination repeated_root).2.clauses, c.exists_ 1 = true) ∧
    detect false repeated_root = state_t.UNKNOWN ∧
    select_variable repeated_root = some 1 := by
  refine ⟨by decide, by decide, by decide, ?_, by decide, by decide⟩
  exact ⟨⟨[⟨1, false, 0, MAX_STEP⟩, ⟨1, false, 0, MAX_STEP⟩], 0, MAX_STEP, 0⟩, by decide,
    by decide⟩

/-- Claim C11, amended: on `(x1 ∨ x1)` both occurrences are counted, the
occurrence of x1 is 2 (in the table and in a scan of the clauses), neither sweep
changes anything at the root, the solver branches on x1, unit propagation of
the decision clause changes the formula in the child frame, and the verdict is
SATISFIABLE with the solution `x1`. -/
theorem C11_repeated_literal_branches :
    from_file repeated_literal = Run.ok repeated_state ∧
    tblGet repeated_state.variable_cnt 1 = 2 ∧
    occurrences 1 1 repeated_state.clauses = 2 ∧
    unit_propagation repeated_root = (false, repeated_root) ∧
    pure_literal_elimination repeated_root = (false, repeated_root) ∧
    detect false repeated_root = state_t.UNKNOWN ∧
    select_variable repeated_root = some 1 ∧
    (unit_propagation { push_decision repeated_root 1 with step := 2 }).1 = true ∧
    (∀ fuel, 3 ≤ fuel → verdict (run_file fuel repeated_literal) = some state_t.SAT ∧
      (produced (run_file fuel repeated_literal)).map Literal.value = [1]) := by
  have hf : from_file repeated_literal = Run.ok repeated_state := by decide
  refine ⟨hf, by decide, by decide, by decide, by decide, by decide, by decide, by decide, ?_⟩
  intro fuel h
  have h2 : solve 3 repeated_state = Run.ok { repeated_state with
      clause_cnt := 2, solution := [⟨1, false, 1, MAX_STEP⟩], solution_state := state_t.SAT } := by
    decide
  have h3 := solve_mono_le 3 fuel h _ _ h2
  simp only [run_file, hf, h3, verdict, produced]
  exact ⟨trivial, by decide⟩

/-- Every index from 1 below the one `select_variable` returns has an
occurrence that is not positive. -/
theorem select_variable_first (s : State) (var : Nat) (h : select_variable s = some var) :
    ∀ v, 1 ≤ v → v < var → tblGet s.variable_cnt v ≤ 0 := by
  intro v h1 h2
  unfold select_variable at h
  by_contra hpos
  push_neg at hpos
  have hlt := (select_variable_lt s var h).1
  rw [List.find?_eq_some] at h
  obtain ⟨_, as, bs, hab, hall⟩ := h
  have hv : v ∈ List.drop 1 (List.range s.variable_cnt.length) := by
    rw [List.mem_iff_getElem?]
    exact ⟨v - 1, by rw [List.getElem?_drop, List.getElem?_range (by omega)]; congr 1; omega⟩
  have hpair : (List.drop 1 (List.range s.variable_cnt.length)).Pairwise (· < ·) :=
    (List.pairwise_lt_range _).sublist (List.drop_sublist _ _)
  rw [hab] at hv hpair
  rcases List.mem_append.1 hv with hv | hv
  · have := hall v hv
    simp at this
    omega
  · rw [List.pairwise_append] at hpair
    rcases List.mem_cons.1 hv with hv | hv
    · omega
    · have := (List.pairwise_cons.1 hpair.2.1).1 v hv
      omega

/-- Claim C12: when some variable with index at least 1 has positive
occurrence, `select_variable` returns an index: it is at least 1, its
occurrence is positive, and every smaller index from 1 has an occurrence that
is not positive. -/
theorem C12_select_variable_smallest (s : State)
    (h : ∃ v, 1 ≤ v ∧ 0 < tblGet s.variable_cnt v) :
    ∃ var, select_variable s = some var ∧ 1 ≤ var ∧ 0 < tblGet s.variable_cnt var ∧
      ∀ v, 1 ≤ v → v < var → tblGet s.variable_cnt v ≤ 0 := by
  obtain ⟨v, h1, h3⟩ := h
  have h2 : v < s.variable_cnt.length := by
    by_contra hge
    rw [tblGet_of_le _ _ (by omega)] at h3
    exact absurd h3 (lt_irrefl 0)
  obtain ⟨var, hvar⟩ := select_variable_some s v h1 h2 h3
  obtain ⟨_, g1, g2⟩ := select_variable_lt s var hvar
  exact ⟨var, hvar, g1, g2, select_variable_first s var hvar⟩

/-- Claim C12 on the table `[5, 0, 3, 1]`: index 0 is never looked at, index 1
has occurrence 0, and the answer is 2. -/
theorem C12_select_variable_smallest_witness :
    select_variable { four_root with variable_cnt := [5, 0, 3, 1] } = some 2 ∧
    ∃ var, select_variable { four_root with variable_cnt := [5, 0, 3, 1] } = some var ∧
      1 ≤ var ∧ 0 < tblGet [5, 0, 3, 1] var ∧
      ∀ v, 1 ≤ v → v < var → tblGet [5, 0, 3, 1] v ≤ 0 :=
  ⟨by decide, C12_select_variable_smallest { four_root with variable_cnt := [5, 0, 3, 1] }
    ⟨3, by decide, by decide⟩⟩


/-! ## Unit clauses through a pass of unit propagation (claims C13, C17) -/

/-- Related lists are related position by position. -/
theorem forall2_get {α : Type} {R : α → α → Prop} {xs ys : List α}
    (h : List.Forall₂ R xs ys) : ∀ (i : Nat) (x : α), xs.get? i = some x →
    ∃ y, ys.get? i = some y ∧ R x y := by
  induction h with
  | nil => intro i x hx; cases hx
  | cons hr _ ih =>
    intro i x hx
    cases i with
    | zero =>
      simp only [List.get?_cons_zero, Option.some.injEq] at hx
      subst hx
      exact ⟨_, rfl, hr⟩
    | succ j => exact ih j x hx

/-- Lists related by a relation that forces equality are equal. -/
theorem forall2_eq {α : Type} {R : α → α → Prop} {xs ys : List α}
    (h : List.Forall₂ R xs ys) : (∀ x ∈ xs, ∀ y, R x y → y = x) → ys = xs := by
  induction h with
  | nil => intro _; rfl
  | cons hr _ ih =>
    intro hx
    rw [hx _ (List.mem_cons_self _ _) _ hr, ih (fun x hm => hx x (List.mem_cons_of_mem _ hm))]

/-- A sweep for the unit literal `u` leaves a clause as it is when none of its
existing literals is over the variable of `u`. -/
theorem clauseProp_untouched {S : Nat} {u : Literal} {uid : Nat} {c c' : Clause}
    (h : ClauseProp S u uid c c')
    (hne : ∀ l ∈ c.literals, l.exists_ S = true → l.val ≠ u.val) : c' = c := by
  obtain ⟨h1, h2, h3, h4, _⟩ := h
  have hl : c'.literals = c.literals := by
    refine forall2_eq h3 ?_
    intro a ha b hab
    rcases hab with hh | ⟨he, hq, _⟩
    · exact hh
    · exact absurd (lit_eq_val hq) (hne a ha he)
  have he : c'.lifetime_end = c.lifetime_end := by
    rcases h4 with h4 | ⟨_, _, l, hl1, hl2, hl3⟩
    · exact h4
    · exact absurd (lit_eq_val hl3) (hne l hl1 hl2)
  cases c; cases c'
  simp only at h1 h2 hl he
  simp [h1, h2, hl, he]


/-- The sweep of `unit_propagation` for the unit clause with identity `uid`
leaves every clause with that identity as it is. -/
theorem unit_others_self (S : Nat) (u : Literal) (uid : Nat) (cs : List Clause) (cnt : List Int)
    (m : Bool) (j : Nat) (c : Clause) (hj : cs.get? j = some c) (hid : c.id = uid) :
    (unit_others S u uid cs cnt m).1.get? j = some c := by
  obtain ⟨c', hc', hp⟩ := forall2_get (unit_others_shape S u uid cs cnt m).1 j c hj
  rw [hc', hp.2.2.2.2 (Or.inr hid)]

/-- What the outer loop of `unit_propagation` keeps true when the unit clause
`U` at position `i`, with the literal `u`, shares its variable with no other
existing clause. -/
theorem unit_visit_solo (S : Nat) (U : Clause) (i : Nat) (u : Literal)
    (hUc : U.count S = 1) (hu : U.begin S = some u)
    (st : List Clause × List Int × Bool) (j : Nat)
    (h : st.1.get? i = some U ∧ ∀ c ∈ st.1, c.id ≠ U.id → c.exists_ S = true →
      ∀ l ∈ c.literals, l.exists_ S = true → l.val ≠ u.val) :
    (unit_visit S st j).1.get? i = some U ∧ ∀ c ∈ (unit_visit S st j).1, c.id ≠ U.id →
      c.exists_ S = true → ∀ l ∈ c.literals, l.exists_ S = true → l.val ≠ u.val := by
  obtain ⟨h1, h2⟩ := h
  have hstep := unit_visit_step S st j
  refine ⟨?_, ?_⟩
  · unfold unit_visit
    cases hg : st.1.get? j with
    | none => exact h1
    | some clause =>
      simp only
      cases hcond : (clause.exists_ S && decide (clause.count S = 1)) with
      | false => exact h1
      | true =>
        simp only [if_true]
        cases hb : clause.begin S with
        | none => exact h1
        | some k =>
          simp only
          simp only [Bool.and_eq_true, decide_eq_true_eq] at hcond
          obtain ⟨U', hU', hp⟩ :=
            forall2_get (unit_others_shape S k clause.id st.1 st.2.1 st.2.2).1 i U h1
          rw [hU']
          congr 1
          by_cases hid : U.id = clause.id
          · exact hp.2.2.2.2 (Or.inr hid)
          · apply clauseProp_untouched hp
            intro l hl hle
            have hlu : l = u := unique_of_filter_one _ _ u l hUc hu hl hle
            have hk := h2 clause (List.get?_mem hg) (fun hh => hid hh.symm) hcond.1 k
              (List.mem_of_find?_eq_some hb) (List.find?_some hb)
            rw [hlu]
            exact fun hh => hk hh.symm
  · intro c' hc' hid hce l' hl' hle
    obtain ⟨c, hc, g1, g2, g3, g4⟩ := forall2_mem_right hstep c' hc'
    have hce0 : c.exists_ S = true := by
      rcases g4 with g4 | ⟨g4, _⟩
      · simp only [Clause.exists_] at hce ⊢
        rw [← g1, ← g4]; exact hce
      · exact g4
    obtain ⟨l, hl, hr⟩ := forall2_mem_right g3 l' hl'
    rcases hr with hr | ⟨_, hr⟩
    · rw [hr] at hle ⊢
      exact h2 c hc (by rw [← g2]; exact hid) hce0 l hl hle
    · rw [hr, lit_exists_remove] at hle
      exact absurd hle (by decide)

/-- A unit clause whose variable has no existing literal in another existing
clause goes through `unit_propagation` unchanged. -/
theorem unit_propagation_solo (s : State) (U : Clause) (i : Nat) (u : Literal)
    (hi : s.clauses.get? i = some U) (hUc : U.count s.step = 1) (hu : U.begin s.step = some u)
    (hsolo : ∀ c ∈ s.clauses, c.id ≠ U.id → c.exists_ s.step = true →
      ∀ l ∈ c.literals, l.exists_ s.step = true → l.val ≠ u.val) :
    (unit_propagation s).2.clauses.get? i = some U :=
  (foldl_invariant
    (fun st : List Clause × List Int × Bool =>
      st.1.get? i = some U ∧ ∀ c ∈ st.1, c.id ≠ U.id → c.exists_ s.step = true →
        ∀ l ∈ c.literals, l.exists_ s.step = true → l.val ≠ u.val)
    (unit_visit s.step) (fun st j h => unit_visit_solo s.step U i u hUc hu st j h)
    (List.range s.clauses.length) (s.clauses, s.variable_cnt, false) ⟨hi, hsolo⟩).1

/-- Claim C13, as stated, fails: of the two unit clauses `(x1)`, `(x1)` the
second exists with one existing literal before the pass and does not exist
after it; of `(x1)`, `(¬x1)` the second still exists after the pass but its
literal does not. -/
theorem C13_twin_unit_clause_removed :
    (∃ c, twin_units.clauses.get? 1 = some c ∧ c.exists_ 1 = true ∧ c.count 1 = 1 ∧
      ∃ c', (unit_propagation twin_units).2.clauses.get? 1 = some c' ∧ c'.exists_ 1 = false) ∧
    (∃ c, opposite_units.clauses.get? 1 = some c ∧ c.exists_ 1 = true ∧ c.count 1 = 1 ∧
      ∃ c', (unit_propagation opposite_units).2.clauses.get? 1 = some c' ∧
        c'.exists_ 1 = true ∧ c'.count 1 = 0) :=
  ⟨⟨_, rfl, by decide, by decide, _, rfl, by decide⟩,
   ⟨_, rfl, by decide, by decide, _, rfl, by decide, by decide⟩⟩

/-- On `(x1) ∧ (x2) ∧ (¬x2 ∨ x3)` the pass changes the formula and leaves the
unit clause `(x1)`, whose variable occurs nowhere else, as it is. -/
theorem solo_example_untouched :
    (unit_propagation solo_example).1 = true ∧
    (unit_propagation solo_example).2.clauses.get? 0 = solo_example.clauses.get? 0 :=
  ⟨by decide, unit_propagation_solo solo_example ⟨[⟨1, false, 0, MAX_STEP⟩], 0, MAX_STEP, 0⟩
    0 ⟨1, false, 0, MAX_STEP⟩ rfl (by decide) (by decide) (by decide)⟩

/-- Before the first visit the loop holds the state of the object. -/
theorem unit_upto_zero (s : State) :
    unit_upto s 0 = (s.clauses, s.variable_cnt, false) := rfl

/-- Reaching position `j + 1` is reaching position `j` and visiting it. -/
theorem unit_upto_succ (s : State) (j : Nat) :
    unit_upto s (j + 1) = unit_visit s.step (unit_upto s j) j := by
  simp only [unit_upto, List.range_succ, List.foldl_append, List.foldl_cons, List.foldl_nil]

/-- The pass is the loop run up to the end of the clause list. -/
theorem unit_propagation_upto (s : State) :
    (unit_propagation s).2.clauses = (unit_upto s s.clauses.length).1 := rfl

/-- The loop neither adds nor drops a clause. -/
theorem unit_upto_length (s : State) (j : Nat) :
    (unit_upto s j).1.length = s.clauses.length := by
  induction j with
  | zero => rfl
  | succ k ih =>
    rw [unit_upto_succ, ← ih]
    exact (List.Forall₂.length_eq (unit_visit_step s.step (unit_upto s k) k)).symm

/-- The visit of position `i` leaves the clause at position `i` as it is: the
clause under the cursor is skipped by its own sweep. -/
theorem unit_visit_self (S : Nat) (st : List Clause × List Int × Bool) (i : Nat) :
    (unit_visit S st i).1.get? i = st.1.get? i := by
  unfold unit_visit
  cases hg : st.1.get? i with
  | none => simp only [hg]
  | some clause =>
    simp only
    cases hcond : (clause.exists_ S && decide (clause.count S = 1)) with
    | false => simp only [Bool.false_eq_true, if_false, hg]
    | true =>
      simp only [if_true]
      cases hb : clause.begin S with
      | none => simp only [hg]
      | some k =>
        simp only
        exact unit_others_self S k clause.id st.1 st.2.1 st.2.2 i clause hg rfl

/-- One visit of the outer loop leaves the unit clause `U` at position `i` as it
is, unless the clause under the cursor has another identity and is a unit
clause over the variable of the literal of `U`. -/
theorem unit_visit_rival (S : Nat) (U : Clause) (i : Nat) (u : Literal)
    (hUc : U.count S = 1) (hu : U.begin S = some u)
    (st : List Clause × List Int × Bool) (j : Nat) (h : st.1.get? i = some U)
    (hr : ∀ W k, st.1.get? j = some W → W.exists_ S = true → W.count S = 1 →
      W.begin S = some k → W.id ≠ U.id → k.val ≠ u.val) :
    (unit_visit S st j).1.get? i = some U := by
  unfold unit_visit
  cases hg : st.1.get? j with
  | none => exact h
  | some clause =>
    simp only
    cases hcond : (clause.exists_ S && decide (clause.count S = 1)) with
    | false => exact h
    | true =>
      simp only [if_true]
      cases hb : clause.begin S with
      | none => exact h
      | some k =>
        simp only
        simp only [Bool.and_eq_true, decide_eq_true_eq] at hcond
        obtain ⟨U', hU', hp⟩ :=
          forall2_get (unit_others_shape S k clause.id st.1 st.2.1 st.2.2).1 i U h
        rw [hU']
        congr 1
        by_cases hid : U.id = clause.id
        · exact hp.2.2.2.2 (Or.inr hid)
        · apply clauseProp_untouched hp
          intro l hl hle
          have hlu : l = u := unique_of_filter_one _ _ u l hUc hu hl hle
          have hk := hr clause k hg hcond.1 hcond.2 hb (fun hh => hid hh.symm)
          rw [hlu]
          exact fun hh => hk hh.symm

/-- A unit clause goes through the pass unchanged unless a clause with another
identity is, when the cursor reaches it, a unit clause over the same
variable. -/
theorem unit_propagation_rival (s : State) (U : Clause) (i : Nat) (u : Literal)
    (hi : s.clauses.get? i = some U) (hUc : U.count s.step = 1) (hu : U.begin s.step = some u)
    (hr : ∀ j W k, (unit_upto s j).1.get? j = some W → W.exists_ s.step = true →
      W.count s.step = 1 → W.begin s.step = some k → W.id ≠ U.id → k.val ≠ u.val) :
    (unit_propagation s).2.clauses.get? i = some U := by
  have hall : ∀ j, (unit_upto s j).1.get? i = some U := by
    intro j
    induction j with
    | zero => exact hi
    | succ k ih =>
      rw [unit_upto_succ]
      exact unit_visit_rival s.step U i u hUc hu _ k ih (hr k)
  rw [unit_propagation_upto]
  exact hall _

/-- Claim C13, amended: the visit of the outer loop of `unit_propagation` at a
position leaves the clause at that position as it is (a unit clause is not
touched by its own propagation); and a clause that exists with exactly one
existing literal when the pass starts is unchanged when the pass ends, unless
a clause with another identity is, when the cursor reaches it, an existing unit
clause whose literal is over the same variable. -/
theorem C13_unit_clause_untouched :
    (∀ (S : Nat) (st : List Clause × List Int × Bool) (i : Nat),
      (unit_visit S st i).1.get? i = st.1.get? i) ∧
    (∀ (s : State) (U : Clause) (i : Nat) (u : Literal), s.clauses.get? i = some U →
      U.exists_ s.step = true → U.count s.step = 1 → U.begin s.step = some u →
      (∀ (j : Nat) (W : Clause) (k : Literal), (unit_upto s j).1.get? j = some W →
        W.exists_ s.step = true → W.count s.step = 1 → W.begin s.step = some k →
        W.id ≠ U.id → k.val ≠ u.val) →
      (unit_propagation s).2.clauses.get? i = some U) :=
  ⟨unit_visit_self, fun s U i u hi _ hUc hu hr => unit_propagation_rival s U i u hi hUc hu hr⟩

/-- In the pass over `(x1) ∧ (¬x1 ∨ x2)` the only clause other than `(x1)` is,
when the cursor reaches it, the unit clause `(x2)`. -/
theorem unit_example_rivals (j : Nat) (W : Clause) (k : Literal)
    (hW : (unit_upto unit_example j).1.get? j = some W)
    (hb : W.begin unit_example.step = some k) (hid : W.id ≠ 0) : k.val ≠ 1 := by
  rcases j with _ | _ | j
  · have h0 : (unit_upto unit_example 0).1.get? 0 =
        some ⟨[⟨1, false, 0, MAX_STEP⟩], 0, MAX_STEP, 0⟩ := by decide
    rw [h0] at hW
    cases hW
    exact absurd rfl hid
  · have h1 : (unit_upto unit_example 1).1.get? 1 =
        some ⟨[⟨1, true, 0, 1⟩, ⟨2, false, 0, MAX_STEP⟩], 0, MAX_STEP, 1⟩ := by decide
    rw [h1] at hW
    cases hW
    have h2 : Clause.begin unit_example.step
        ⟨[⟨1, true, 0, 1⟩, ⟨2, false, 0, MAX_STEP⟩], 0, MAX_STEP, 1⟩ =
        some ⟨2, false, 0, MAX_STEP⟩ := by decide
    rw [h2] at hb
    cases hb
    decide
  · have hlen := unit_upto_length unit_example (j + 1 + 1)
    have hnone : (unit_upto unit_example (j + 1 + 1)).1.get? (j + 1 + 1) = none := by
      rw [List.get?_eq_none]
      rw [hlen]
      simp [unit_example]
    rw [hnone] at hW
    cases hW

/-- Claim C13, amended, on `(x1) ∧ (¬x1 ∨ x2)`: the unit clause `(x1)`
propagates, the second clause loses `¬x1`, and `(x1)` is as it was when the
pass ends. -/
theorem C13_unit_clause_untouched_witness :
    (unit_propagation unit_example).1 = true ∧
    (unit_propagation unit_example).2.clauses.get? 1 ≠ unit_example.clauses.get? 1 ∧
    (unit_propagation unit_example).2.clauses.get? 0 =
      some ⟨[⟨1, false, 0, MAX_STEP⟩], 0, MAX_STEP, 0⟩ :=
  ⟨by decide, by decide,
    C13_unit_clause_untouched.2 unit_example ⟨[⟨1, false, 0, MAX_STEP⟩], 0, MAX_STEP, 0⟩ 0
      ⟨1, false, 0, MAX_STEP⟩ rfl (by decide) (by decide) (by decide)
      (fun j W k hW _ _ hb hid => unit_example_rivals j W k hW hb hid)⟩

/-- Undoing a sweep for a unit literal that is true under `a` keeps `a` a
model: a removed clause holds the unit literal, a removed literal is not needed. -/
theorem clauseProp_models_back {S : Nat} {a : Nat → Bool} {u : Literal} {uid : Nat}
    {cs cs' : List Clause} (hu : u.holds a = true)
    (h : List.Forall₂ (ClauseProp S u uid) cs cs') (hm : Models S a cs') : Models S a cs := by
  intro c hc hce
  obtain ⟨c', hc', h1, _, h3, h4, _⟩ := forall2_mem_left h c hc
  rcases h4 with h4 | ⟨_, _, l, hl1, hl2, hl3⟩
  · have hce' : c'.exists_ S = true := by
      simp only [Clause.exists_] at hce ⊢
      rw [h1, h4]; exact hce
    obtain ⟨l', hl', hle', hh⟩ := hm c' hc' hce'
    obtain ⟨l, hl, hr⟩ := forall2_mem_right h3 l' hl'
    rcases hr with hr | ⟨_, _, hr⟩
    · exact ⟨l, hl, by rw [← hr]; exact hle', by rw [← hr]; exact hh⟩
    · rw [hr, lit_exists_remove] at hle'
      exact absurd hle' (by decide)
  · exact ⟨l, hl1, hl2, holds_of_eq a l u hl3 hu⟩

/-- One visit of the outer loop of `unit_propagation` loses no model: the unit
clause is skipped by its own sweep, so its literal is true under any model of
the result. -/
theorem unit_visit_models_back (S : Nat) (a : Nat → Bool) (st : List Clause × List Int × Bool)
    (i : Nat) (h : Models S a (unit_visit S st i).1) : Models S a st.1 := by
  unfold unit_visit at h
  cases hg : st.1.get? i with
  | none => rw [hg] at h; exact h
  | some clause =>
    rw [hg] at h
    simp only at h
    cases hcond : (clause.exists_ S && decide (clause.count S = 1)) with
    | false => rw [hcond] at h; exact h
    | true =>
      rw [hcond] at h
      simp only [if_true] at h
      cases hb : clause.begin S with
      | none => rw [hb] at h; exact h
      | some unit_lit =>
        rw [hb] at h
        simp only at h
        simp only [Bool.and_eq_true, decide_eq_true_eq] at hcond
        have hshape := (unit_others_shape S unit_lit clause.id st.1 st.2.1 st.2.2).1
        obtain ⟨c', hc', hp⟩ := forall2_mem_left hshape clause (List.get?_mem hg)
        have hcc : c' = clause := hp.2.2.2.2 (Or.inr rfl)
        rw [hcc] at hc'
        obtain ⟨l, hl, hle, hh⟩ := h clause hc' hcond.1
        have hlu : l = unit_lit := unique_of_filter_one _ _ unit_lit l hcond.2 hb hl hle
        rw [hlu] at hh
        exact clauseProp_models_back hh hshape h

/-- The formulas before and after `unit_propagation` have the same models. -/
theorem unit_propagation_models_iff (a : Nat → Bool) (s : State) :
    Models s.step a s.clauses ↔ Models s.step a (unit_propagation s).2.clauses :=
  foldl_invariant
    (fun st : List Clause × List Int × Bool => Models s.step a s.clauses ↔ Models s.step a st.1)
    (unit_visit s.step)
    (fun st i h => h.trans ⟨unit_visit_models s.step a st i, unit_visit_models_back s.step a st i⟩)
    (List.range s.clauses.length) (s.clauses, s.variable_cnt, false) Iff.rfl

/-- Claim C17: a total assignment satisfies every existing clause through an
existing literal before a call of `unit_propagation` if and only if it does so
after the call. -/
theorem C17_unit_propagation_keeps_models (s : State) (a : Nat → Bool) :
    Models s.step a s.clauses ↔
      Models (unit_propagation s).2.step a (unit_propagation s).2.clauses :=
  unit_propagation_models_iff a s


/-! ## The pending stack (claims C15, C14) -/

/-- The loop of unit propagation touches neither the step, nor the stack, nor
the solution list. -/
theorem unit_loop_stack (n : Nat) (s s' : State) (h : unit_loop n s = Run.ok s') :
    s'.step = s.step ∧ s'.pure_literals = s.pure_literals ∧ s'.solution = s.solution :=
  unit_loop_induct
    (fun x => x.step = s.step ∧ x.pure_literals = s.pure_literals ∧ x.solution = s.solution)
    (fun _ hx => hx) n s s' h ⟨rfl, rfl, rfl⟩

/-- The elimination loop only pushes entries, all stamped with the current
step. -/
theorem pure_loop_stack (n : Nat) (s s' : State) (b : Bool)
    (h : pure_loop n s = Run.ok (b, s')) :
    s'.step = s.step ∧ s'.solution = s.solution ∧
      ∃ new, s'.pure_literals = new ++ s.pure_literals ∧ ∀ q ∈ new, q.2 = s.step := by
  refine pure_loop_induct
    (fun x => x.step = s.step ∧ x.solution = s.solution ∧
      ∃ new, x.pure_literals = new ++ s.pure_literals ∧ ∀ q ∈ new, q.2 = s.step)
    ?_ n s s' b h ⟨rfl, rfl, [], rfl, by simp⟩
  intro x ⟨h1, h2, new, h3, h4⟩
  obtain ⟨n2, k1, k2, _⟩ := pure_clauses_shape x.step x.clauses x.variable_cnt x.pure_literals false
  refine ⟨h1, h2, n2 ++ new, ?_, ?_⟩
  · simp only [pure_literal_elimination]; rw [k1, h3]; simp
  · intro q hq
    rcases List.mem_append.mp hq with hq | hq
    · rw [(k2 q hq).1, h1]
    · exact h4 q hq

/-- The step, the solution list and the stack at the end of the two loops of a
frame entered in state `s`: entries are only pushed, all stamped with the step
of the frame. -/
theorem prologue_stack (s s1 s2 : State) (n m : Nat) (sat : Bool)
    (h1 : unit_loop n { s with step := s.step + 1 } = Run.ok s1)
    (h2 : pure_loop m s1 = Run.ok (sat, s2)) :
    s2.step = s.step + 1 ∧ s2.solution = s.solution ∧
      ∃ new, s2.pure_literals = new ++ s.pure_literals ∧ ∀ q ∈ new, q.2 = s.step + 1 := by
  obtain ⟨a1, a2, a3⟩ := unit_loop_stack n _ s1 h1
  obtain ⟨b1, b2, new, b3, b4⟩ := pure_loop_stack m s1 s2 sat h2
  refine ⟨by rw [b1, a1], by rw [b2, a3], new, by rw [b3, a2], ?_⟩
  intro q hq
  rw [b4 q hq, a1]

/-- The stack discipline of `solve_impl`, for a call entered with a stack whose
entries are stamped at most with the step of the caller: the step is given
back; a call that returns SAT has emptied the stack and appended to the
solution list, among others, every entry that was on the stack; any other call
gives back the stack and the solution list as they were. -/
theorem solve_impl_stack (fuel : Nat) : ∀ (s : State) (r : state_t) (s' : State),
    (∀ q ∈ s.pure_literals, q.2 ≤ s.step) →
    solve_impl fuel s = Run.ok (r, s') →
    s'.step = s.step ∧
    (r = state_t.SAT → s'.pure_literals = [] ∧
      ∃ added, s'.solution = s.solution ++ added ∧ ∀ q ∈ s.pure_literals, q.1 ∈ added) ∧
    (r ≠ state_t.SAT → s'.pure_literals = s.pure_literals ∧ s'.solution = s.solution) := by
  induction fuel with
  | zero => intro s r s' _ h; simp [solve_impl] at h
  | succ k ih =>
    intro s r s' hstk h
    obtain ⟨s1, sat, s2, h1, h2, hcase⟩ := solve_impl_inv k s r s' h
    obtain ⟨g1, c1, new, c2, c3⟩ := prologue_stack s s1 s2 _ _ sat h1 h2
    have hdrop : s2.pure_literals.dropWhile (fun p => decide (s.step + 1 ≤ p.2)) =
        s.pure_literals := by
      rw [c2]
      exact dropWhile_pushed _ _ _ c3 (fun q hq => by have := hstk q hq; omega)
    have hstk2 : ∀ q ∈ s2.pure_literals, q.2 ≤ s.step + 1 := by
      intro q hq
      rw [c2] at hq
      rcases List.mem_append.mp hq with hq | hq
      · rw [c3 q hq]
      · have := hstk q hq; omega
    have hold : ∀ q ∈ s.pure_literals, q ∈ s2.pure_literals := by
      intro q hq; rw [c2]; exact List.mem_append_right _ hq
    rcases hcase with ⟨hd, hr, hs'⟩ | ⟨hd, var, hv, r1, s3, h3, hcase⟩
    · refine ⟨by rw [hs', (epilogue_frame _ _ _).1, g1]; rfl, ?_, ?_⟩
      · intro hsat
        rw [hsat] at hs'
        obtain ⟨e1, e2⟩ := epilogue_sat s.variable_cnt s2
        rw [hs']
        refine ⟨e1, s2.pure_literals.map Prod.fst, by rw [e2, c1], ?_⟩
        intro q hq
        exact List.mem_map.2 ⟨q, hold q hq, rfl⟩
      · intro hns
        obtain ⟨e1, e2⟩ := epilogue_other s.variable_cnt r s2 hns
        rw [hs', e1, e2, g1, hdrop, c1]
        exact ⟨rfl, rfl⟩
    · obtain ⟨_, p2, _, p4, p5⟩ := push_decision_clauses s2 var
      obtain ⟨i0, i1, i2⟩ := ih _ r1 s3 (by rw [p4, p2, g1]; exact hstk2) h3
      rcases hcase with ⟨hr1, hr, hs'⟩ | ⟨hr1, s4, h4, s5, h5, hs'⟩
      · have hst : (pop_front s3).step = s.step + 1 := by
          simp only [pop_front]; rw [i0, p2, g1]
        refine ⟨by rw [hs', (epilogue_frame _ _ _).1, hst]; rfl, ?_,
          fun hns => absurd hr hns⟩
        intro _
        obtain ⟨k1, added, k2, k3⟩ := i1 hr1
        obtain ⟨e1, e2⟩ := epilogue_sat s.variable_cnt (pop_front s3)
        rw [hs']
        refine ⟨e1, added, ?_, ?_⟩
        · rw [e2]
          have hpl : (pop_front s3).pure_literals = [] := k1
          have hso : (pop_front s3).solution = s.solution ++ added := by
            simp only [pop_front]; rw [k2, p5, c1]
          rw [hpl, hso]; simp
        · intro q hq
          exact k3 q (by rw [p4]; exact hold q hq)
      · obtain ⟨k1, k2⟩ := i2 hr1
        obtain ⟨c, cs, ls, _, _, hs4⟩ := negate_front_shape s3 s4 h4
        have q2 : s4.step = s.step + 1 := by rw [hs4]; simp only; rw [i0, p2, g1]
        have q4 : s4.pure_literals = s2.pure_literals := by rw [hs4]; simp only; rw [k1, p4]
        have q5 : s4.solution = s.solution := by rw [hs4]; simp only; rw [k2, p5, c1]
        obtain ⟨j0, j1, j2⟩ := ih _ r s5 (by rw [q4, q2]; exact hstk2) h5
        have hst : (pop_front s5).step = s.step + 1 := by
          simp only [pop_front]; rw [j0, q2]
        refine ⟨by rw [hs', (epilogue_frame _ _ _).1, hst]; rfl, ?_, ?_⟩
        · intro hsat
          obtain ⟨m1, added, m2, m3⟩ := j1 hsat
          rw [hsat] at hs'
          obtain ⟨e1, e2⟩ := epilogue_sat s.variable_cnt (pop_front s5)
          rw [hs']
          refine ⟨e1, added, ?_, ?_⟩
          · rw [e2]
            have hpl : (pop_front s5).pure_literals = [] := m1
            have hso : (pop_front s5).solution = s.solution ++ added := by
              simp only [pop_front]; rw [m2, q5]
            rw [hpl, hso]; simp
          · intro q hq
            exact m3 q (by rw [q4]; exact hold q hq)
        · intro hns
          obtain ⟨m1, m2⟩ := j2 hns
          obtain ⟨e1, e2⟩ := epilogue_other s.variable_cnt r (pop_front s5) hns
          rw [hs', e1, e2]
          have hpl : (pop_front s5).pure_literals = s2.pure_literals := by
            simp only [pop_front]; rw [m1, q4]
          have hso : (pop_front s5).solution = s.solution := by
            simp only [pop_front]; rw [m2, q5]
          rw [hst, hpl, hso, hdrop]
          exact ⟨rfl, rfl⟩

/-- Every entry of the stack with which `solve_impl` is entered while `solve()`
runs on a fresh object is stamped at most with the step of the caller. -/
theorem called_stack (s0 : State) (h0 : s0.pure_literals = []) (s : State) (h : Called s0 s) :
    ∀ q ∈ s.pure_literals, q.2 ≤ s.step := by
  induction h with
  | root => intro q hq; simp only [h0] at hq; cases hq
  | first s s1 s2 n m sat var _ h1 h2 _ _ ih =>
    obtain ⟨g1, _, new, c2, c3⟩ := prologue_stack s s1 s2 n m sat h1 h2
    intro q hq
    change q ∈ s2.pure_literals at hq
    change q.2 ≤ s2.step
    rw [c2] at hq
    rw [g1]
    rcases List.mem_append.mp hq with hq | hq
    · rw [c3 q hq]
    · have := ih q hq; omega
  | second s s1 s2 s3 s4 n m k sat var r1 _ h1 h2 _ _ h3 hr1 h4 ih =>
    obtain ⟨g1, _, new, c2, c3⟩ := prologue_stack s s1 s2 n m sat h1 h2
    have hstk2 : ∀ q ∈ (push_decision s2 var).pure_literals, q.2 ≤ (push_decision s2 var).step := by
      intro q hq
      change q ∈ s2.pure_literals at hq
      change q.2 ≤ s2.step
      rw [c2] at hq
      rw [g1]
      rcases List.mem_append.mp hq with hq | hq
      · rw [c3 q hq]
      · have := ih q hq; omega
    obtain ⟨i0, _, i2⟩ := solve_impl_stack k _ r1 s3 hstk2 h3
    obtain ⟨k1, _⟩ := i2 hr1
    obtain ⟨c, cs, ls, _, _, hs4⟩ := negate_front_shape s3 s4 h4
    intro q hq
    rw [hs4] at hq ⊢
    simp only at hq ⊢
    rw [k1] at hq
    rw [i0]
    exact hstk2 q hq

/-- Claim C15: while `solve()` runs on an object whose pending stack starts
empty, a call of `solve_impl` that returns a verdict other than SATISFIABLE
leaves the pending stack and the solution list exactly as they were before the
call; a call that returns SATISFIABLE leaves the stack empty and has appended
to the solution list, among others, every entry that was on the stack. -/
theorem C15_stack_discipline (s0 : State) (hfresh : s0.pure_literals = []) (s : State)
    (hc : Called s0 s) (fuel : Nat) (r : state_t) (s' : State)
    (h : solve_impl fuel s = Run.ok (r, s')) :
    (r ≠ state_t.SAT → s'.pure_literals = s.pure_literals ∧ s'.solution = s.solution) ∧
    (r = state_t.SAT → s'.pure_literals = [] ∧
      ∃ added, s'.solution = s.solution ++ added ∧ ∀ q ∈ s.pure_literals, q.1 ∈ added) := by
  obtain ⟨_, h1, h2⟩ := solve_impl_stack fuel s r s' (called_stack s0 hfresh s hc) h
  exact ⟨h2, h1⟩

/-- The state on which the first recursive call of the root frame on
`mixed_state` is entered. -/
theorem called_mixed : Called mixed_state (push_decision mixed_pruned 3) :=
  Called.first { mixed_state with step := 0 } { mixed_state with step := 1 } mixed_pruned
    1 2 false 3 Called.root (by decide) (by decide) (by decide) (by decide)

/-- Claim C15 on the first recursive call of the search on `mixed_state`: it
is entered with the two literals of `(x1 ∨ x2)` on the stack, fails, and gives
the stack back with exactly these two entries. -/
theorem C15_stack_discipline_witness :
    mixed_state.pure_literals = [] ∧
    Called mixed_state (push_decision mixed_pruned 3) ∧
    ∃ s', solve_impl 2 (push_decision mixed_pruned 3) = Run.ok (state_t.UNSAT, s') ∧
      s'.pure_literals = [(⟨2, false, 0, MAX_STEP⟩, 1), (⟨1, false, 0, MAX_STEP⟩, 1)] ∧
      s'.solution = [] :=
  ⟨rfl, called_mixed, push_decision mixed_pruned 3, by decide,
    (C15_stack_discipline mixed_state rfl (push_decision mixed_pruned 3) called_mixed 2
      state_t.UNSAT (push_decision mixed_pruned 3) (by decide)).1 (by decide)⟩

/-- The result of the loop of unit propagation does not depend on the fuel. -/
theorem unit_loop_det (n m : Nat) (s a b : State) (ha : unit_loop n s = Run.ok a)
    (hb : unit_loop m s = Run.ok b) : a = b := by
  have h1 := unit_loop_mono_le n (max n m) (le_max_left _ _) s a ha
  have h2 := unit_loop_mono_le m (max n m) (le_max_right _ _) s b hb
  rw [h1] at h2
  cases h2; rfl

/-- The result of the elimination loop does not depend on the fuel. -/
theorem pure_loop_det (n m : Nat) (s : State) (a b : Bool × State)
    (ha : pure_loop n s = Run.ok a) (hb : pure_loop m s = Run.ok b) : a = b := by
  have h1 := pure_loop_mono_le n (max n m) (le_max_left _ _) s a ha
  have h2 := pure_loop_mono_le m (max n m) (le_max_right _ _) s b hb
  rw [h1] at h2
  cases h2; rfl

/-- The state on which the first recursive call of a frame is entered. -/
theorem core_first (s s1 s2 : State) (n m : Nat) (var : Nat) (h : CoreOk s)
    (hS : s.step + 2 < MAX_STEP)
    (h1 : unit_loop n { s with step := s.step + 1 } = Run.ok s1)
    (h2 : pure_loop m s1 = Run.ok (false, s2))
    (hv : select_variable s2 = some var) :
    CoreOk (push_decision s2 var) ∧
    UnitOver ((push_decision s2 var).step + 1) var (push_decision s2 var).clauses ∧
    (push_decision s2 var).step = s.step + 1 := by
  obtain ⟨hb, hs, ho, hid⟩ := h
  obtain ⟨g1, g2, g3, g4⟩ := prologue_ok s s1 s2 _ _ false hb hs ho h1 h2
  obtain ⟨hvlt, hv1, hvpos⟩ := select_variable_lt s2 var hv
  have hid2 := idsOk_prologue s s1 s2 _ _ false hid h1 h2
  obtain ⟨p1, p2, p3, _, _⟩ := push_decision_clauses s2 var
  have pcc : (push_decision s2 var).clause_cnt = s2.clause_cnt + 1 := rfl
  have hS' : s.step + 1 + 1 < MAX_STEP := by omega
  refine ⟨⟨?_, ?_, ?_, ?_⟩, ?_, by rw [p2, g1]⟩
  · rw [p1, p2]; exact born_decision _ _ _ _ _ (by rw [g1]; exact g2)
  · rw [p1, p2]; exact settled_decision _ _ _ _ _ (by rw [g1]; exact g3)
  · rw [p1, p2, p3, g1]
    exact occAt_decision _ _ _ _ _ _ hS' g2 g3 g4 hvlt
  · have := idsOk_decision s2 var false (s2.clause_cnt + 1) hid2 (Nat.lt_succ_self _)
    exact ⟨by rw [p1]; exact this.1, by rw [p1, pcc]; exact this.2⟩
  · rw [p1, p2, g1]
    exact unitOver_decision _ _ _ _ _ hS'

/-- The state on which the second recursive call of a frame is entered. -/
theorem core_second (s s1 s2 s3 s4 : State) (n m k : Nat) (var : Nat) (r1 : state_t)
    (h : CoreOk s) (hS : s.step + 2 < MAX_STEP)
    (h1 : unit_loop n { s with step := s.step + 1 } = Run.ok s1)
    (h2 : pure_loop m s1 = Run.ok (false, s2))
    (hv : select_variable s2 = some var)
    (h3 : solve_impl k (push_decision s2 var) = Run.ok (r1, s3))
    (h4 : negate_front s3 = some s4) :
    CoreOk s4 ∧ UnitOver (s4.step + 1) var s4.clauses ∧ s4.step = s.step + 1 ∧
    s4.clauses = decision (s.step + 1) var true s2.clause_cnt :: s2.clauses ∧
    s4.variable_cnt = tblAdd s2.variable_cnt var 1 ∧
    s4.pure_literals = s3.pure_literals ∧ s4.solution = s3.solution := by
  obtain ⟨⟨pb, ps, _, _⟩, _, _⟩ := core_first s s1 s2 n m var h hS h1 h2 hv
  obtain ⟨hb, hs, ho, hid⟩ := h
  obtain ⟨g1, g2, g3, g4⟩ := prologue_ok s s1 s2 _ _ false hb hs ho h1 h2
  obtain ⟨hvlt, hv1, hvpos⟩ := select_variable_lt s2 var hv
  have hid2 := idsOk_prologue s s1 s2 _ _ false hid h1 h2
  obtain ⟨p1, p2, p3, _, _⟩ := push_decision_clauses s2 var
  have pcc : (push_decision s2 var).clause_cnt = s2.clause_cnt + 1 := rfl
  have hS' : s.step + 1 + 1 < MAX_STEP := by omega
  obtain ⟨f1', f2', f3'⟩ := solve_impl_frame _ _ _ _ ps h3
  have hcc3 := solve_impl_clause_cnt _ _ _ _ h3
  have hc3 : s3.clauses = decision s3.step var false s2.clause_cnt :: s2.clauses := by
    rw [f2', f1', p1, p2]
  have hs3 : s3.step = s.step + 1 := by rw [f1', p2, g1]
  have h4' := negate_front_decision s3 s4 var _ _ hc3 (by rw [hs3]; omega) h4
  have q1 : s4.clauses = decision (s.step + 1) var true s2.clause_cnt :: s2.clauses := by
    rw [h4', hs3]
  have q2 : s4.step = s.step + 1 := by rw [h4']; exact hs3
  have q3 : s4.variable_cnt = tblAdd s2.variable_cnt var 1 := by
    rw [h4']; simp only; rw [f3', p3]
  have qcc : s2.clause_cnt < s4.clause_cnt := by
    have : s4.clause_cnt = s3.clause_cnt := by rw [h4']
    rw [pcc] at hcc3
    omega
  refine ⟨⟨?_, ?_, ?_, ?_⟩, ?_, q2, q1, q3, by rw [h4'], by rw [h4']⟩
  · rw [q1, q2]; exact born_decision _ _ _ _ _ g2
  · rw [q1, q2]; exact settled_decision _ _ _ _ _ g3
  · rw [q1, q2, q3]
    exact occAt_decision _ _ _ _ _ _ hS' g2 g3 g4 hvlt
  · have := idsOk_decision s2 var true s4.clause_cnt hid2 qcc
    rw [g1] at this
    exact ⟨by rw [q1]; exact this.1, by rw [q1]; exact this.2⟩
  · rw [q1, q2]
    exact unitOver_decision _ _ _ _ _ hS'


theorem pureStep_trans {S : Nat} {stk : List (Literal × Nat)} {cs cs' cs'' : List Clause}
    (h1 : List.Forall₂ (PureStep S stk) cs cs') (h2 : List.Forall₂ (PureStep S stk) cs' cs'') :
    List.Forall₂ (PureStep S stk) cs cs'' := by
  induction h1 generalizing cs'' with
  | nil => cases h2; exact List.Forall₂.nil
  | cons hab _ ih =>
    cases h2 with
    | cons hbc hrest =>
      refine List.Forall₂.cons ?_ (ih hrest)
      rcases hbc with hbc | ⟨k1, k2, k3⟩
      · rw [hbc]; exact hab
      · rcases hab with hab | ⟨a1, a2, _⟩
        · rw [hab] at k1 k2 k3
          exact Or.inr ⟨k1, k2, k3⟩
        · rw [a2, clause_exists_remove] at k1
          exact absurd k1 (by decide)

/-- Across the elimination loop every clause is left as it is or removed with
one of its existing literals on the final stack. -/
theorem pure_loop_pushed (n : Nat) (s s' : State) (b : Bool)
    (h : pure_loop n s = Run.ok (b, s')) :
    List.Forall₂ (PureStep s.step s'.pure_literals) s.clauses s'.clauses := by
  have hrefl : List.Forall₂ (PureStep s.step s.pure_literals) s.clauses s.clauses := by
    generalize s.clauses = cs
    induction cs with
    | nil => exact List.Forall₂.nil
    | cons c rest ih => exact List.Forall₂.cons (Or.inl rfl) ih
  refine (pure_loop_induct
    (fun x => x.step = s.step ∧ List.Forall₂ (PureStep s.step x.pure_literals) s.clauses x.clauses)
    ?_ n s s' b h ⟨rfl, hrefl⟩).2
  intro x ⟨hx1, hx2⟩
  obtain ⟨new, k1, _, k3⟩ :=
    pure_clauses_shape x.step x.clauses x.variable_cnt x.pure_literals false
  rw [hx1] at k1 k3
  have hc : (pure_literal_elimination x).2.clauses =
      (pure_clauses s.step x.clauses x.variable_cnt x.pure_literals false).1 := by
    simp only [pure_literal_elimination, hx1]
  have hp : (pure_literal_elimination x).2.pure_literals =
      (pure_clauses s.step x.clauses x.variable_cnt x.pure_literals false).2.2.1 := by
    simp only [pure_literal_elimination, hx1]
  refine ⟨hx1, ?_⟩
  rw [hc, hp]
  refine pureStep_trans (forall2_imp (fun _ _ hh => PureStep.mono hh ?_) hx2) k3
  intro q hq
  rw [k1]
  exact List.mem_append_right _ hq

/-- A frame entered with an existing unit clause over `var` that ends its loops
without an existing clause, or without change and without a falsified clause,
has pushed a literal over `var`. -/
theorem prologue_pushed (s s1 s2 : State) (n m : Nat) (sat : Bool) (var : Nat) (h : CoreOk s)
    (hd : UnitOver (s.step + 1) var s.clauses)
    (h1 : unit_loop n { s with step := s.step + 1 } = Run.ok s1)
    (h2 : pure_loop m s1 = Run.ok (sat, s2))
    (hfin : empty s2 = true ∨ (sat = false ∧
      ¬ ∃ c ∈ s2.clauses, c.exists_ (s.step + 1) = true ∧ c.empty (s.step + 1) = true)) :
    ∃ q ∈ s2.pure_literals, q.1.val = var := by
  obtain ⟨hb, hs, ho, hid⟩ := h
  obtain ⟨g1, _, _, o2⟩ := prologue_ok s s1 s2 n m sat hb hs ho h1 h2
  obtain ⟨i1, i2, _⟩ := prologue_ids s s1 s2 n m sat h1 h2
  obtain ⟨d1, d2⟩ := unit_loop_decided (s.step + 1) var n _ s1 h1 ⟨rfl, Or.inr hd⟩
  have q1 := unit_loop_quiet n _ s1 h1
  rw [d1] at q1
  have e2 := pure_loop_pushed m s1 s2 sat h2
  rw [d1] at e2
  have hn2 : (s2.clauses.map Clause.id).Nodup := by rw [i2]; exact hid.1
  have hlive2 : ∀ c ∈ s2.clauses, c.exists_ (s.step + 1) = true → empty s2 = false := by
    intro c hc hce
    exact (empty_eq_false_iff s2).2 ⟨c, hc, by rw [g1]; exact hce⟩
  rcases d2 with ⟨c, hc, hce, hcemp⟩ | ⟨V, hV, hVe, hVc, k, hk, hke, hkv⟩
  · exfalso
    obtain ⟨c', hc', hr⟩ := forall2_mem_left e2 c hc
    rcases hr with hr | ⟨_, _, l, hl, hle, _⟩
    · rw [hr] at hc'
      rcases hfin with hfin | ⟨_, hne⟩
      · rw [hlive2 c hc' hce] at hfin
        exact absurd hfin (by decide)
      · exact hne ⟨c, hc', hce, hcemp⟩
    · rw [clause_empty_iff] at hcemp
      have : l ∈ c.literals.filter (Literal.exists_ (s.step + 1)) :=
        List.mem_filter.mpr ⟨hl, hle⟩
      rw [hcemp] at this
      cases this
  · obtain ⟨V2, hV2, hr⟩ := forall2_mem_left e2 V hV
    rcases hr with hr | ⟨_, _, l, hl, hle, hstk⟩
    · exfalso
      rw [hr] at hV2
      rcases hfin with hfin | ⟨hsat, hne⟩
      · rw [hlive2 V hV2 hVe] at hfin
        exact absurd hfin (by decide)
      · subst hsat
        have q2 := (pure_loop_quiet m s1 s2 h2).1
        rw [g1] at q2
        have hbegin := begin_of_unit _ V k hVc hk hke
        have others : ∀ c2 ∈ s2.clauses, c2.id ≠ V.id → c2.exists_ (s.step + 1) = true →
            ∀ l ∈ c2.literals, l.exists_ (s.step + 1) = true → l.val ≠ var := by
          intro c2 hc2 hne2 hc2e
          obtain ⟨c, hc, hr⟩ := forall2_mem_right e2 c2 hc2
          rcases hr with hr | ⟨_, hr, _⟩
          · rw [hr] at hne2 hc2e ⊢
            rw [← hkv]
            exact q1 V hV hVe hVc k hbegin c hc hc2e hne2
          · rw [hr, clause_exists_remove] at hc2e
            exact absurd hc2e (by decide)
        have hocc := occurrences_single (s.step + 1) var V s2.clauses hn2 hV2 others
        rw [← hkv, clause_count_unit _ V k hVe hVc hk hke] at hocc
        have hcnt := o2 k.val
        rw [hocc] at hcnt
        exact q2 V hV2 hVe k hk hke hcnt
    · have hlk : l = k := filter_one_unique _ _ l k hVc hl hk hle hke
      exact ⟨(l, s.step + 1), hstk, by rw [hlk]; exact hkv⟩


/-- What a call that returns SAT went through: its loops ended without an
existing clause, or without change and without a falsified clause, and every
entry then on the stack is in the solution list at the end. -/
theorem solve_impl_sat_prologue (k : Nat) (s s' : State)
    (hstk : ∀ q ∈ s.pure_literals, q.2 ≤ s.step)
    (h : solve_impl (k + 1) s = Run.ok (state_t.SAT, s')) :
    ∃ s1 sat s2, unit_loop (k + 1) { s with step := s.step + 1 } = Run.ok s1 ∧
      pure_loop (k + 1) s1 = Run.ok (sat, s2) ∧
      (empty s2 = true ∨ (sat = false ∧
        ¬ ∃ c ∈ s2.clauses, c.exists_ (s.step + 1) = true ∧ c.empty (s.step + 1) = true)) ∧
      ∀ q ∈ s2.pure_literals, q.1 ∈ s'.solution := by
  obtain ⟨s1, sat, s2, h1, h2, hcase⟩ := solve_impl_inv k s _ s' h
  obtain ⟨g1, c1, new, c2, c3⟩ := prologue_stack s s1 s2 _ _ sat h1 h2
  have hstk2 : ∀ q ∈ s2.pure_literals, q.2 ≤ s.step + 1 := by
    intro q hq
    rw [c2] at hq
    rcases List.mem_append.mp hq with hq | hq
    · rw [c3 q hq]
    · have := hstk q hq; omega
  refine ⟨s1, sat, s2, h1, h2, ?_⟩
  rcases hcase with ⟨hd, hr, hs'⟩ | ⟨hd, var, hv, r1, s3, h3, hcase⟩
  · have hsat2 := detect_sat sat s2 hr.symm
    rw [hsat2] at h2
    refine ⟨Or.inl (pure_loop_sat _ _ _ h2), ?_⟩
    intro q hq
    rw [hs', (epilogue_sat _ _).2]
    exact List.mem_append_right _ (List.mem_map.2 ⟨q, hq, rfl⟩)
  · obtain ⟨hsat, hne⟩ := detect_unknown sat s2 hd
    rw [g1] at hne
    refine ⟨Or.inr ⟨hsat, hne⟩, ?_⟩
    obtain ⟨_, p2, _, p4, p5⟩ := push_decision_clauses s2 var
    obtain ⟨i0, i1, i2⟩ := solve_impl_stack k _ r1 s3 (by rw [p4, p2, g1]; exact hstk2) h3
    rcases hcase with ⟨hr1, _, hs'⟩ | ⟨hr1, s4, h4, s5, h5, hs'⟩
    · obtain ⟨_, added, k2, k3⟩ := i1 hr1
      intro q hq
      rw [hs', (epilogue_sat _ _).2]
      refine List.mem_append_left _ ?_
      have hso : (pop_front s3).solution = s3.solution := rfl
      rw [hso, k2]
      exact List.mem_append_right _ (k3 q (by rw [p4]; exact hq))
    · obtain ⟨k1, k2⟩ := i2 hr1
      obtain ⟨c, cs, ls, _, _, hs4⟩ := negate_front_shape s3 s4 h4
      have q2 : s4.step = s.step + 1 := by rw [hs4]; simp only; rw [i0, p2, g1]
      have q4 : s4.pure_literals = s2.pure_literals := by rw [hs4]; simp only; rw [k1, p4]
      obtain ⟨_, j1, _⟩ := solve_impl_stack k _ _ s5 (by rw [q4, q2]; exact hstk2) h5
      obtain ⟨_, added, m2, m3⟩ := j1 rfl
      intro q hq
      rw [hs', (epilogue_sat _ _).2]
      refine List.mem_append_left _ ?_
      have hso : (pop_front s5).solution = s5.solution := rfl
      rw [hso, m2]
      exact List.mem_append_right _ (m3 q (by rw [q4]; exact hq))

/-- A call entered with an existing unit clause over `var` that returns SAT has
a literal over `var` in the solution list. -/
theorem solve_impl_records (fuel : Nat) (s s' : State) (var : Nat) (h : CoreOk s)
    (hstk : ∀ q ∈ s.pure_literals, q.2 ≤ s.step)
    (hd : UnitOver (s.step + 1) var s.clauses)
    (hr : solve_impl fuel s = Run.ok (state_t.SAT, s')) :
    ∃ p ∈ s'.solution, p.val = var := by
  cases fuel with
  | zero => simp [solve_impl] at hr
  | succ k =>
    obtain ⟨s1, sat, s2, h1, h2, hfin, hall⟩ := solve_impl_sat_prologue k s s' hstk hr
    obtain ⟨q, hq, hqv⟩ := prologue_pushed s s1 s2 _ _ sat var h hd h1 h2 hfin
    exact ⟨q.1, hall q hq, hqv⟩

/-- A well-formed formula on which `solve()` returns has at least one clause. -/
theorem solve_clauses_ne_nil (s : State) (hwf : WellFormed s) (fuel : Nat) (s' : State)
    (h : solve fuel s = Run.ok s') : s.clauses ≠ [] := by
  intro hnil
  have hz : ∀ v, tblGet s.variable_cnt v ≤ 0 := by
    intro v
    by_cases hv : v < s.variable_cnt.length
    · rw [hwf.2.2 v hv, hnil]; rfl
    · rw [tblGet_of_le _ _ (by omega)]
  cases fuel with
  | zero => simp [solve, solve_impl] at h
  | succ k =>
    have := solve_impl_no_clauses k { s with step := 0 } hnil hz
    simp [solve, this] at h

/-- On a well-formed formula every clause holds a literal of the solution list
of a `solve()` that records SATISFIABLE, and this list is not empty. -/
theorem solve_sat_hits (s : State) (hwf : WellFormed s) (hstk : s.pure_literals = [])
    (fuel : Nat) (hfuel : fuel < MAX_STEP) (s' : State) (h : solve fuel s = Run.ok s')
    (hsat : s'.solution_state = state_t.SAT) :
    (∀ c ∈ s.clauses, c.hit s'.solution) ∧ s'.solution ≠ [] := by
  obtain ⟨r, s1, h1, h2⟩ := solve_inv fuel s s' h
  rw [h2] at hsat
  simp only at hsat
  obtain ⟨hb, hs, _⟩ := wellFormed_start s hwf
  have hc : Covered (({ s with step := 0 } : State).step + 1)
      ({ s with step := 0 } : State).clauses ({ s with step := 0 } : State).pure_literals := by
    simp only [hstk]
    exact covered_fresh s.clauses hwf.1
  have := (solve_impl_witness fuel { s with step := 0 } r s1 (by simpa using hfuel) hb hs
    (by simp [hstk]) hc h1).1 hsat
  have hsol : s'.solution = s1.solution := by rw [h2]
  rw [hsol]
  refine ⟨this.2, ?_⟩
  have hne := solve_clauses_ne_nil s hwf fuel s' h
  cases hcl : s.clauses with
  | nil => exact absurd hcl hne
  | cons c rest =>
    obtain ⟨_, _, p, hp, _⟩ := this.2 c (by
      show c ∈ s.clauses
      rw [hcl]; exact List.mem_cons_self _ _)
    exact List.ne_nil_of_mem hp

/-- Claim C14, as stated, fails: there is no well-formed formula, decided
through branching or not, on which `solve()` on a fresh object records
SATISFIABLE with an empty solution list. -/
theorem C14_solution_never_empty :
    ¬ ∃ (s : State) (fuel : Nat) (s' : State), WellFormed s ∧ s.pure_literals = [] ∧
      fuel < MAX_STEP ∧ solve fuel s = Run.ok s' ∧ s'.solution_state = state_t.SAT ∧
      s'.solution = [] := by
  rintro ⟨s, fuel, s', hwf, hstk, hfuel, h, hsat, hnil⟩
  exact (solve_sat_hits s hwf hstk fuel hfuel s' h hsat).2 hnil

/-- Claim C14, amended: on a well-formed formula, when `solve()` records
SATISFIABLE the solution list is not empty, and when the root frame branches
(its loops end without verdict and `select_variable` returns `var`) the
solution list holds a literal over `var`: the branch decision is recorded,
through the elimination of its decision clause in the recursive call. -/
theorem C14_branch_decision_recorded (s : State) (hwf : WellFormed s) (hids : IdsOk s)
    (hstk : s.pure_literals = []) (fuel : Nat) (hfuel : fuel < MAX_STEP) (s' : State)
    (h : solve fuel s = Run.ok s') (hsat : s'.solution_state = state_t.SAT) :
    s'.solution ≠ [] ∧
    ∀ (n m : Nat) (s1 s2 : State) (var : Nat),
      unit_loop n { s with step := 1 } = Run.ok s1 →
      pure_loop m s1 = Run.ok (false, s2) →
      detect false s2 = state_t.UNKNOWN →
      select_variable s2 = some var →
      ∃ p ∈ s'.solution, p.val = var := by
  refine ⟨(solve_sat_hits s hwf hstk fuel hfuel s' h hsat).2, ?_⟩
  intro n m s1 s2 var h1 h2 hd hv
  obtain ⟨r, sf, hr, hs'⟩ := solve_inv fuel s s' h
  rw [hs'] at hsat ⊢
  simp only at hsat ⊢
  subst hsat
  obtain ⟨hb, hs, ho⟩ := wellFormed_start s hwf
  have hcore : CoreOk { s with step := 0 } := ⟨hb, hs, ho, hids⟩
  have hS : ({ s with step := 0 } : State).step + 2 < MAX_STEP := by
    simp only [MAX_STEP]; omega
  cases fuel with
  | zero => simp [solve_impl] at hr
  | succ k =>
    obtain ⟨t1, sat, t2, k1, k2, hcase⟩ := solve_impl_inv k _ _ sf hr
    have e1 : t1 = s1 := unit_loop_det _ _ _ _ _ k1 h1
    subst e1
    have e2 := pure_loop_det _ _ _ _ _ k2 h2
    simp only [Prod.mk.injEq] at e2
    obtain ⟨e2a, e2b⟩ := e2
    subst e2a e2b
    obtain ⟨g1, c1, new, c2, c3⟩ := prologue_stack { s with step := 0 } t1 t2 _ _ false h1 h2
    have hstk2 : ∀ q ∈ t2.pure_literals, q.2 ≤ 1 := by
      intro q hq
      rw [c2] at hq
      rcases List.mem_append.mp hq with hq | hq
      · rw [c3 q hq]
      · simp only [hstk] at hq; cases hq
    rcases hcase with ⟨hd', _, _⟩ | ⟨_, var', hv', r1, s3, h3, hcase⟩
    · exact absurd hd hd'
    · rw [hv] at hv'
      simp only [Option.some.injEq] at hv'
      subst hv'
      obtain ⟨pc, pu, ps⟩ := core_first { s with step := 0 } t1 t2 _ _ var hcore hS h1 h2 hv
      obtain ⟨_, p2, _, p4, p5⟩ := push_decision_clauses t2 var
      have pstk : ∀ q ∈ (push_decision t2 var).pure_literals, q.2 ≤ (push_decision t2 var).step := by
        rw [p4, ps]; exact hstk2
      rcases hcase with ⟨hr1, _, hsf⟩ | ⟨hr1, s4, h4, s5, h5, hsf⟩
      · subst hr1
        obtain ⟨p, hp, hpv⟩ := solve_impl_records k _ s3 var pc pstk pu h3
        refine ⟨p, ?_, hpv⟩
        rw [hsf, (epilogue_sat _ _).2]
        exact List.mem_append_left _ hp
      · obtain ⟨qc, qu, qs, _, _, q4, _⟩ :=
          core_second { s with step := 0 } t1 t2 s3 s4 _ _ _ var r1 hcore hS h1 h2 hv h3 h4
        obtain ⟨_, _, i2⟩ := solve_impl_stack k _ r1 s3 pstk h3
        have qstk : ∀ q ∈ s4.pure_literals, q.2 ≤ s4.step := by
          rw [q4, (i2 hr1).1, p4, qs]; exact hstk2
        obtain ⟨p, hp, hpv⟩ := solve_impl_records k _ s5 var qc qstk qu h5
        refine ⟨p, ?_, hpv⟩
        rw [hsf, (epilogue_sat _ _).2]
        exact List.mem_append_left _ hp

theorem wellFormed_repeated : WellFormed repeated_state := by
  refine ⟨by decide, by decide, ?_⟩
  intro v hv
  have : v = 0 ∨ v = 1 := by
    simp only [repeated_state, List.length_cons, List.length_nil] at hv; omega
  rcases this with rfl | rfl <;> decide

theorem idsOk_repeated : IdsOk repeated_state := by
  refine ⟨by decide, by decide⟩

/-- Claim C14, amended, on `(x1 ∨ x1)`: the root frame branches on x1 and the
solution list holds x1. -/
theorem C14_branch_decision_recorded_witness :
    WellFormed repeated_state ∧ IdsOk repeated_state ∧
    solve 3 repeated_state = Run.ok repeated_solved ∧
    select_variable repeated_root = some 1 ∧
    ∃ p ∈ repeated_solved.solution, p.val = 1 :=
  ⟨wellFormed_repeated, idsOk_repeated, by decide, by decide,
    (C14_branch_decision_recorded repeated_state wellFormed_repeated idsOk_repeated rfl 3
      (by decide) repeated_solved (by decide) rfl).2 1 1 repeated_root repeated_root 1
      (by decide) (by decide) (by decide) (by decide)⟩


/-! ## The parser and the occurrence table (claim C16) -/

/-- Claim C16, as the code behaves: the file `p cnf 2 1`, `1`, `2 0` is
accepted, the one clause returned is `(x2)`, and the table returned gives x1
the occurrence 1 although no returned clause holds a literal over x1: the table
does not equal the literal counts. -/
theorem C16_split_clause_miscounted :
    ∃ s, from_file split_clause_file = Run.ok s ∧
      s.clauses.map Clause.literals = [[⟨2, false, 0, MAX_STEP⟩]] ∧
      s.variable_cnt = [0, 1, 1] ∧
      tblGet s.variable_cnt 1 = 1 ∧ literal_count 1 s.clauses = 0 ∧ occurrences 1 1 s.clauses = 0 ∧
      ¬ WellFormed s := by
  refine ⟨⟨0, 1, [⟨[⟨2, false, 0, MAX_STEP⟩], 0, MAX_STEP, 0⟩], [0, 1, 1], [], [],
    state_t.UNKNOWN⟩, by decide, by decide, by decide, by decide, by decide, by decide, ?_⟩
  intro h
  have := h.2.2 1 (by decide)
  revert this
  decide

/-- Literal counts add up over a concatenation. -/
theorem literal_count_append (v : Nat) (a b : List Clause) :
    literal_count v (a ++ b) = literal_count v a + literal_count v b := by
  induction a with
  | nil => simp [literal_count]
  | cons c rest ih =>
    show literal_count v (c :: (rest ++ b)) = _
    simp only [literal_count, ih]; omega

/-- The loop over the numbers of one proper line keeps the reader invariant
and ends with no clause under construction. -/
theorem read_numbers_ok (n : Nat) (nums : List Int) :
    ∀ (lits : List Literal) (r : Reader), ReaderOk n r lits →
    (nums = [] → lits = []) → (nums ≠ [] → nums.getLast? = some 0) →
    (∀ x ∈ nums, x.natAbs ≤ n) →
    ReaderOk n (read_numbers nums lits r) [] ∧
    (read_numbers nums lits r).valid_header = r.valid_header ∧
    (read_numbers nums lits r).m = r.m := by
  induction nums with
  | nil =>
    intro lits r h h0 _ _
    rw [h0 rfl] at h
    exact ⟨h, rfl, rfl⟩
  | cons x rest ih =>
    intro lits r ⟨h1, h2, h3, h4, h5⟩ _ hlast hrange
    have hlast' : rest ≠ [] → rest.getLast? = some 0 := by
      intro hne
      have := hlast (List.cons_ne_nil _ _)
      cases rest with
      | nil => exact absurd rfl hne
      | cons y ys => rwa [List.getLast?_cons_cons] at this
    have hrange' : ∀ y ∈ rest, y.natAbs ≤ n := fun y hy => hrange y (List.mem_cons_of_mem _ hy)
    rw [read_numbers]
    by_cases hx : x = 0
    · simp only [hx, if_true]
      refine ih [] _ ⟨h1, ?_, ?_, ?_, ?_⟩ (fun _ => rfl) hlast' hrange'
      · intro c hc
        rcases List.mem_append.1 hc with hc | hc
        · exact h2 c hc
        · simp only [List.mem_singleton] at hc
          subst hc
          exact ⟨rfl, rfl, h3⟩
      · intro l hl; cases hl
      · intro v
        rw [h4 v, literal_count_append]
        simp [literal_count]
      · simp only [List.map_append, List.map_cons, List.map_nil, h5, List.range_succ]
    · simp only [hx, if_false]
      have hpos : 1 ≤ x.natAbs := by omega
      have hle : x.natAbs ≤ n := hrange x (List.mem_cons_self _ _)
      have hne : rest ≠ [] := by
        intro hr
        have := hlast (List.cons_ne_nil _ _)
        rw [hr] at this
        simp at this
        exact hx this
      refine ih _ _ ⟨by simp only [tblAdd_length]; exact h1, h2, ?_, ?_, h5⟩
        (fun hr => absurd hr hne) hlast' hrange'
      · intro l hl
        rcases List.mem_append.1 hl with hl | hl
        · exact h3 l hl
        · simp only [List.mem_singleton] at hl
          subst hl
          exact ⟨rfl, rfl, hpos, hle⟩
      · intro v
        rw [tblGet_tblAdd, h4 v, List.countP_append]
        by_cases hv : x.natAbs = v
        · simp [hv, h1]
          omega
        · simp [hv]


/-- The loop over proper lines keeps the reader invariant. -/
theorem read_lines_ok (n : Nat) (rest : List Line) :
    ∀ (r r' : Reader), ReaderOk n r [] → r.valid_header = true →
    (∀ l ∈ rest, ProperLine n l) → read_lines rest r = Run.ok r' →
    ReaderOk n r' [] ∧ r'.m = r.m := by
  induction rest with
  | nil =>
    intro r r' h _ _ hr
    simp only [read_lines, Run.ok.injEq] at hr
    subst hr
    exact ⟨h, rfl⟩
  | cons l rest ih =>
    intro r r' h hv hp hr
    have hp' : ∀ l ∈ rest, ProperLine n l := fun l hl => hp l (List.mem_cons_of_mem _ hl)
    have hl := hp l (List.mem_cons_self _ _)
    cases l with
    | comment => exact ih r r' h hv hp' hr
    | header a b => exact absurd hl (by simp [ProperLine])
    | body nums =>
      simp only [read_lines, hv, if_true] at hr
      simp only [ProperLine] at hl
      obtain ⟨k1, k2, k3⟩ := read_numbers_ok n nums [] r h (fun _ => rfl)
        (fun hne => by
          rcases hl.1 with h0 | h0
          · exact absurd h0 hne
          · exact h0) hl.2
      obtain ⟨j1, j2⟩ := ih _ r' k1 (by rw [k2]; exact hv) hp' hr
      exact ⟨j1, by rw [j2, k3]⟩

/-- Comment lines before the header are skipped. -/
theorem read_lines_comments (pre tail : List Line) (hpre : ∀ l ∈ pre, l = Line.comment)
    (r : Reader) : read_lines (pre ++ tail) r = read_lines tail r := by
  induction pre with
  | nil => rfl
  | cons l rest ih =>
    have := hpre l (List.mem_cons_self _ _)
    subst this
    simp only [List.cons_append, read_lines]
    exact ih (fun l hl => hpre l (List.mem_cons_of_mem _ hl))

/-- What `from_file` returns for a file in which the header comes first and no
clause runs over the end of a line: a fresh, well-formed formula with distinct
clause identities and variable ids from 1. -/
theorem from_file_wellFormed (n m : Nat) (pre rest : List Line)
    (hpre : ∀ l ∈ pre, l = Line.comment) (hrest : ∀ l ∈ rest, ProperLine n l) (s : State)
    (h : from_file (pre ++ Line.header n m :: rest) = Run.ok s) :
    WellFormed s ∧ IdsOk s ∧ PosVals s.clauses ∧ s.pure_literals = [] ∧ s.solution = [] ∧
    s.clauses.length = m ∧ s.variable_cnt.length = n + 1 := by
  unfold from_file at h
  rw [read_lines_comments pre _ hpre] at h
  simp only [read_lines] at h
  have h0 : ReaderOk n ⟨[], resize [] (n + 1), true, some m, 0⟩ [] := by
    refine ⟨?_, ?_, ?_, ?_, ?_⟩
    · simp [resize]
    · intro c hc; cases hc
    · intro l hl; cases hl
    · intro v
      simp only [resize, List.take_nil, List.nil_append, List.length_nil, Nat.sub_zero,
        tblGet_replicate_zero]
      rfl
    · rfl
  cases hr : read_lines rest ⟨[], resize [] (n + 1), true, some m, 0⟩ with
  | ok r =>
    rw [hr] at h
    simp only at h
    obtain ⟨⟨k1, k2, _, k4, k5⟩, km⟩ := read_lines_ok n rest _ r h0 rfl hrest hr
    simp only at km
    rw [km] at h
    simp only at h
    by_cases hlen : r.clauses.length = m
    · simp only [hlen, if_true, Run.ok.injEq] at h
      subst h
      refine ⟨⟨?_, ?_, ?_⟩, ⟨?_, ?_⟩, ?_, rfl, rfl, hlen, k1⟩
      · intro c hc
        obtain ⟨a1, a2, a3⟩ := k2 c hc
        exact ⟨a1, a2, fun l hl => ⟨(a3 l hl).1, (a3 l hl).2.1⟩⟩
      · intro c hc l hl
        have := (k2 c hc).2.2 l hl
        simp only [k1]
        omega
      · intro v _
        rw [k4 v]
        simp
      · simp only [k5]
        exact List.nodup_range _
      · intro c hc
        have : c.id ∈ r.clauses.map Clause.id := List.mem_map.2 ⟨c, hc, rfl⟩
        rw [k5] at this
        exact List.mem_range.1 this
      · intro c hc l hl
        exact ((k2 c hc).2.2 l hl).2.2.1
    · simp only [hlen, if_false] at h
      cases h
  | fatal => rw [hr] at h; simp at h
  | undefined => rw [hr] at h; simp at h
  | outOfFuel => rw [hr] at h; simp at h


/-! ## Satisfiability through pure-literal elimination (claim C18) -/

/-- Occurrences add up over a concatenation. -/
theorem occurrences_append (S v : Nat) (a b : List Clause) :
    occurrences S v (a ++ b) = occurrences S v a + occurrences S v b := by
  induction a with
  | nil => simp [occurrences]
  | cons c rest ih => simp only [List.cons_append, occurrences_cons, ih]; omega

/-- A variable with occurrence 0 has no existing literal in an existing clause. -/
theorem occurrences_eq_zero {S v : Nat} {cs : List Clause} (h : occurrences S v cs = 0) :
    ∀ c ∈ cs, c.exists_ S = true → ∀ l ∈ c.literals, l.exists_ S = true → l.val ≠ v := by
  intro c hc hce l hl hle hv
  have := occurrences_pos S l c cs hc hce hl hle
  rw [hv] at this
  omega

/-- What one visit of `pure_literal_elimination` does to the clause under the
cursor and to the table: nothing, or the clause exists, holds an existing
literal with occurrence 1, and is removed with its existing literals counted
out. -/
theorem pure_visit_cases (S : Nat) (c : Clause) (cnt : List Int) (stk : List (Literal × Nat))
    (m : Bool) :
    ((pure_visit S c cnt stk m).1 = c ∧ (pure_visit S c cnt stk m).2.1 = cnt) ∨
    (c.exists_ S = true ∧ (pure_visit S c cnt stk m).1 = c.remove S ∧
      (pure_visit S c cnt stk m).2.1 = dec_live S c.literals cnt ∧
      ∃ l ∈ c.literals, l.exists_ S = true ∧ tblGet cnt l.val = 1) := by
  rcases Bool.eq_false_or_eq_true (c.exists_ S) with hce | hce
  · rcases Bool.eq_false_or_eq_true (pure_scan S cnt c.literals stk false).2 with hp | hp
    · right
      have hv : pure_visit S c cnt stk m = (c.remove S, dec_live S c.literals cnt,
          (pure_scan S cnt c.literals stk false).1, true) := by
        simp only [pure_visit, hce, hp, if_true]
      rw [hv]
      refine ⟨hce, rfl, rfl, ?_⟩
      obtain ⟨new, _, k2, k3, _⟩ := pure_scan_shape S cnt c.literals stk false
      rcases k3 hp with h | h
      · exact absurd h (by decide)
      · obtain ⟨q, hq⟩ := List.exists_mem_of_ne_nil _ h
        obtain ⟨_, q2, q3, q4⟩ := k2 q hq
        exact ⟨q.1, q2, q3, q4⟩
    · left
      have hv : pure_visit S c cnt stk m = (c, cnt,
          (pure_scan S cnt c.literals stk false).1, m) := by
        simp only [pure_visit, hce, hp, if_true, Bool.false_eq_true, if_false]
      rw [hv]
      exact ⟨rfl, rfl⟩
  · left
    have hv : pure_visit S c cnt stk m = (c, cnt, stk, m) := by
      simp only [pure_visit, hce, Bool.false_eq_true, if_false]
    rw [hv]
    exact ⟨rfl, rfl⟩

/-- A model of a concatenation is a model of both parts. -/
theorem models_append {S : Nat} {a : Nat → Bool} {xs ys : List Clause} :
    Models S a (xs ++ ys) ↔ Models S a xs ∧ Models S a ys := by
  constructor
  · intro h
    exact ⟨fun c hc => h c (List.mem_append_left _ hc),
      fun c hc => h c (List.mem_append_right _ hc)⟩
  · intro ⟨h1, h2⟩ c hc
    rcases List.mem_append.1 hc with hc | hc
    · exact h1 c hc
    · exact h2 c hc

/-- Changing the value of a variable that has no existing literal in an
existing clause keeps a model. -/
theorem models_update {S : Nat} {a : Nat → Bool} {cs : List Clause} (v : Nat) (b : Bool)
    (hz : occurrences S v cs = 0) (h : Models S a cs) :
    Models S (Function.update a v b) cs := by
  intro c hc hce
  obtain ⟨l, hl, hle, hh⟩ := h c hc hce
  refine ⟨l, hl, hle, ?_⟩
  have hne := occurrences_eq_zero hz c hc hce l hl hle
  simp only [Literal.holds, Function.update_noteq hne]
  exact hh

/-- One sweep of `pure_literal_elimination` over the clauses from the cursor
on, the clauses before the cursor being `pre`: a model of the result can be
turned into a model of the formula before the sweep. -/
theorem pure_clauses_sat (S : Nat) (cs : List Clause) :
    ∀ (pre : List Clause) (cnt : List Int) (stk : List (Literal × Nat)) (m : Bool),
    OccAt S (pre ++ cs) cnt →
    ∀ a, Models S a (pre ++ (pure_clauses S cs cnt stk m).1) →
    ∃ a', Models S a' (pre ++ cs) := by
  induction cs with
  | nil => intro pre cnt stk m _ a h; exact ⟨a, h⟩
  | cons c rest ih =>
    intro pre cnt stk m ho a h
    have hres : (pure_clauses S (c :: rest) cnt stk m).1 =
        (pure_visit S c cnt stk m).1 ::
          (pure_clauses S rest (pure_visit S c cnt stk m).2.1 (pure_visit S c cnt stk m).2.2.1
            (pure_visit S c cnt stk m).2.2.2).1 := rfl
    rw [hres] at h
    rcases pure_visit_cases S c cnt stk m with ⟨e1, e2⟩ | ⟨hce, e1, e2, l, hl, hle, hcnt⟩
    · rw [e1, e2] at h
      have h' : Models S a ((pre ++ [c]) ++ (pure_clauses S rest cnt
          (pure_visit S c cnt stk m).2.2.1 (pure_visit S c cnt stk m).2.2.2).1) := by
        simpa using h
      obtain ⟨a', ha'⟩ := ih (pre ++ [c]) cnt _ _ (by simpa using ho) a h'
      exact ⟨a', by simpa using ha'⟩
    · rw [e1, e2] at h
      have h' : Models S a ((pre ++ [c.remove S]) ++ (pure_clauses S rest
          (dec_live S c.literals cnt) (pure_visit S c cnt stk m).2.2.1
          (pure_visit S c cnt stk m).2.2.2).1) := by
        simpa using h
      have hin : ∀ k ∈ c.literals, k.exists_ S = true → k.val < cnt.length :=
        occAt_inTable ho c (List.mem_append_right _ (List.mem_cons_self _ _)) hce
      have hcc : ∀ v, clause_count S v c = live_count S v c.literals := by
        intro v; simp only [clause_count, hce, if_true]
      have hcr : ∀ v, clause_count S v (c.remove S) = 0 := by
        intro v; simp only [clause_count, clause_exists_remove, Bool.false_eq_true, if_false]
      have ho' : OccAt S ((pre ++ [c.remove S]) ++ rest) (dec_live S c.literals cnt) := by
        intro v
        have := ho v
        rw [occurrences_append, occurrences_cons, hcc] at this
        rw [dec_live_get S c.literals cnt hin v, this, occurrences_append, occurrences_append,
          occurrences_cons, hcr]
        simp only [occurrences]
        push_cast
        ring
      obtain ⟨a', ha'⟩ := ih (pre ++ [c.remove S]) _ _ _ ho' a h'
      have hsplit := ho l.val
      rw [hcnt, occurrences_append, occurrences_cons, hcc] at hsplit
      have hpos := live_count_pos S l c.literals hl hle
      have hz1 : occurrences S l.val pre = 0 := by omega
      have hz2 : occurrences S l.val rest = 0 := by omega
      rw [List.append_assoc, models_append] at ha'
      obtain ⟨m1, m2⟩ := ha'
      have m3 : Models S a' rest := fun d hd => m2 d (List.mem_cons_of_mem _ hd)
      refine ⟨Function.update a' l.val (!l.negated), ?_⟩
      rw [models_append]
      refine ⟨models_update _ _ hz1 m1, ?_⟩
      intro d hd hde
      rcases List.mem_cons.1 hd with hd | hd
      · subst hd
        refine ⟨l, hl, hle, ?_⟩
        simp [Literal.holds]
      · exact models_update _ _ hz2 m3 d hd hde

/-- Under the occurrence invariant, `pure_literal_elimination` keeps the
formula satisfiable or unsatisfiable as it was. -/
theorem pure_literal_elimination_sat (s : State) (h : OccInv s) :
    (∃ a, Models s.step a s.clauses) ↔
      ∃ a, Models s.step a (pure_literal_elimination s).2.clauses := by
  constructor
  · intro ⟨a, ha⟩
    exact ⟨a, pure_literal_elimination_models a s ha⟩
  · intro ⟨a, ha⟩
    exact pure_clauses_sat s.step s.clauses [] s.variable_cnt s.pure_literals false h a ha

/-- Claim C18: in a state whose occurrence table equals the counts of existing
literals in existing clauses, some assignment satisfies every existing clause
before a call of `pure_literal_elimination` if and only if some assignment does
so after the call. -/
theorem C18_pure_literal_elimination_keeps_satisfiability (s : State)
    (h : ∀ v, tblGet s.variable_cnt v = (occurrences s.step v s.clauses : Int)) :
    (∃ a : Nat → Bool, Models s.step a s.clauses) ↔
      ∃ a : Nat → Bool, Models (pure_literal_elimination s).2.step a
        (pure_literal_elimination s).2.clauses :=
  pure_literal_elimination_sat s h

/-- Claim C18 on `(x1) ∧ (¬x1 ∨ x2)`, where the elimination removes the second
clause through x2. -/
theorem C18_pure_literal_elimination_keeps_satisfiability_witness :
    OccInv unit_example ∧ (pure_literal_elimination unit_example).1 = true ∧
    ((∃ a : Nat → Bool, Models unit_example.step a unit_example.clauses) ↔
      ∃ a : Nat → Bool, Models (pure_literal_elimination unit_example).2.step a
        (pure_literal_elimination unit_example).2.clauses) :=
  ⟨unit_example_occ, by decide,
    C18_pure_literal_elimination_keeps_satisfiability unit_example unit_example_occ⟩


/-! ## The assertion of `select_variable` (claim C19) -/

/-- The entry invariant contains the core invariant. -/
theorem entryOk_core (s : State) (h : EntryOk s) : CoreOk s :=
  ⟨h.1, h.2.1, h.2.2.1, h.2.2.2.1⟩

/-- The end of the loops of a ranked frame that goes on to branch: the branch
variable exists, and one candidate variable less is left. -/
theorem ranked_prologue (N : Nat) (s s1 s2 : State) (n m : Nat) (h : Ranked N s)
    (h1 : unit_loop n { s with step := s.step + 1 } = Run.ok s1)
    (h2 : pure_loop m s1 = Run.ok (false, s2))
    (hne : ¬ ∃ c ∈ s2.clauses, c.exists_ s2.step = true ∧ c.empty s2.step = true) :
    (∃ var, select_variable s2 = some var) ∧
    (∀ v, 0 < tblGet s2.variable_cnt v → v < N) ∧
    PosVals s2.clauses ∧
    ∃ k, positives N s2.variable_cnt ≤ k + 1 ∧ s.step + 1 + k + 2 < MAX_STEP := by
  obtain ⟨⟨hb, hs, ho, hid, hpv, hlive⟩, hbelow, n0, dv, hdv, hmeasure, hbound⟩ := h
  obtain ⟨g1, g2, g3, g4⟩ := prologue_ok s s1 s2 _ _ false hb hs ho h1 h2
  obtain ⟨var2, hv⟩ := prologue_select s s1 s2 _ _ hb hs ho hpv hlive h1 h2 hne
  obtain ⟨hvlt, hv1, hvpos⟩ := select_variable_lt s2 var2 hv
  have hmono : ∀ v, tblGet s2.variable_cnt v ≤ tblGet s.variable_cnt v := by
    intro v
    have := prologue_occ_le v s s1 s2 _ _ false h1 h2
    rw [g4 v, ho v]
    exact_mod_cast this
  have hbelow2 : ∀ v, 0 < tblGet s2.variable_cnt v → v < N :=
    fun v hv => hbelow v (lt_of_lt_of_le hv (hmono v))
  have hmeas2 : positives N s2.variable_cnt ≤ n0 := by
    cases hdv' : dv with
    | none =>
      rw [hdv'] at hmeasure
      simp only [if_true] at hmeasure
      have := positives_le N _ _ hmono
      omega
    | some var =>
      rw [hdv'] at hmeasure
      simp only [reduceCtorEq, if_false] at hmeasure
      obtain ⟨V, hV, hVe, hVc, k, hk, hke, hkv⟩ := hdv var hdv'
      have hpos : 0 < tblGet s.variable_cnt var := by
        have := occurrences_pos (s.step + 1) k V s.clauses hV hVe hk hke
        rw [ho var, ← hkv]
        exact_mod_cast this
      rw [g1] at hne
      have hzero := branch_count_zero s s1 s2 _ _ var hb hs ho hid.1
        (Or.inr ⟨V, hV, hVe, hVc, k, hk, hke, hkv⟩) h1 h2 hne
      have := positives_lt N _ _ hmono var (hbelow var hpos) hpos hzero
      omega
  have hn1 : 1 ≤ n0 := by
    have := positives_pos N s2.variable_cnt var2 (hbelow2 var2 hvpos) hvpos
    omega
  exact ⟨⟨var2, hv⟩, hbelow2, prologue_posVals s s1 s2 _ _ false hpv h1 h2,
    n0 - 1, by omega, by omega⟩

/-- The first recursive call of a ranked frame is entered in a ranked state. -/
theorem ranked_first (N : Nat) (s s1 s2 : State) (n m : Nat) (var : Nat) (h : Ranked N s)
    (h1 : unit_loop n { s with step := s.step + 1 } = Run.ok s1)
    (h2 : pure_loop m s1 = Run.ok (false, s2))
    (hd : detect false s2 = state_t.UNKNOWN)
    (hv : select_variable s2 = some var) :
    Ranked N (push_decision s2 var) := by
  obtain ⟨_, hne⟩ := detect_unknown false s2 hd
  obtain ⟨_, hbelow2, hpv2, k, hk1, hk2⟩ := ranked_prologue N s s1 s2 n m h h1 h2 hne
  have hS : s.step + 2 < MAX_STEP := by omega
  obtain ⟨⟨pb, ps, po, pid⟩, pu, pst⟩ :=
    core_first s s1 s2 n m var (entryOk_core s h.1) hS h1 h2 hv
  obtain ⟨hvlt, hv1, hvpos⟩ := select_variable_lt s2 var hv
  obtain ⟨p1, p2, p3, _, _⟩ := push_decision_clauses s2 var
  obtain ⟨t1, t2⟩ := positives_tblAdd N s2.variable_cnt var hvpos
  refine ⟨⟨pb, ps, po, pid, ?_, ?_⟩, ?_, k, some var, ?_, ?_, ?_⟩
  · rw [p1]; exact posVals_decision _ _ _ _ _ hv1 hpv2
  · have g1 := (prologue_stack s s1 s2 n m false h1 h2).1
    rw [p1, p2, g1]
    exact ⟨_, List.mem_cons_self _ _,
      (decision_exists (s.step + 1) var _ false (by omega)).1⟩
  · intro v hv'
    exact hbelow2 v (by rw [p3] at hv'; exact (t2 v).mp hv')
  · intro var' hvar
    simp only [Option.some.injEq] at hvar
    subst hvar
    exact pu
  · rw [p3, t1]; simp only [reduceCtorEq, if_false]; omega
  · rw [pst]; omega

/-- The second recursive call of a ranked frame is entered in a ranked state. -/
theorem ranked_second (N : Nat) (s s1 s2 s3 s4 : State) (n m k : Nat) (var : Nat)
    (r1 : state_t) (h : Ranked N s)
    (h1 : unit_loop n { s with step := s.step + 1 } = Run.ok s1)
    (h2 : pure_loop m s1 = Run.ok (false, s2))
    (hd : detect false s2 = state_t.UNKNOWN)
    (hv : select_variable s2 = some var)
    (h3 : solve_impl k (push_decision s2 var) = Run.ok (r1, s3))
    (h4 : negate_front s3 = some s4) :
    Ranked N s4 := by
  obtain ⟨_, hne⟩ := detect_unknown false s2 hd
  obtain ⟨_, hbelow2, hpv2, j, hk1, hk2⟩ := ranked_prologue N s s1 s2 n m h h1 h2 hne
  have hS : s.step + 2 < MAX_STEP := by omega
  obtain ⟨⟨qb, qs, qo, qid⟩, qu, q2, q1, q3, _, _⟩ :=
    core_second s s1 s2 s3 s4 n m k var r1 (entryOk_core s h.1) hS h1 h2 hv h3 h4
  obtain ⟨hvlt, hv1, hvpos⟩ := select_variable_lt s2 var hv
  obtain ⟨t1, t2⟩ := positives_tblAdd N s2.variable_cnt var hvpos
  refine ⟨⟨qb, qs, qo, qid, ?_, ?_⟩, ?_, j, some var, ?_, ?_, ?_⟩
  · rw [q1]; exact posVals_decision _ _ _ _ _ hv1 hpv2
  · rw [q1, q2]
    exact ⟨_, List.mem_cons_self _ _,
      (decision_exists (s.step + 1) var _ true (by omega)).1⟩
  · intro v hv'
    exact hbelow2 v (by rw [q3] at hv'; exact (t2 v).mp hv')
  · intro var' hvar
    simp only [Option.some.injEq] at hvar
    subst hvar
    exact qu
  · rw [q3, t1]; simp only [reduceCtorEq, if_false]; omega
  · rw [q2]; omega

/-- The loop of unit propagation ends or runs out of fuel. -/
theorem unit_loop_cases (n : Nat) : ∀ (s : State),
    (∃ s', unit_loop n s = Run.ok s') ∨ unit_loop n s = Run.outOfFuel := by
  induction n with
  | zero => intro s; exact Or.inr rfl
  | succ k ih =>
    intro s
    rw [unit_loop]
    cases hm : (unit_propagation s).1 with
    | false => exact Or.inl ⟨_, rfl⟩
    | true => simp only [if_true]; exact ih _

/-- The elimination loop ends or runs out of fuel. -/
theorem pure_loop_cases (n : Nat) : ∀ (s : State),
    (∃ r, pure_loop n s = Run.ok r) ∨ pure_loop n s = Run.outOfFuel := by
  induction n with
  | zero => intro s; exact Or.inr rfl
  | succ k ih =>
    intro s
    rw [pure_loop]
    cases hm : (pure_literal_elimination s).1 with
    | false => exact Or.inl ⟨_, rfl⟩
    | true =>
      simp only [if_true]
      cases he : empty (pure_literal_elimination s).2 with
      | false => simp only [Bool.false_eq_true, if_false]; exact ih _
      | true => exact Or.inl ⟨_, rfl⟩

/-- Every way in which `solve_impl` can stop in the assertion of
`select_variable` or in the dereference of an end iterator. -/
theorem solve_impl_abort_inv (k : Nat) (s : State)
    (h : solve_impl (k + 1) s = Run.fatal ∨ solve_impl (k + 1) s = Run.undefined) :
    ∃ s1 s2, unit_loop (k + 1) { s with step := s.step + 1 } = Run.ok s1 ∧
      pure_loop (k + 1) s1 = Run.ok (false, s2) ∧
      detect false s2 = state_t.UNKNOWN ∧
      (select_variable s2 = none ∨ ∃ var, select_variable s2 = some var ∧
        ((solve_impl k (push_decision s2 var) = Run.fatal ∨
            solve_impl k (push_decision s2 var) = Run.undefined) ∨
          ∃ r1 s3, solve_impl k (push_decision s2 var) = Run.ok (r1, s3) ∧
            (negate_front s3 = none ∨ ∃ s4, negate_front s3 = some s4 ∧
              (solve_impl k s4 = Run.fatal ∨ solve_impl k s4 = Run.undefined)))) := by
  rw [solve_impl] at h
  rcases unit_loop_cases (k + 1) { s with step := s.step + 1 } with ⟨s1, h1⟩ | h1
  · rw [h1] at h
    simp only at h
    rcases pure_loop_cases (k + 1) s1 with ⟨⟨sat, s2⟩, h2⟩ | h2
    · rw [h2] at h
      simp only at h
      cases hd : detect sat s2 with
      | UNKNOWN =>
        obtain ⟨hsat, _⟩ := detect_unknown sat s2 hd
        subst hsat
        rw [hd] at h
        simp only at h
        refine ⟨s1, s2, h1, h2, hd, ?_⟩
        cases hv : select_variable s2 with
        | none => exact Or.inl rfl
        | some var =>
          right
          refine ⟨var, rfl, ?_⟩
          rw [hv] at h
          simp only at h
          cases h3 : solve_impl k (push_decision s2 var) with
          | ok q =>
            obtain ⟨r1, s3⟩ := q
            right
            refine ⟨r1, s3, rfl, ?_⟩
            rw [h3] at h
            have second : ((match negate_front s3 with
                  | none => Run.undefined
                  | some s4 =>
                    match solve_impl k s4 with
                    | Run.ok (state, s5) =>
                      Run.ok (state, epilogue s.variable_cnt state (pop_front s5))
                    | Run.fatal => Run.fatal
                    | Run.undefined => Run.undefined
                    | Run.outOfFuel => Run.outOfFuel) = Run.fatal ∨
                (match negate_front s3 with
                  | none => Run.undefined
                  | some s4 =>
                    match solve_impl k s4 with
                    | Run.ok (state, s5) =>
                      Run.ok (state, epilogue s.variable_cnt state (pop_front s5))
                    | Run.fatal => Run.fatal
                    | Run.undefined => Run.undefined
                    | Run.outOfFuel => Run.outOfFuel) = Run.undefined) →
                (negate_front s3 = none ∨ ∃ s4, negate_front s3 = some s4 ∧
                  (solve_impl k s4 = Run.fatal ∨ solve_impl k s4 = Run.undefined)) := by
              intro h
              cases h4 : negate_front s3 with
              | none => exact Or.inl rfl
              | some s4 =>
                right
                refine ⟨s4, rfl, ?_⟩
                rw [h4] at h
                simp only at h
                cases h5 : solve_impl k s4 with
                | ok q5 => rw [h5] at h; simp at h
                | fatal => exact Or.inl rfl
                | undefined => exact Or.inr rfl
                | outOfFuel => rw [h5] at h; simp at h
            cases r1 with
            | SAT => simp at h
            | UNKNOWN => exact second h
            | UNSAT => exact second h
          | fatal => exact Or.inl (Or.inl rfl)
          | undefined => exact Or.inl (Or.inr rfl)
          | outOfFuel => rw [h3] at h; simp at h
      | UNSAT => rw [hd] at h; simp at h
      | SAT => rw [hd] at h; simp at h
    · rw [h2] at h
      simp at h
  · rw [h1] at h
    simp at h

/-- A call entered in a ranked state stops neither in the assertion of
`select_variable` nor in the dereference of an end iterator. -/
theorem solve_impl_safe (N : Nat) (fuel : Nat) : ∀ (s : State), Ranked N s →
    ¬ (solve_impl fuel s = Run.fatal ∨ solve_impl fuel s = Run.undefined) := by
  induction fuel with
  | zero => intro s _ h; simp [solve_impl] at h
  | succ k ih =>
    intro s hr h
    obtain ⟨s1, s2, h1, h2, hd, hcase⟩ := solve_impl_abort_inv k s h
    obtain ⟨_, hne⟩ := detect_unknown false s2 hd
    obtain ⟨⟨var0, hv0⟩, _⟩ := ranked_prologue N s s1 s2 _ _ hr h1 h2 hne
    rcases hcase with hnone | ⟨var, hv, hcase⟩
    · rw [hnone] at hv0; cases hv0
    · have hr1 := ranked_first N s s1 s2 _ _ var hr h1 h2 hd hv
      rcases hcase with h3 | ⟨r1, s3, h3, hcase⟩
      · exact ih _ hr1 h3
      · obtain ⟨f1, f2, _⟩ := solve_impl_frame _ _ _ _ hr1.1.2.1 h3
        obtain ⟨p1, p2, _, _, _⟩ := push_decision_clauses s2 var
        have g1 := (prologue_stack s s1 s2 _ _ false h1 h2).1
        have hc3 : s3.clauses = decision s3.step var false s2.clause_cnt :: s2.clauses := by
          rw [f2, f1, p1, p2]
        have hs3 : s3.step = s.step + 1 := by rw [f1, p2, g1]
        have hb0 : s.step + 2 < MAX_STEP := by
          obtain ⟨_, _, n0, _, _, _, hb0⟩ := hr
          omega
        obtain ⟨s4', h4'⟩ := negate_front_some s3 var _ _ hc3 (by rw [hs3]; omega)
        rcases hcase with h4 | ⟨s4, h4, h5⟩
        · rw [h4] at h4'; cases h4'
        · exact ih _ (ranked_second N s s1 s2 s3 s4 _ _ k var r1 hr h1 h2 hd hv h3 h4) h5


/-- Every state on which `solve_impl` is entered while `solve()` runs on a
well-formed formula with at least one clause is ranked. -/
theorem called_ranked (s0 : State) (hwf : WellFormed s0) (hids : IdsOk s0)
    (hpos : PosVals s0.clauses) (hne : s0.clauses ≠ [])
    (hlen : s0.variable_cnt.length + 3 < MAX_STEP) (s : State) (h : Called s0 s) :
    Ranked s0.variable_cnt.length s := by
  induction h with
  | root =>
    obtain ⟨hb, hs, ho⟩ := wellFormed_start s0 hwf
    have hlive : ∃ c ∈ s0.clauses, c.exists_ 1 = true := by
      cases hc : s0.clauses with
      | nil => exact absurd hc hne
      | cons c rest =>
        obtain ⟨h1, h2, _⟩ := hwf.1 c (by rw [hc]; exact List.mem_cons_self _ _)
        exact ⟨c, List.mem_cons_self _ _, by simp [Clause.exists_, h1, h2, MAX_STEP]⟩
    refine ⟨⟨hb, hs, ho, hids, hpos, hlive⟩, ?_, s0.variable_cnt.length, none, ?_, ?_, ?_⟩
    · intro v hv
      by_contra hge
      have : tblGet s0.variable_cnt v = 0 := tblGet_of_le _ _ (by omega)
      simp only at hv
      omega
    · intro var hvar; cases hvar
    · have := positives_le_bound s0.variable_cnt.length s0.variable_cnt
      simp only [if_true]
      omega
    · simp only; omega
  | first s s1 s2 n m sat var _ h1 h2 hd hv ih =>
    obtain ⟨hsat, _⟩ := detect_unknown sat s2 hd
    subst hsat
    exact ranked_first _ s s1 s2 n m var ih h1 h2 hd hv
  | second s s1 s2 s3 s4 n m k sat var r1 _ h1 h2 hd hv h3 _ h4 ih =>
    obtain ⟨hsat, _⟩ := detect_unknown sat s2 hd
    subst hsat
    exact ranked_second _ s s1 s2 s3 s4 n m k var r1 ih h1 h2 hd hv h3 h4

/-- Claim C19: on a well-formed formula with at least one clause (clause
identities distinct, variable ids from 1, as `from_file` builds them), in every
call of `solve_impl` made while `solve()` runs, whenever the loops end without
verdict `select_variable` finds a variable with positive occurrence; and for no
fuel does `solve()` stop in the assertion of `select_variable`. -/
theorem C19_select_variable_never_aborts (s0 : State) (hwf : WellFormed s0) (hids : IdsOk s0)
    (hpos : PosVals s0.clauses) (hne : s0.clauses ≠ [])
    (hlen : s0.variable_cnt.length + 3 < MAX_STEP) :
    (∀ (s : State), Called s0 s → ∀ (n m : Nat) (s1 s2 : State) (sat : Bool),
      unit_loop n { s with step := s.step + 1 } = Run.ok s1 →
      pure_loop m s1 = Run.ok (sat, s2) →
      detect sat s2 = state_t.UNKNOWN →
      ∃ var, select_variable s2 = some var ∧ 0 < tblGet s2.variable_cnt var) ∧
    (∀ fuel, solve fuel s0 ≠ Run.fatal) := by
  constructor
  · intro s hc n m s1 s2 sat h1 h2 hd
    obtain ⟨hsat, hne2⟩ := detect_unknown sat s2 hd
    subst hsat
    obtain ⟨⟨var, hv⟩, _⟩ := ranked_prologue _ s s1 s2 n m
      (called_ranked s0 hwf hids hpos hne hlen s hc) h1 h2 hne2
    exact ⟨var, hv, (select_variable_lt s2 var hv).2.2⟩
  · intro fuel h
    have hr := called_ranked s0 hwf hids hpos hne hlen _ Called.root
    have := solve_impl_safe _ fuel _ hr
    unfold solve at h
    cases h1 : solve_impl fuel { s0 with step := 0 } with
    | ok p => rw [h1] at h; simp at h
    | fatal => exact this (Or.inl h1)
    | undefined => rw [h1] at h; simp at h
    | outOfFuel => rw [h1] at h; simp at h

/-- The four-clause example has distinct clause identities below the counter. -/
theorem idsOk_four : IdsOk { four_root with step := 0 } := ⟨by decide, by decide⟩

/-- The four-clause example has variable ids from 1. -/
theorem posVals_four : PosVals ({ four_root with step := 0 } : State).clauses := by
  unfold PosVals
  decide

/-- Claim C19 on the four-clause example: at the root the loops end without
verdict, `select_variable` finds a variable, and `solve()` does not stop in the
assertion, with fuel 0 or 5. -/
theorem C19_select_variable_never_aborts_witness :
    WellFormed { four_root with step := 0 } ∧
    unit_loop 1 four_root = Run.ok four_root ∧
    pure_loop 1 four_root = Run.ok (false, four_root) ∧
    (∃ var, select_variable four_root = some var ∧ 0 < tblGet four_root.variable_cnt var) ∧
    solve 0 { four_root with step := 0 } ≠ Run.fatal ∧
    solve 5 { four_root with step := 0 } ≠ Run.fatal :=
  ⟨wellFormed_four, by decide, by decide,
    (C19_select_variable_never_aborts { four_root with step := 0 } wellFormed_four idsOk_four
      posVals_four (by decide) (by decide)).1 _ Called.root 1 1 four_root four_root false
      (by decide) (by decide) (by decide),
    (C19_select_variable_never_aborts { four_root with step := 0 } wellFormed_four idsOk_four
      posVals_four (by decide) (by decide)).2 0,
    (C19_select_variable_never_aborts { four_root with step := 0 } wellFormed_four idsOk_four
      posVals_four (by decide) (by decide)).2 5⟩


/-! ## Consistency of the produced assignment (claim C20) -/

/-- The first inner loop of `pure_literal_elimination` pushes at most one entry
per variable when no variable with occurrence 1 has two existing literals in
the clause. -/
theorem pure_scan_stack (S : Nat) (cnt : List Int) (ls : List Literal) :
    ∀ (stk : List (Literal × Nat)) (p : Bool),
    (stk.map (fun q => q.1.val)).Nodup →
    (∀ l ∈ ls, l.exists_ S = true → tblGet cnt l.val = 1 →
      l.val ∉ stk.map (fun q => q.1.val)) →
    (∀ v, tblGet cnt v = 1 → live_count S v ls ≤ 1) →
    ((pure_scan S cnt ls stk p).1.map (fun q => q.1.val)).Nodup := by
  induction ls with
  | nil => intro stk p h _ _; exact h
  | cons l rest ih =>
    intro stk p hnd hfresh hone
    have hrest : ∀ v, tblGet cnt v = 1 → live_count S v rest ≤ 1 := by
      intro v hv
      have := hone v hv
      rw [live_count_cons] at this
      omega
    rw [pure_scan]
    by_cases hc : (l.exists_ S && decide (tblGet cnt l.val = 1)) = true
    · simp only [hc, if_true]
      simp only [Bool.and_eq_true, decide_eq_true_eq] at hc
      apply ih _ _ _ _ hrest
      · simp only [List.map_cons, List.nodup_cons]
        exact ⟨hfresh l (List.mem_cons_self _ _) hc.1 hc.2, hnd⟩
      · intro l' hl' hle' hcnt'
        simp only [List.map_cons, List.mem_cons, not_or]
        refine ⟨?_, hfresh l' (List.mem_cons_of_mem _ hl') hle' hcnt'⟩
        intro heq
        have h1 := hone l.val hc.2
        rw [live_count_cons] at h1
        simp only [hc.1, and_self, if_true] at h1
        have h2 := live_count_pos S l' rest hl' hle'
        rw [heq] at h2
        omega
    · simp only [hc, Bool.false_eq_true, if_false]
      exact ih _ _ hnd (fun l' hl' => hfresh l' (List.mem_cons_of_mem _ hl')) hrest

/-- One visit of `pure_literal_elimination` keeps the stack consistent with the
table, when the table bounds the existing literals of the clause. -/
theorem pure_visit_stack (S : Nat) (c : Clause) (cnt : List Int) (stk : List (Literal × Nat))
    (m : Bool)
    (hle : c.exists_ S = true → ∀ v, (live_count S v c.literals : Int) ≤ tblGet cnt v)
    (hok : StackOk stk cnt) :
    StackOk (pure_visit S c cnt stk m).2.2.1 (pure_visit S c cnt stk m).2.1 := by
  rcases Bool.eq_false_or_eq_true (c.exists_ S) with hce | hce
  · rcases Bool.eq_false_or_eq_true (pure_scan S cnt c.literals stk false).2 with hp | hp
    · have hv : pure_visit S c cnt stk m = (c.remove S, dec_live S c.literals cnt,
          (pure_scan S cnt c.literals stk false).1, true) := by
        simp only [pure_visit, hce, hp, if_true]
      rw [hv]
      simp only
      have hle' := hle hce
      have hin : ∀ l ∈ c.literals, l.exists_ S = true → l.val < cnt.length := by
        intro l hl hlive
        by_contra hge
        have h1 := hle' l.val
        rw [tblGet_of_le _ _ (by omega)] at h1
        have h2 := live_count_pos S l c.literals hl hlive
        omega
      refine ⟨?_, ?_⟩
      · apply pure_scan_stack S cnt c.literals stk false hok.1
        · intro l _ _ hcnt hmem
          obtain ⟨q, hq, hqv⟩ := List.mem_map.1 hmem
          have := hok.2 q hq
          have hqv' : q.1.val = l.val := hqv
          rw [hqv', hcnt] at this
          omega
        · intro v hv
          have := hle' v
          rw [hv] at this
          exact_mod_cast this
      · obtain ⟨new, k1, k2, _, _⟩ := pure_scan_shape S cnt c.literals stk false
        intro q hq
        rw [k1] at hq
        rw [dec_live_get S c.literals cnt hin]
        rcases List.mem_append.1 hq with hq | hq
        · obtain ⟨_, q2, q3, q4⟩ := k2 q hq
          have h1 := hle' q.1.val
          have h2 := live_count_pos S q.1 c.literals q2 q3
          rw [q4] at h1 ⊢
          omega
        · have h1 := hle' q.1.val
          rw [hok.2 q hq] at h1 ⊢
          omega
    · have hv : pure_visit S c cnt stk m = (c, cnt,
          (pure_scan S cnt c.literals stk false).1, m) := by
        simp only [pure_visit, hce, hp, if_true, Bool.false_eq_true, if_false]
      rw [hv]
      simp only
      rw [(pure_scan_quiet S cnt c.literals stk false hp).2.1]
      exact hok
  · have hv : pure_visit S c cnt stk m = (c, cnt, stk, m) := by
      simp only [pure_visit, hce, Bool.false_eq_true, if_false]
    rw [hv]
    exact hok

/-- One sweep of `pure_literal_elimination` keeps the stack consistent with the
table, when the table bounds the occurrences in the clauses still to visit. -/
theorem pure_clauses_stack (S : Nat) (cs : List Clause) :
    ∀ (cnt : List Int) (stk : List (Literal × Nat)) (m : Bool),
    (∀ v, (occurrences S v cs : Int) ≤ tblGet cnt v) → StackOk stk cnt →
    StackOk (pure_clauses S cs cnt stk m).2.2.1 (pure_clauses S cs cnt stk m).2.1 := by
  induction cs with
  | nil => intro cnt stk m _ h; exact h
  | cons c rest ih =>
    intro cnt stk m hocc hok
    have hle : c.exists_ S = true → ∀ v, (live_count S v c.literals : Int) ≤ tblGet cnt v := by
      intro hce v
      have := hocc v
      rw [occurrences_cons] at this
      simp only [clause_count, hce, if_true] at this
      push_cast at this
      omega
    have h1 := pure_visit_stack S c cnt stk m hle hok
    have hocc' : ∀ v, (occurrences S v rest : Int) ≤ tblGet (pure_visit S c cnt stk m).2.1 v := by
      intro v
      have := hocc v
      rw [occurrences_cons] at this
      push_cast at this
      rcases pure_visit_cases S c cnt stk m with ⟨_, e2⟩ | ⟨hce, _, e2, _⟩
      · rw [e2]; omega
      · have hle' := hle hce
        have hin : ∀ l ∈ c.literals, l.exists_ S = true → l.val < cnt.length := by
          intro l hl hlive
          by_contra hge
          have h1 := hle' l.val
          rw [tblGet_of_le _ _ (by omega)] at h1
          have h2 := live_count_pos S l c.literals hl hlive
          omega
        rw [e2, dec_live_get S c.literals cnt hin]
        simp only [clause_count, hce, if_true] at this
        omega
    exact ih _ _ _ hocc' h1

/-- Under the occurrence invariant, `pure_literal_elimination` keeps the stack
consistent with the table. -/
theorem pure_literal_elimination_stack (s : State) (ho : OccInv s)
    (hok : StackOk s.pure_literals s.variable_cnt) :
    StackOk (pure_literal_elimination s).2.pure_literals
      (pure_literal_elimination s).2.variable_cnt :=
  pure_clauses_stack s.step s.clauses s.variable_cnt s.pure_literals false
    (fun v => le_of_eq (ho v).symm) hok

/-- Under the occurrence invariant, `unit_propagation` keeps the stack
consistent with the table: occurrences only go down, and not below 0. -/
theorem unit_propagation_stack (s : State) (ho : OccInv s)
    (hok : StackOk s.pure_literals s.variable_cnt) :
    StackOk (unit_propagation s).2.pure_literals (unit_propagation s).2.variable_cnt := by
  refine ⟨hok.1, ?_⟩
  intro q hq
  have h1 := unit_propagation_occ s ho q.1.val
  have h2 := unit_propagation_occ_le q.1.val s
  have h3 := ho q.1.val
  have h4 := hok.2 q hq
  have hs : (unit_propagation s).2.step = s.step := rfl
  rw [hs] at h1
  rw [h1]
  rw [h4] at h3
  omega


/-- The two loops of a frame keep the stack consistent with the table. -/
theorem prologue_stackOk (s s1 s2 : State) (n m : Nat) (sat : Bool)
    (ho : OccAt (s.step + 1) s.clauses s.variable_cnt)
    (hok : StackOk s.pure_literals s.variable_cnt)
    (h1 : unit_loop n { s with step := s.step + 1 } = Run.ok s1)
    (h2 : pure_loop m s1 = Run.ok (sat, s2)) :
    StackOk s2.pure_literals s2.variable_cnt := by
  have f1 := unit_loop_induct
    (fun x => OccInv x ∧ StackOk x.pure_literals x.variable_cnt)
    (fun x hx => ⟨unit_propagation_occ x hx.1, unit_propagation_stack x hx.1 hx.2⟩)
    _ _ _ h1 ⟨ho, hok⟩
  exact (pure_loop_induct
    (fun x => OccInv x ∧ StackOk x.pure_literals x.variable_cnt)
    (fun x hx => ⟨pure_literal_elimination_occ x hx.1,
      pure_literal_elimination_stack x hx.1 hx.2⟩)
    _ _ _ _ h2 f1).2

/-- Pushing a decision keeps the stack consistent with the table: the branch
variable has positive occurrence, so it is not on the stack. -/
theorem stackOk_tblAdd (stk : List (Literal × Nat)) (cnt : List Int) (var : Nat)
    (hpos : 0 < tblGet cnt var) (hok : StackOk stk cnt) : StackOk stk (tblAdd cnt var 1) := by
  refine ⟨hok.1, ?_⟩
  intro q hq
  rw [tblGet_tblAdd]
  have := hok.2 q hq
  split
  · rename_i hc
    rw [hc.1] at hpos
    omega
  · exact this

/-- The solution list of any call entered with an empty solution list and a
stack consistent with the table holds at most one literal per variable. -/
theorem solve_impl_consistent (fuel : Nat) : ∀ (s : State) (r : state_t) (s' : State),
    s.step + fuel < MAX_STEP → Born s.step s.clauses → Settled s.step s.clauses →
    OccAt (s.step + 1) s.clauses s.variable_cnt →
    (∀ q ∈ s.pure_literals, q.2 ≤ s.step) → s.solution = [] →
    StackOk s.pure_literals s.variable_cnt →
    solve_impl fuel s = Run.ok (r, s') →
    (s'.solution.map Literal.val).Nodup := by
  induction fuel with
  | zero => intro s r s' _ _ _ _ _ _ _ h; simp [solve_impl] at h
  | succ k ih =>
    intro s r s' hfuel hb hs ho hstk hsol hok h
    obtain ⟨s1, sat, s2, h1, h2, hcase⟩ := solve_impl_inv k s r s' h
    obtain ⟨g1, g2, g3, g4⟩ := prologue_ok s s1 s2 _ _ sat hb hs ho h1 h2
    obtain ⟨_, c1, new, c2, c3⟩ := prologue_stack s s1 s2 _ _ sat h1 h2
    have hok2 := prologue_stackOk s s1 s2 _ _ sat ho hok h1 h2
    have hsol2 : s2.solution = [] := by rw [c1, hsol]
    have hstk2 : ∀ q ∈ s2.pure_literals, q.2 ≤ s.step + 1 := by
      intro q hq
      rw [c2] at hq
      rcases List.mem_append.mp hq with hq | hq
      · rw [c3 q hq]
      · have := hstk q hq; omega
    have hmap : ∀ (stk : List (Literal × Nat)),
        (stk.map Prod.fst).map Literal.val = stk.map (fun q => q.1.val) := by
      intro stk; rw [List.map_map]; rfl
    rcases hcase with ⟨hd, hr, hs'⟩ | ⟨hd, var, hv, r1, s3, h3, hcase⟩
    · by_cases hsat : r = state_t.SAT
      · rw [hsat] at hs'
        rw [hs', (epilogue_sat _ _).2, hsol2, List.nil_append, hmap]
        exact hok2.1
      · rw [hs', (epilogue_other _ _ _ hsat).2, hsol2]
        exact List.nodup_nil
    · have hS : s.step + 1 + 1 < MAX_STEP := by
        cases k with
        | zero => simp [solve_impl] at h3
        | succ j => omega
      obtain ⟨hvlt, hv1, hvpos⟩ := select_variable_lt s2 var hv
      obtain ⟨p1, p2, p3, p4, p5⟩ := push_decision_clauses s2 var
      have pb : Born (push_decision s2 var).step (push_decision s2 var).clauses := by
        rw [p1, p2]; exact born_decision _ _ _ _ _ (by rw [g1]; exact g2)
      have ps : Settled (push_decision s2 var).step (push_decision s2 var).clauses := by
        rw [p1, p2]; exact settled_decision _ _ _ _ _ (by rw [g1]; exact g3)
      have po : OccAt ((push_decision s2 var).step + 1) (push_decision s2 var).clauses
          (push_decision s2 var).variable_cnt := by
        rw [p1, p2, p3, g1]
        exact occAt_decision _ _ _ _ _ _ hS g2 g3 g4 hvlt
      have pstk : ∀ q ∈ (push_decision s2 var).pure_literals,
          q.2 ≤ (push_decision s2 var).step := by
        rw [p4, p2, g1]; exact hstk2
      have pok : StackOk (push_decision s2 var).pure_literals
          (push_decision s2 var).variable_cnt := by
        rw [p4, p3]; exact stackOk_tblAdd _ _ _ hvpos hok2
      have i3 := ih _ r1 s3 (by rw [p2, g1]; omega) pb ps po pstk (by rw [p5, hsol2]) pok h3
      obtain ⟨i0, i1, i2⟩ := solve_impl_stack k _ r1 s3 pstk h3
      rcases hcase with ⟨hr1, _, hs'⟩ | ⟨hr1, s4, h4, s5, h5, hs'⟩
      · obtain ⟨k1, _⟩ := i1 hr1
        rw [hs', (epilogue_sat _ _).2]
        have hpl : (pop_front s3).pure_literals = [] := k1
        have hso : (pop_front s3).solution = s3.solution := rfl
        rw [hpl, hso, List.map_nil, List.append_nil]
        exact i3
      · obtain ⟨k1, k2⟩ := i2 hr1
        obtain ⟨f1, f2, f3⟩ := solve_impl_frame _ _ _ _ ps h3
        have hc3 : s3.clauses = decision s3.step var false s2.clause_cnt :: s2.clauses := by
          rw [f2, f1, p1, p2]
        have hs3 : s3.step = s.step + 1 := by rw [f1, p2, g1]
        have h4' := negate_front_decision s3 s4 var _ _ hc3 (by rw [hs3]; omega) h4
        have q1 : s4.clauses = decision (s.step + 1) var true s2.clause_cnt :: s2.clauses := by
          rw [h4', hs3]
        have q2 : s4.step = s.step + 1 := by rw [h4']; exact hs3
        have q3 : s4.variable_cnt = tblAdd s2.variable_cnt var 1 := by
          rw [h4']; simp only; rw [f3, p3]
        have q4 : s4.pure_literals = s2.pure_literals := by
          rw [h4']; simp only; rw [k1, p4]
        have q5 : s4.solution = [] := by
          rw [h4']; simp only; rw [k2, p5, hsol2]
        have qb : Born s4.step s4.clauses := by
          rw [q1, q2]; exact born_decision _ _ _ _ _ g2
        have qs : Settled s4.step s4.clauses := by
          rw [q1, q2]; exact settled_decision _ _ _ _ _ g3
        have qo : OccAt (s4.step + 1) s4.clauses s4.variable_cnt := by
          rw [q1, q2, q3]
          exact occAt_decision _ _ _ _ _ _ hS g2 g3 g4 hvlt
        have qstk : ∀ q ∈ s4.pure_literals, q.2 ≤ s4.step := by
          rw [q4, q2]; exact hstk2
        have qok : StackOk s4.pure_literals s4.variable_cnt := by
          rw [q4, q3]; exact stackOk_tblAdd _ _ _ hvpos hok2
        have j3 := ih _ r s5 (by rw [q2]; omega) qb qs qo qstk q5 qok h5
        obtain ⟨_, j1, _⟩ := solve_impl_stack k _ r s5 qstk h5
        have hso : (pop_front s5).solution = s5.solution := rfl
        by_cases hsat : r = state_t.SAT
        · obtain ⟨m1, _⟩ := j1 hsat
          rw [hsat] at hs'
          rw [hs', (epilogue_sat _ _).2]
          have hpl : (pop_front s5).pure_literals = [] := m1
          rw [hpl, hso, List.map_nil, List.append_nil]
          exact j3
        · rw [hs', (epilogue_other _ _ _ hsat).2, hso]
          exact j3

/-- Claim C20: on a well-formed formula, after `solve()` on a fresh object
(empty pending stack, empty solution list) the solution list holds at most one
literal per variable, and it is empty when the recorded verdict is
UNSATISFIABLE. -/
theorem C20_solution_consistent (s : State) (hwf : WellFormed s)
    (hstk : s.pure_literals = []) (hsol : s.solution = []) (fuel : Nat)
    (hfuel : fuel < MAX_STEP) (s' : State) (h : solve fuel s = Run.ok s') :
    (s'.solution.map Literal.val).Nodup ∧
    (s'.solution_state = state_t.UNSAT → s'.solution = []) := by
  obtain ⟨r, s1, h1, h2⟩ := solve_inv fuel s s' h
  obtain ⟨hb, hs, ho⟩ := wellFormed_start s hwf
  have hst : ∀ q ∈ ({ s with step := 0 } : State).pure_literals,
      q.2 ≤ ({ s with step := 0 } : State).step := by
    intro q hq
    simp only [hstk] at hq
    cases hq
  have hnd := solve_impl_consistent fuel { s with step := 0 } r s1 (by simpa using hfuel)
    hb hs ho hst hsol (by simp only [hstk]; exact ⟨List.nodup_nil, fun q hq => by cases hq⟩) h1
  obtain ⟨_, _, i2⟩ := solve_impl_stack fuel { s with step := 0 } r s1 hst h1
  rw [h2]
  refine ⟨hnd, ?_⟩
  intro hu
  simp only at hu
  have : r ≠ state_t.SAT := by rw [hu]; decide
  rw [(i2 this).2]
  exact hsol

/-- Claim C20 on `(x1 ∨ x2)`: the solution list is `x2, x1`, one literal per
variable. -/
theorem C20_solution_consistent_witness :
    WellFormed pair_state ∧ solve 3 pair_state = Run.ok pair_solved ∧
    (pair_solved.solution.map Literal.val).Nodup ∧
    (pair_solved.solution_state = state_t.UNSAT → pair_solved.solution = []) :=
  ⟨wellFormed_pair, by decide,
    C20_solution_consistent pair_state wellFormed_pair rfl rfl 3 (by decide) pair_solved
      (by decide)⟩


end CNF
